import Mathlib

/-!
# A Sudoku solver by constraint propagation and search

A model of `sudoku.cpp`: the `Cell` bitset, the topology tables of `initGroups`, the mutually
recursive `assign` and `remove`, `smallest`, `solve`, and the constructor that reads a line,
followed by the properties proved of them.
-/

namespace Sudoku

/-! ## Cell: a `bitset<9>` kept as a natural number below 512 -/

namespace Cell

/-- The number of digits, `Cell::size()`. -/
def size : Nat := 9

/-- The constructor `Cell() : _bits(0x1FF)`. -/
def full : Nat := 0x1FF

/-- `Cell::isSet(i)`: bit `i` of the bitset. -/
def isSet (c i : Nat) : Bool := c.testBit i

/-- `Cell::count()`: the number of bits set among the nine. -/
def count (c : Nat) : Nat := ((List.range size).filter (fun i => isSet c i)).length

/-- `Cell::remove(i)`: clears bit `i` (`_bits[i] = false`). -/
def remove (c i : Nat) : Nat := c &&& (0x1FF ^^^ (1 <<< i))

/-- `Cell::val()`: the lowest set bit, or `size()` when no bit is set. -/
def val (c : Nat) : Nat := ((List.range size).find? (fun i => isSet c i)).getD size

end Cell

/-! ## Topology: `Board::initGroups` -/

/-- The rows and columns loop of `initGroups`: for each `r`, row `r` then column `r` is pushed. -/
def initRowsCols : List (List Nat) :=
  (List.range 9).foldl
    (fun gs r =>
      gs ++ [(List.range 9).map (fun c => 9 * r + c), (List.range 9).map (fun c => 9 * c + r)]) []

/-- The boxes loop of `initGroups`, `r` and `c` stepping by three. -/
def initBoxes : List (List Nat) :=
  [0, 3, 6].flatMap fun r => [0, 3, 6].map fun c =>
    [r, r + 1, r + 2].flatMap fun rdiff => [c, c + 1, c + 2].map fun cdiff => 9 * rdiff + cdiff

/-- Appends `i` to entry `g` of the membership table (`belong_to[g].push_back(i)`). -/
def pushAt (bt : List (List Nat)) (g i : Nat) : List (List Nat) :=
  bt.set g (bt.getD g [] ++ [i])

/-- `Board::initGroups`: the group table and, derived from it, the membership table, which
starts as 81 empty lists. -/
def initGroups : List (List Nat) × List (List Nat) :=
  let gs := initRowsCols ++ initBoxes
  (gs, (List.range gs.length).foldl
    (fun bt i => (gs.getD i []).foldl (fun bt g => pushAt bt g i) bt) (List.replicate 81 []))

/-- The static table `Board::groups`. -/
@[irreducible]
def groups : List (List Nat) := initGroups.1

/-- The static table `Board::belong_to`. -/
@[irreducible]
def belong_to : List (List Nat) := initGroups.2

/-! ## Board -/

/-- The mutable state of a `Board`: 81 cells and the 27 x 9 table of `uint8_t` counters. -/
structure Board where
  cells : List Nat
  group_counts : List (List Nat)
deriving DecidableEq

/-- The cell `_cells[x]` of a board. -/
def Board.cellAt (b : Board) (x : Nat) : Nat := b.cells.getD x 0

/-- What ends a run outside the boolean protocol of the program: the fuel that bounds the
recursion of the model is used up, the `assert` at the head of `Board::assign` fails, or
`_cells` is indexed past its end. -/
inductive Fault where
  | outOfFuel
  | assertion
  | outOfRange
deriving DecidableEq

/-- The outcome of running a piece of the program. -/
inductive Outcome (α : Type) where
  | fault (f : Fault)
  | ok (a : α)
deriving DecidableEq

/-- What `assign`, `remove` and `solve` produce: a fault, or the returned boolean with the
board as the call leaves it. -/
abbrev Res := Outcome (Bool × Board)

/-- A loop `for (x : xs) if (!f(x)) return false;` followed by success. -/
def forEach {α : Type} (f : Board → α → Res) : Board → List α → Res
  | b, [] => .ok (true, b)
  | b, x :: xs =>
    match f b x with
    | .ok (true, b1) => forEach f b1 xs
    | r => r

/-- The counter `group_counts[n][val]`; the program only reads it with `n` below 27 and `val`
below 9. -/
def getCount (b : Board) (n val : Nat) : Nat := (b.group_counts.getD n []).getD val 0

/-- The effect of `--group_counts[n][val]` on a `uint8_t`. -/
def decCount (b : Board) (n val : Nat) : Board :=
  { b with group_counts :=
      b.group_counts.set n ((b.group_counts.getD n []).set val ((getCount b n val + 255) % 256)) }

/-- `Board::assign`, its calls to `remove` going to `rm`: the candidate is asserted, then every
other digit is removed from the cell, stopping at the first failure. -/
def assignWith (rm : Board → Nat → Nat → Res) (b : Board) (cell val : Nat) : Res :=
  match b.cells[cell]? with
  | none => .fault .outOfRange
  | some c =>
    if Cell.isSet c val then
      forEach (fun b i => if i = val then .ok (true, b) else rm b cell i) b (List.range Cell.size)
    else .fault .assertion

/-- The first loop of `Board::remove`: the cell has just become fixed to `i`, which is removed
from every other cell of every group of the cell. -/
def cascadeWith (rm : Board → Nat → Nat → Res) (b : Board) (cell i : Nat) : Res :=
  forEach (fun b n =>
    forEach (fun b x => if x = cell then .ok (true, b) else rm b x i) b (groups.getD n []))
    b (belong_to.getD cell [])

/-- The second loop of `Board::remove`: each group of the cell has its counter for `val`
decremented, and when the counter becomes 1 the first cell of the group that still holds
`val` is assigned it. -/
def uniqueWith (rm : Board → Nat → Nat → Res) (b : Board) (cell val : Nat) : Res :=
  forEach (fun b n =>
    let b3 := decCount b n val
    if getCount b3 n val = 1 then
      match (groups.getD n []).find? (fun x => Cell.isSet (b3.cellAt x) val) with
      | some x => assignWith rm b3 x val
      | none => .ok (true, b3)
    else .ok (true, b3)) b (belong_to.getD cell [])

/-- The body of `Board::remove`, its recursive calls going to `rm`. -/
def removeWith (rm : Board → Nat → Nat → Res) (b : Board) (cell val : Nat) : Res :=
  match b.cells[cell]? with
  | none => .fault .outOfRange
  | some c =>
    if Cell.isSet c val then
      let c1 := Cell.remove c val
      let b1 : Board := { b with cells := b.cells.set cell c1 }
      if Cell.count c1 = 0 then .ok (false, b1)
      else
        match (if Cell.count c1 = 1 then cascadeWith rm b1 cell (Cell.val c1) else .ok (true, b1)) with
        | .ok (true, b2) => uniqueWith rm b2 cell val
        | r => r
    else .ok (true, b)

/-- `Board::remove`, the depth of the recursion bounded by the fuel. -/
def remove : Nat → Board → Nat → Nat → Res
  | 0, _, _, _ => .fault .outOfFuel
  | fuel + 1, b, cell, val => removeWith (remove fuel) b cell val

/-- `Board::assign`. -/
def assign (fuel : Nat) (b : Board) (cell val : Nat) : Res := assignWith (remove fuel) b cell val

/-- `Board::isSolved`. -/
def isSolved (b : Board) : Bool := b.cells.all (fun c => Cell.count c == 1)

/-- `set<size_t>::insert` on a duplicate-free list. -/
def setInsert (s : List Nat) (x : Nat) : List Nat := if x ∈ s then s else x :: s

/-- `Board::isSolvedDebug`. -/
def isSolvedDebug (b : Board) : Bool :=
  isSolved b &&
    groups.all (fun vec =>
      (vec.foldl (fun check i => setInsert check (Cell.val (b.cellAt i))) []).length == 9)

/-- `Board::smallest`. -/
def smallest (b : Board) : Nat :=
  ((List.range b.cells.length).foldl
    (fun (st : Nat × Nat) i =>
      let n := Cell.count (b.cellAt i)
      if n = 1 then st else if n < st.1 then (n, i) else st)
    (2 ^ 64 - 1, b.cells.length)).2

/-- The loop of `Board::solve` over the digits `j`. -/
def tryEach (f : Nat → Res) (b : Board) : List Nat → Res
  | [] => .ok (false, b)
  | j :: js =>
    match f j with
    | .ok (true, b1) => .ok (true, b1)
    | .ok (false, _) => tryEach f b js
    | .fault e => .fault e

/-- `Board::solve`. -/
def solve (pf : Nat) : Nat → Board → Res
  | 0, _ => .fault .outOfFuel
  | fuel + 1, b =>
    if isSolved b then .ok (true, b)
    else
      let i := smallest b
      match b.cells[i]? with
      | none => .fault .outOfRange
      | some c =>
        tryEach (fun j =>
          if Cell.isSet c j then
            match assign pf b i j with
            | .ok (true, cop) => solve pf fuel cop
            | r => r
          else .ok (false, b)) b (List.range Cell.size)

/-- The board before the input is read. -/
def fresh : Board :=
  { cells := List.replicate 81 Cell.full
    group_counts := List.replicate groups.length (List.replicate 9 9) }

/-- The loop of the constructor `Board::Board`. -/
def build (pf : Nat) : Board → Nat → List Char → Outcome Board
  | b, _, [] => .ok b
  | b, i, c :: cs =>
    if '1' ≤ c ∧ c ≤ '9' then
      match assign pf b i (c.toNat - '1'.toNat) with
      | .ok (true, b1) => build pf b1 (i + 1) cs
      | .ok (false, b1) => .ok b1
      | .fault e => .fault e
    else if c = '0' ∨ c = '.' then build pf b (i + 1) cs
    else build pf b i cs

/-- `Board::Board(inp)`. -/
def construct (pf : Nat) (inp : String) : Outcome Board := build pf fresh 0 inp.data

/-- The per-line body of `main`: construct, solve, and query `isSolvedDebug`. -/
def run (pf sf : Nat) (inp : String) : Outcome (Bool × Bool) :=
  match construct pf inp with
  | .fault e => .fault e
  | .ok b =>
    match solve pf sf b with
    | .fault e => .fault e
    | .ok (r, b1) => .ok (r, isSolvedDebug b1)

/-! ## Relations and predicates used to state the properties -/

/-- Candidate sets only shrink: same number of cells, every candidate of `b1` is one of `b`. -/
def Mono (b b1 : Board) : Prop :=
  b1.cells.length = b.cells.length ∧
    ∀ x i, Cell.isSet (b1.cellAt x) i = true → Cell.isSet (b.cellAt x) i = true

/-- Cell `x` shares a group with cell `c` and is another cell. -/
def Peer (c x : Nat) : Prop := x ≠ c ∧ ∃ n, n ∈ belong_to.getD c [] ∧ x ∈ groups.getD n []

/-- What a successful propagation guarantees: no cell was emptied, and every cell that became
fixed had its digit removed from all its peers. -/
def Succ (b b1 : Board) : Prop :=
  (∀ x, Cell.count (b.cellAt x) ≠ 0 → Cell.count (b1.cellAt x) ≠ 0) ∧
    ∀ c, Cell.count (b.cellAt c) ≠ 1 → Cell.count (b1.cellAt c) = 1 →
      ∀ x, Peer c x → Cell.isSet (b1.cellAt x) (Cell.val (b1.cellAt c)) = false

/-- Some cell of the board has no candidate left. -/
def HasEmpty (b : Board) : Prop := ∃ x, x < b.cells.length ∧ Cell.count (b.cellAt x) = 0

/-- The postcondition shared by `remove`, `assign` and their loops. -/
def Post (b : Board) : Res → Prop
  | .fault _ => True
  | .ok (true, b1) => Mono b b1 ∧ Succ b b1
  | .ok (false, b1) => Mono b b1 ∧ HasEmpty b1

/-- The contract of an elimination function: the shared postcondition, and on success the
digit is gone from the cell. -/
def RemSpec (rm : Board → Nat → Nat → Res) : Prop :=
  ∀ b c v, v < 9 → Post b (rm b c v) ∧
    ∀ b1, rm b c v = .ok (true, b1) → Cell.isSet (b1.cellAt c) v = false

/-- The postcondition of `solve`: success comes with a solved board reached by successful
propagation; failure leaves the board as it was. -/
def SolvePost (b : Board) : Res → Prop
  | .fault _ => True
  | .ok (true, b1) => Mono b b1 ∧ Succ b b1 ∧ isSolved b1 = true
  | .ok (false, b1) => b1 = b

/-- Every fixed cell's digit is absent from all the cell's peers. -/
def Inv (b : Board) : Prop :=
  ∀ c, Cell.count (b.cellAt c) = 1 →
    ∀ x, Peer c x → Cell.isSet (b.cellAt x) (Cell.val (b.cellAt c)) = false

/-- The digits of the cells of a group, each read by `Cell::val`. -/
def groupVals (b : Board) (n : Nat) : List Nat :=
  (groups.getD n []).map (fun i => Cell.val (b.cellAt i))

/-- The characters of a line that take a cell: the digits `'0'` to `'9'` and `'.'`. -/
def isCellChar (c : Char) : Bool := decide (('0' ≤ c ∧ c ≤ '9') ∨ c = '.')

/-- The effective cells of an input line, in order. -/
def effective (inp : String) : List Char := inp.data.filter isCellChar

/-- Outcome `r1` is what outcome `r` becomes with more fuel: the same, unless `r` ran out. -/
def FuelLe {α : Type} (r r1 : Outcome α) : Prop := r = .fault .outOfFuel ∨ r1 = r

/-- The number of candidates left on the whole board. -/
def bits (b : Board) : Nat := ∑ x in Finset.range b.cells.length, Cell.count (b.cellAt x)

/-- The cells whose candidate count is not 1. -/
def unsolvedSet (b : Board) : Finset Nat :=
  (Finset.range b.cells.length).filter (fun x => Cell.count (b.cellAt x) ≠ 1)

/-- The number of cells whose candidate count is not 1. -/
def unsolved (b : Board) : Nat := (unsolvedSet b).card

/-- An elimination function that returns on every 81-cell board with fewer than `N`
candidates left, for cells and digits in range. -/
def Total (rm : Board → Nat → Nat → Res) (N : Nat) : Prop :=
  ∀ b c v, b.cells.length = 81 → c < 81 → v < 9 → bits b < N → ∃ t b1, rm b c v = .ok (t, b1)

/-- The state of the scan of `smallest` after the cells below `k`: either no cell below `k` has
a count other than 1 and the state is the initial one, or it holds the first cell of least
count among those cells. -/
def ScanInv (b : Board) (k : Nat) (st : Nat × Nat) : Prop :=
  (st.2 = b.cells.length ∧ st.1 = 2 ^ 64 - 1 ∧ ∀ x, x < k → Cell.count (b.cellAt x) = 1) ∨
    (st.2 < k ∧ Cell.count (b.cellAt st.2) ≠ 1 ∧ st.1 = Cell.count (b.cellAt st.2) ∧
      (∀ x, x < k → Cell.count (b.cellAt x) ≠ 1 → st.1 ≤ Cell.count (b.cellAt x)) ∧
      ∀ x, x < st.2 → Cell.count (b.cellAt x) ≠ 1 → st.1 < Cell.count (b.cellAt x))

/-- The number of cells of group `n` that still hold digit `v` as a candidate. -/
def actual (b : Board) (n v : Nat) : Nat :=
  (groups.getD n []).countP (fun x => Cell.isSet (b.cellAt x) v)

/-- The counter table has its 27 x 9 shape. -/
def CountShape (b : Board) : Prop :=
  b.group_counts.length = 27 ∧ ∀ n, n < 27 → (b.group_counts.getD n []).length = 9

/-- Every counter exceeds the number of cells of its group that hold its digit by the
slack `k`, and fits in a byte. -/
def CountInv (k : Nat → Nat → Nat) (b : Board) : Prop :=
  CountShape b ∧ ∀ n v, n < 27 → v < 9 →
    getCount b n v = actual b n v + k n v ∧ getCount b n v < 256

/-- An elimination function whose successful calls keep every counter's slack. -/
def CountSpec (rm : Board → Nat → Nat → Res) : Prop :=
  ∀ b c v k b1, b.cells.length = 81 → c < 81 → v < 9 → CountInv k b →
    rm b c v = .ok (true, b1) → CountInv k b1

/-- A complete grid over the group table, digits numbered 0 to 8: every cell has a digit and
every group holds every digit in exactly one of its cells. -/
def ValidGrid (S : Nat → Nat) : Prop :=
  (∀ x, x < 81 → S x < 9) ∧
    ∀ n, n < 27 → ∀ d, d < 9 →
      ∃ x, x ∈ groups.getD n [] ∧ S x = d ∧ ∀ y, y ∈ groups.getD n [] → S y = d → y = x

/-- The grid is still possible on the board: each cell holds its grid digit as a candidate. -/
def Cons (S : Nat → Nat) (b : Board) : Prop :=
  ∀ x, x < 81 → Cell.isSet (b.cellAt x) (S x) = true

/-- An elimination function that, asked to remove from a cell a digit other than the grid's,
succeeds whenever it returns and keeps the grid possible. -/
def ConsSpec (S : Nat → Nat) (rm : Board → Nat → Nat → Res) : Prop :=
  ∀ b c v k t b1, b.cells.length = 81 → c < 81 → v < 9 → CountInv k b → Cons S b → S c ≠ v →
    rm b c v = .ok (t, b1) → t = true ∧ Cons S b1

/-- The cells of row `r`, `9r` to `9r + 8`. -/
def rowCells (r : Nat) : List Nat := (List.range 9).map (fun k => 9 * r + k)

/-- The cells of column `c`: `c`, `c + 9`, up to `c + 72`. -/
def colCells (c : Nat) : List Nat := (List.range 9).map (fun k => c + 9 * k)

/-- The cells of the aligned 3 x 3 box in box row `br` and box column `bc`. -/
def boxCells (br bc : Nat) : List Nat :=
  (List.range 9).map (fun k => 9 * (3 * br + k / 3) + (3 * bc + k % 3))

/-- The 9 rows, the 9 columns and the 9 aligned boxes of the grid. -/
def units : List (List Nat) :=
  (List.range 9).map rowCells ++ (List.range 9).map colCells ++
    (List.range 9).map (fun k => boxCells (k / 3) (k % 3))

/-- Each of the nine digits `lo` to `lo + 8` is the digit of exactly one of the cells. -/
def EachOnce (digit : Nat → Nat) (lo : Nat) (cells : List Nat) : Prop :=
  ∀ d, lo ≤ d → d < lo + 9 → (cells.map digit).count d = 1

/-- A complete grid of digits 1 to 9 in which every row, column and box holds every digit
exactly once. -/
def IsSolution (G : Nat → Nat) : Prop :=
  (∀ x, x < 81 → 1 ≤ G x ∧ G x ≤ 9) ∧ ∀ u, u ∈ units → EachOnce G 1 u

/-- The grid agrees with every digit given in the input line. -/
def Agrees (G : Nat → Nat) (inp : String) : Prop :=
  ∀ k c, (effective inp)[k]? = some c → '1' ≤ c ∧ c ≤ '9' → G k = c.toNat - '0'.toNat

/-- The line with every character other than `'0'`-`'9'` and `'.'` deleted and every `'0'`
replaced by `'.'`. -/
def normalize (inp : String) : String :=
  String.mk ((inp.data.filter isCellChar).map (fun c => if c = '0' then '.' else c))

/-- The line followed by `n` blank characters. -/
def padBlanks (inp : String) (n : Nat) : String := String.mk (inp.data ++ List.replicate n '.')

/-! ## Concrete inputs -/

/-- The puzzle line as the specification writes it: 80 characters. -/
def puzzle80 : String :=
  "53..7....6..195....98....6.8...6...34..8.3..17...2...6.6....28....419..5....8.79"

/-- The well-known puzzle the 80-character line comes from, its last row `....8..79`. -/
def puzzle81 : String :=
  "53..7....6..195....98....6.8...6...34..8.3..17...2...6.6....28....419..5....8..79"

/-- The solution grid of `puzzle81`, digits 1 to 9, row by row. -/
def solution81 : List Nat :=
  [5, 3, 4, 6, 7, 8, 9, 1, 2,
   6, 7, 2, 1, 9, 5, 3, 4, 8,
   1, 9, 8, 3, 4, 2, 5, 6, 7,
   8, 5, 9, 7, 6, 1, 4, 2, 3,
   4, 2, 6, 8, 5, 3, 7, 9, 1,
   7, 1, 3, 9, 2, 4, 8, 5, 6,
   9, 6, 1, 5, 3, 7, 2, 8, 4,
   2, 8, 7, 4, 1, 9, 6, 3, 5,
   3, 4, 5, 2, 8, 6, 1, 7, 9]

/-- The solution of `puzzle81` as a grid. -/
def grid81 (x : Nat) : Nat := solution81.getD x 0

/-- The board on which `puzzle81` ends: every cell fixed to its solution digit, every counter 1. -/
def solved81 : Board :=
  { cells := solution81.map (fun d => 2 ^ (d - 1))
    group_counts := List.replicate 27 (List.replicate 9 1) }

/-- The all-blank line written with dots. -/
def blankDots : String := String.mk (List.replicate 81 '.')

/-- The all-blank line written with zeros. -/
def blankZeros : String := String.mk (List.replicate 81 '0')

/-- The digit 5 given twice in the first row, then 79 blanks. -/
def dupRow : String := String.mk ('5' :: '5' :: List.replicate 79 '.')

/-- A line of 82 effective cells: 81 blanks, then a digit. -/
def overlong : String := String.mk (List.replicate 81 '.' ++ ['1'])

/-! ## Boards reached by assignments, and further concrete boards -/

/-- A sequence of calls `assign(cell, digit)`, each on a digit that is a candidate of its cell
and each returning true; `none` when a call is not of this kind. -/
def assignSeq (pf : Nat) : List (Nat × Nat) → Board → Option Board
  | [], b => some b
  | (c, d) :: rest, b =>
    if Cell.isSet (b.cellAt c) d then
      match assign pf b c d with
      | .ok (true, b1) => assignSeq pf rest b1
      | _ => none
    else none

/-- The board is reachable from the fresh board by calls of `assign` that each returned true. -/
def Reach (pf : Nat) (b : Board) : Prop := ∃ seq, assignSeq pf seq fresh = some b

/-- The fresh board with the candidates of cell 0 all removed. -/
def emptyCellBoard : Board := { fresh with cells := fresh.cells.set 0 0 }

/-- The reference definition of `smallest` over the cells whose count satisfies `p`: the lowest
index among the cells that have the minimum count taken over those cells, and the size of
the cell array when there is no such cell. -/
def smallestBy (p : Nat → Bool) (b : Board) : Nat :=
  let idx := (List.range b.cells.length).filter (fun i => p (Cell.count (b.cellAt i)))
  match (idx.map (fun i => Cell.count (b.cellAt i))).min? with
  | none => b.cells.length
  | some m => (idx.find? (fun i => Cell.count (b.cellAt i) == m)).getD b.cells.length

/-- The reference definition of `smallest` as the specification words it: over the cells with
count above 1. -/
def smallestRef (b : Board) : Nat := smallestBy (fun n => decide (1 < n)) b

/-- Cells 0, 1 and 2 of the fresh board cut down to the candidates 1 and 2: three cells of one
row that share two digits. -/
def stuckBoard : Board := { fresh with cells := ((fresh.cells.set 0 3).set 1 3).set 2 3 }

/-- Ten assignments that each return true from the fresh board on. -/
def seqA : List (Nat × Nat) :=
  [(73, 5), (65, 2), (27, 6), (45, 0), (55, 8), (75, 8), (18, 7), (61, 0), (76, 2), (71, 4)]

/-- The board the assignments of `seqA` lead to. -/
def boardA : Board :=
  { cells :=
      [318, 95, 379, 255, 507, 511, 511, 510, 495,
       318, 95, 379, 255, 507, 511, 511, 510, 495,
       128, 95, 379, 127, 379, 383, 383, 382, 367,
       64, 158, 442, 191, 443, 447, 447, 446, 431,
       318, 158, 442, 255, 507, 511, 511, 510, 495,
       1, 158, 442, 254, 506, 510, 510, 510, 494,
       26, 256, 218, 250, 250, 250, 238, 1, 238,
       10, 203, 4, 235, 235, 235, 490, 490, 16,
       26, 32, 219, 256, 4, 219, 202, 202, 202]
    group_counts :=
      [[7, 9, 7, 9, 8, 8, 8, 6, 7], [1, 6, 3, 6, 5, 3, 1, 1, 3], [7, 9, 7, 9, 8, 8, 8, 6, 7],
       [4, 7, 6, 7, 6, 1, 4, 4, 1], [7, 8, 6, 8, 7, 7, 8, 1, 6], [4, 8, 1, 8, 8, 6, 5, 5, 6],
       [5, 8, 6, 8, 7, 7, 1, 8, 6], [6, 8, 6, 8, 7, 8, 7, 7, 1], [5, 9, 7, 9, 8, 8, 6, 8, 7],
       [6, 8, 1, 8, 7, 8, 7, 7, 6], [1, 8, 6, 8, 7, 7, 6, 8, 6], [7, 9, 6, 9, 8, 8, 8, 8, 6],
       [1, 7, 2, 7, 5, 5, 6, 6, 1], [5, 9, 7, 9, 6, 8, 8, 8, 7], [4, 7, 1, 7, 1, 5, 6, 6, 2],
       [1, 8, 6, 8, 6, 7, 7, 7, 7], [2, 6, 1, 6, 3, 1, 5, 5, 1], [5, 8, 7, 8, 1, 7, 7, 7, 6],
       [6, 8, 5, 8, 8, 5, 6, 1, 5], [9, 9, 6, 9, 9, 9, 9, 6, 6], [6, 9, 9, 9, 6, 9, 9, 6, 9],
       [1, 7, 4, 7, 7, 4, 1, 6, 4], [6, 9, 6, 9, 9, 9, 6, 9, 6], [4, 9, 9, 9, 6, 9, 6, 9, 9],
       [2, 6, 1, 6, 4, 1, 3, 3, 1], [4, 7, 1, 7, 4, 6, 7, 7, 1], [1, 7, 2, 7, 1, 4, 7, 7, 2]] }

/-! ## Counters in step with the candidates, and the checked decrement -/

/-- Every counter equals the number of cells of its group that hold its digit. -/
def CountsExact (b : Board) : Prop :=
  CountShape b ∧ ∀ n v, n < 27 → v < 9 → getCount b n v = actual b n v

/-- The number of cells of group `n` that hold digit `v` on `b` and no longer on `b1`. -/
def lost (b b1 : Board) (n v : Nat) : Nat :=
  (groups.getD n []).countP (fun x => Cell.isSet (b.cellAt x) v && !Cell.isSet (b1.cellAt x) v)

/-- The second loop of `Board::remove` with one check added: a counter that is 0 when it is
about to be decremented ends the run with a fault, where the program lets it wrap to 255. -/
def uniqueChecked (rm : Board → Nat → Nat → Res) (b : Board) (cell val : Nat) : Res :=
  forEach (fun b n =>
    if getCount b n val = 0 then .fault .assertion
    else
      let b3 := decCount b n val
      if getCount b3 n val = 1 then
        match (groups.getD n []).find? (fun x => Cell.isSet (b3.cellAt x) val) with
        | some x => assignWith rm b3 x val
        | none => .ok (true, b3)
      else .ok (true, b3)) b (belong_to.getD cell [])

/-- The body of `Board::remove` with the checked second loop. -/
def removeCheckedWith (rm : Board → Nat → Nat → Res) (b : Board) (cell val : Nat) : Res :=
  match b.cells[cell]? with
  | none => .fault .outOfRange
  | some c =>
    if Cell.isSet c val then
      let c1 := Cell.remove c val
      let b1 : Board := { b with cells := b.cells.set cell c1 }
      if Cell.count c1 = 0 then .ok (false, b1)
      else
        match (if Cell.count c1 = 1 then cascadeWith rm b1 cell (Cell.val c1) else .ok (true, b1)) with
        | .ok (true, b2) => uniqueChecked rm b2 cell val
        | r => r
    else .ok (true, b)

/-- The function `Board::remove` with every decrement checked. -/
def removeChecked : Nat → Board → Nat → Nat → Res
  | 0, _, _, _ => .fault .outOfFuel
  | fuel + 1, b, cell, val => removeCheckedWith (removeChecked fuel) b cell val

/-- The function `Board::assign` with every decrement checked. -/
def assignChecked (fuel : Nat) (b : Board) (cell val : Nat) : Res :=
  assignWith (removeChecked fuel) b cell val

/-! ## Closed boards -/

/-- No cell of the board is without a candidate. -/
def NoEmpty (b : Board) : Prop := ∀ x, x < 81 → Cell.count (b.cellAt x) ≠ 0

/-- Some group has a digit that none of its cells holds as a candidate. -/
def GroupLost (b : Board) : Prop :=
  ∃ n v, n < 27 ∧ v < 9 ∧ ∀ x, x ∈ groups.getD n [] → Cell.isSet (b.cellAt x) v = false

/-- A digit held by exactly one cell of a group is that cell's only candidate. -/
def HiddenSingles (b : Board) : Prop :=
  ∀ n v, n < 27 → v < 9 → actual b n v = 1 →
    ∀ x, x ∈ groups.getD n [] → Cell.isSet (b.cellAt x) v = true → Cell.count (b.cellAt x) = 1

/-- Every counter that a run brought to 1 belongs to a digit its group has lost or to a digit
that one cell of the group is fixed to. -/
def Closes (b b1 : Board) : Prop :=
  ∀ n v, n < 27 → v < 9 → getCount b n v ≠ 1 → getCount b1 n v = 1 →
    actual b1 n v = 0 ∨
      ∃ x, x ∈ groups.getD n [] ∧ Cell.isSet (b1.cellAt x) v = true ∧ Cell.count (b1.cellAt x) = 1

/-- What a successful run guarantees next to `Post`: candidates only shrink, no cell is
emptied, and the counters brought to 1 are accounted for. -/
def Step (b b1 : Board) : Prop :=
  Mono b b1 ∧ (∀ x, Cell.count (b.cellAt x) ≠ 0 → Cell.count (b1.cellAt x) ≠ 0) ∧ Closes b b1

/-- An elimination function whose successful calls are steps. -/
def StepSpec (rm : Board → Nat → Nat → Res) : Prop :=
  ∀ b c v k b1, b.cells.length = 81 → c < 81 → v < 9 → CountInv k b →
    rm b c v = .ok (true, b1) → Step b b1

/-- Every candidate of board `t` is a candidate of board `b`. -/
def Sub (t b : Board) : Prop :=
  ∀ x, x < 81 → ∀ i, i < 9 → Cell.isSet (t.cellAt x) i = true → Cell.isSet (b.cellAt x) i = true

/-- A board on which propagation has nothing left to do and nothing has gone wrong: no cell is
empty, the digit of a fixed cell is absent from the cell's peers, a digit with one holder in a
group is that holder's only candidate, and no group has lost a digit. -/
def Closed (t : Board) : Prop :=
  NoEmpty t ∧ Inv t ∧ HiddenSingles t ∧ ¬ GroupLost t

/-- An elimination function that, asked to remove from a cell a digit the target board does not
hold there, succeeds whenever it returns and removes no candidate of the target. -/
def KeepSpec (t : Board) (rm : Board → Nat → Nat → Res) : Prop :=
  ∀ b c v k r b1, b.cells.length = 81 → c < 81 → v < 9 → CountInv k b → Sub t b →
    Cell.isSet (t.cellAt c) v = false → rm b c v = .ok (r, b1) → r = true ∧ Sub t b1

/-- What holds of every board reached from the fresh board by successful assignments. -/
def Sound (b : Board) : Prop :=
  b.cells.length = 81 ∧ (∀ x, b.cellAt x < 512) ∧ CountInv (fun _ _ => 0) b ∧ NoEmpty b ∧ Inv b ∧
    HiddenSingles b

/-! ## Facts about one cell -/

namespace Cell

theorem isSet_mod (c : Nat) {i : Nat} (h : i < 9) : isSet (c % 512) i = isSet c i := by
  unfold isSet
  rw [show (512 : Nat) = 2 ^ 9 from by norm_num, Nat.testBit_mod_two_pow]
  simp [h]

theorem count_congr {c d : Nat} (h : ∀ i, i < 9 → isSet c i = isSet d i) : count c = count d := by
  unfold count
  congr 1
  apply List.filter_congr
  intro i hi
  exact h i (by simpa [size] using hi)

theorem val_congr {c d : Nat} (h : ∀ i, i < 9 → isSet c i = isSet d i) : val c = val d := by
  unfold val
  have : (List.range size).find? (fun i => isSet c i) = (List.range size).find? (fun i => isSet d i) := by
    have hr : ∀ l : List Nat, (∀ i ∈ l, i < 9) →
        l.find? (fun i => isSet c i) = l.find? (fun i => isSet d i) := by
      intro l
      induction l with
      | nil => intro _; rfl
      | cons a l ih =>
        intro hl
        simp only [List.find?_cons]
        rw [h a (hl a (List.mem_cons_self _ _)), ih (fun i hi => hl i (List.mem_cons_of_mem _ hi))]
    exact hr _ (fun i hi => by simpa [size] using hi)
  rw [this]

theorem count_mod (c : Nat) : count (c % 512) = count c :=
  count_congr (fun _ h => isSet_mod c h)

theorem val_mod (c : Nat) : val (c % 512) = val c :=
  val_congr (fun _ h => isSet_mod c h)

theorem isSet_remove (c : Nat) {i : Nat} (hi : i < 9) (j : Nat) :
    isSet (remove c i) j = (isSet c j && (decide (j < 9) && decide (j ≠ i))) := by
  have h511 : Nat.testBit 0x1FF j = decide (j < 9) := by
    have := Nat.testBit_two_pow_sub_one 9 j
    rw [← this]
  unfold isSet remove
  rw [Nat.testBit_and, Nat.testBit_xor, Nat.one_shiftLeft, Nat.testBit_two_pow, h511]
  by_cases h1 : j < 9 <;> by_cases h2 : i = j
  · subst h2; simp [h1]
  · have h3 : j ≠ i := fun h => h2 h.symm
    simp [h1, h2, h3]
  · subst h2; exact absurd hi h1
  · have h3 : j ≠ i := fun h => h2 h.symm
    simp [h1, h2, h3]

theorem count_le (c : Nat) : count c ≤ 9 := by
  unfold count
  exact (List.length_filter_le _ _).trans (by simp [size])

theorem count_eq_zero_iff (c : Nat) : count c = 0 ↔ ∀ i, i < 9 → isSet c i = false := by
  unfold count
  rw [List.length_eq_zero, List.filter_eq_nil_iff]
  simp [size]

theorem one_aux : ∀ c, c < 512 → count c = 1 →
    val c < 9 ∧ ∀ i, i < 9 → (isSet c i = true ↔ i = val c) := by
  decide!

theorem one_aux2 : ∀ c, c < 512 → ∀ v, v < 9 →
    (∀ i, i < 9 → (isSet c i = true ↔ i = v)) → count c = 1 ∧ val c = v := by
  decide!

theorem of_count_eq_one {c : Nat} (h : count c = 1) :
    val c < 9 ∧ ∀ i, i < 9 → (isSet c i = true ↔ i = val c) := by
  have := one_aux (c % 512) (Nat.mod_lt _ (by norm_num)) (by rwa [count_mod])
  rw [val_mod] at this
  refine ⟨this.1, fun i hi => ?_⟩
  rw [← isSet_mod c hi]
  exact this.2 i hi

theorem count_eq_one_of {c v : Nat} (hv : v < 9) (h : ∀ i, i < 9 → (isSet c i = true ↔ i = v)) :
    count c = 1 ∧ val c = v := by
  have := one_aux2 (c % 512) (Nat.mod_lt _ (by norm_num)) v hv
    (fun i hi => by rw [isSet_mod c hi]; exact h i hi)
  rwa [count_mod, val_mod] at this

theorem count_mono {c d : Nat} (h : ∀ i, i < 9 → isSet c i = true → isSet d i = true) :
    count c ≤ count d := by
  unfold count
  rw [← List.countP_eq_length_filter, ← List.countP_eq_length_filter]
  apply List.countP_mono_left
  intro i hi
  exact h i (by simpa [size] using hi)

theorem remove_aux : ∀ c, c < 512 → ∀ i, i < 9 → isSet c i = true →
    count (remove c i) + 1 = count c := by
  decide!

theorem count_remove {c i : Nat} (hi : i < 9) (h : isSet c i = true) :
    count (remove c i) + 1 = count c := by
  have := remove_aux (c % 512) (Nat.mod_lt _ (by norm_num)) i hi (by rwa [isSet_mod c hi])
  rw [count_mod] at this
  rw [← this]
  congr 1
  apply count_congr
  intro j hj
  rw [isSet_remove _ hi, isSet_remove _ hi, isSet_mod c hj]

end Cell

/-! ## Relations between board states -/

theorem mono_refl (b : Board) : Mono b b := ⟨rfl, fun _ _ h => h⟩

theorem mono_trans {a b c : Board} (h1 : Mono a b) (h2 : Mono b c) : Mono a c :=
  ⟨h2.1.trans h1.1, fun x i h => h1.2 x i (h2.2 x i h)⟩

theorem mono_count_le {b b1 : Board} (h : Mono b b1) (x : Nat) :
    Cell.count (b1.cellAt x) ≤ Cell.count (b.cellAt x) :=
  Cell.count_mono (fun i _ hi => h.2 x i hi)

/-- A fixed cell that is not emptied keeps its digit. -/
theorem mono_fixed {b b1 : Board} (h : Mono b b1) {x : Nat} (h1 : Cell.count (b.cellAt x) = 1)
    (h0 : Cell.count (b1.cellAt x) ≠ 0) :
    Cell.count (b1.cellAt x) = 1 ∧ Cell.val (b1.cellAt x) = Cell.val (b.cellAt x) := by
  obtain ⟨hv, hs⟩ := Cell.of_count_eq_one h1
  apply Cell.count_eq_one_of hv
  intro i hi
  constructor
  · intro hset
    exact (hs i hi).1 (h.2 x i hset)
  · intro hiv
    subst hiv
    by_contra hne
    apply h0
    rw [Cell.count_eq_zero_iff]
    intro j hj
    by_contra hj1
    have hj2 : Cell.isSet (b1.cellAt x) j = true := by simpa using hj1
    have := (hs j hj).1 (h.2 x j hj2)
    subst this
    exact hne hj2

theorem succ_refl (b : Board) : Succ b b :=
  ⟨fun _ h => h, fun _ h1 h2 => absurd h2 h1⟩

theorem succ_trans {a b c : Board} (m2 : Mono b c) (h1 : Succ a b) (h2 : Succ b c) :
    Succ a c := by
  refine ⟨fun x h => h2.1 x (h1.1 x h), fun k hk1 hk2 x hp => ?_⟩
  by_cases hb : Cell.count (b.cellAt k) = 1
  · have hc0 : Cell.count (c.cellAt k) ≠ 0 := by omega
    have hv := (mono_fixed m2 hb hc0).2
    rw [hv]
    have := h1.2 k hk1 hb x hp
    by_contra hcon
    have hcon1 : Cell.isSet (c.cellAt x) (Cell.val (b.cellAt k)) = true := by simpa using hcon
    rw [m2.2 x _ hcon1] at this
    exact Bool.noConfusion this
  · exact h2.2 k hb hk2 x hp

theorem post_trans {a b : Board} {r : Res} (m : Mono a b) (s : Succ a b) (h : Post b r) :
    Post a r := by
  match r, h with
  | .fault _, _ => trivial
  | .ok (true, c), h => exact ⟨mono_trans m h.1, succ_trans h.1 s h.2⟩
  | .ok (false, c), h => exact ⟨mono_trans m h.1, h.2⟩

theorem post_of_mono {a b c : Board} (m : Mono a b) (h : Post b (.ok (false, c))) :
    Post a (.ok (false, c)) := ⟨mono_trans m h.1, h.2⟩

/-! ## The loop `forEach` -/

theorem forEach_post {α : Type} (f : Board → α → Res) (xs : List α)
    (hf : ∀ b x, x ∈ xs → Post b (f b x)) : ∀ b, Post b (forEach f b xs) := by
  induction xs with
  | nil => intro b; exact ⟨mono_refl b, succ_refl b⟩
  | cons x xs ih =>
    intro b
    have hx := hf b x (List.mem_cons_self _ _)
    unfold forEach
    split
    · rename_i b1 heq
      rw [heq] at hx
      exact post_trans hx.1 hx.2 (ih (fun b y hy => hf b y (List.mem_cons_of_mem _ hy)) b1)
    · exact hx

/-- When the loop succeeds, what each step established and what later steps cannot undo holds
for every element at the end. -/
theorem forEach_all {α : Type} (f : Board → α → Res) (Q : α → Board → Prop) (xs : List α)
    (hf : ∀ b x, x ∈ xs → Post b (f b x))
    (hq : ∀ b x b1, x ∈ xs → f b x = .ok (true, b1) → Q x b1)
    (hm : ∀ x b b1, Mono b b1 → Q x b → Q x b1) :
    ∀ b b1, forEach f b xs = .ok (true, b1) → ∀ x, x ∈ xs → Q x b1 := by
  induction xs with
  | nil => intro b b1 _ x hx; exact absurd hx (List.not_mem_nil _)
  | cons y ys ih =>
    intro b b1 h x hx
    unfold forEach at h
    split at h
    · rename_i b2 heq
      have hf2 : ∀ b x, x ∈ ys → Post b (f b x) := fun b y hy => hf b y (List.mem_cons_of_mem _ hy)
      rcases List.mem_cons.1 hx with hxy | hxys
      · subst hxy
        have hq1 := hq b x b2 (List.mem_cons_self _ _) heq
        have hp := forEach_post f ys hf2 b2
        rw [h] at hp
        exact hm x b2 b1 hp.1 hq1
      · exact ih hf2 (fun b x b1 hx => hq b x b1 (List.mem_cons_of_mem _ hx)) b2 b1 h x hxys
    · rename_i hne
      exact absurd h (hne b1)

/-! ## Reading and writing cells -/

theorem cellAt_of_getElem? {b : Board} {x c : Nat} (h : b.cells[x]? = some c) :
    x < b.cells.length ∧ b.cellAt x = c := by
  obtain ⟨hlt, hc⟩ := List.getElem?_eq_some_iff.1 h
  refine ⟨hlt, ?_⟩
  simp [Board.cellAt, List.getD_eq_getElem?_getD, h]

theorem getElem?_of_lt {b : Board} {x : Nat} (h : x < b.cells.length) :
    b.cells[x]? = some (b.cellAt x) := by
  simp [Board.cellAt, List.getD_eq_getElem?_getD, List.getElem?_eq_getElem h]

theorem cellAt_set (b : Board) {x : Nat} (hx : x < b.cells.length) (c y : Nat) :
    Board.cellAt { b with cells := b.cells.set x c } y = if y = x then c else b.cellAt y := by
  simp only [Board.cellAt, List.getD_eq_getElem?_getD, List.getElem?_set]
  by_cases h : x = y
  · subst h; simp [hx]
  · have h2 : ¬ y = x := fun e => h e.symm
    simp [h, h2]

theorem cellAt_decCount (b : Board) (n v x : Nat) : (decCount b n v).cellAt x = b.cellAt x := rfl

theorem cells_decCount (b : Board) (n v : Nat) : (decCount b n v).cells = b.cells := rfl

theorem mono_of_cells {b b1 : Board} (h : b1.cells = b.cells) : Mono b b1 :=
  ⟨by rw [h], fun x i hi => by simpa [Board.cellAt, h] using hi⟩

theorem succ_of_cells {b b1 : Board} (h : b1.cells = b.cells) : Succ b b1 := by
  have e : ∀ x, b1.cellAt x = b.cellAt x := fun x => by simp [Board.cellAt, h]
  exact ⟨fun x hx => by rwa [e], fun c h1 h2 => by rw [e] at h2; exact absurd h2 h1⟩

theorem post_of_cells {b b1 : Board} {r : Res} (h : b1.cells = b.cells) (p : Post b1 r) :
    Post b r :=
  post_trans (mono_of_cells h) (succ_of_cells h) p

/-! ## What `remove` and `assign` guarantee -/

theorem isSet_false_mono {b b1 : Board} (m : Mono b b1) {x i : Nat}
    (h : Cell.isSet (b.cellAt x) i = false) : Cell.isSet (b1.cellAt x) i = false := by
  by_contra hc
  have hc1 : Cell.isSet (b1.cellAt x) i = true := by simpa using hc
  rw [m.2 x i hc1] at h
  exact Bool.noConfusion h

theorem assignWith_spec {rm : Board → Nat → Nat → Res} (h : RemSpec rm) (b : Board) (c v : Nat) :
    Post b (assignWith rm b c v) ∧
      ∀ b1, assignWith rm b c v = .ok (true, b1) →
        ∀ i, i < 9 → i ≠ v → Cell.isSet (b1.cellAt c) i = false := by
  unfold assignWith
  split
  · exact ⟨trivial, fun b1 h1 => Outcome.noConfusion h1⟩
  · split
    · have hf : ∀ (b : Board) (i : Nat), i ∈ List.range Cell.size →
          Post b (if i = v then Outcome.ok (true, b) else rm b c i) := by
        intro b i hi
        split
        · exact ⟨mono_refl b, succ_refl b⟩
        · exact (h b c i (by simpa [Cell.size] using hi)).1
      refine ⟨forEach_post _ _ hf b, fun b1 h1 i hi hiv => ?_⟩
      have := forEach_all _ (fun i b => i = v ∨ Cell.isSet (b.cellAt c) i = false) _ hf
        (fun b i b1 hi hr => by
          by_cases hiv : i = v
          · exact Or.inl hiv
          · rw [if_neg hiv] at hr
            exact Or.inr ((h b c i (by simpa [Cell.size] using hi)).2 b1 hr))
        (fun i b b1 m hq => hq.imp id (isSet_false_mono m)) b b1 h1 i
        (by simpa [Cell.size] using hi)
      exact this.resolve_left hiv
    · exact ⟨trivial, fun b1 h1 => Outcome.noConfusion h1⟩

theorem cascadeWith_spec {rm : Board → Nat → Nat → Res} (h : RemSpec rm) (b : Board)
    (cell i : Nat) (hi : i < 9) :
    Post b (cascadeWith rm b cell i) ∧
      ∀ b1, cascadeWith rm b cell i = .ok (true, b1) →
        ∀ x, Peer cell x → Cell.isSet (b1.cellAt x) i = false := by
  have hin : ∀ (n : Nat) (b : Board) (x : Nat), x ∈ groups.getD n [] →
      Post b (if x = cell then Outcome.ok (true, b) else rm b x i) := by
    intro n b x _
    split
    · exact ⟨mono_refl b, succ_refl b⟩
    · exact (h b x i hi).1
  have hout : ∀ (b : Board) (n : Nat), n ∈ belong_to.getD cell [] →
      Post b (forEach (fun b x => if x = cell then Outcome.ok (true, b) else rm b x i) b
        (groups.getD n [])) := fun b n _ => forEach_post _ _ (hin n) b
  unfold cascadeWith
  refine ⟨forEach_post _ _ hout b, fun b1 h1 x hp => ?_⟩
  obtain ⟨hne, n, hn, hx⟩ := hp
  have := forEach_all _
    (fun n b => ∀ x, x ∈ groups.getD n [] → x = cell ∨ Cell.isSet (b.cellAt x) i = false) _ hout
    (fun b n b1 _ hr => forEach_all _ (fun x b => x = cell ∨ Cell.isSet (b.cellAt x) i = false) _
      (hin n)
      (fun b x b1 _ hr => by
        by_cases hxc : x = cell
        · exact Or.inl hxc
        · rw [if_neg hxc] at hr
          exact Or.inr ((h b x i hi).2 b1 hr))
      (fun x b b1 m hq => hq.imp id (isSet_false_mono m)) b b1 hr)
    (fun n b b1 m hq x hx => (hq x hx).imp id (isSet_false_mono m)) b b1 h1 n hn x hx
  exact this.resolve_left hne

theorem uniqueWith_spec {rm : Board → Nat → Nat → Res} (h : RemSpec rm) (b : Board)
    (cell val : Nat) : Post b (uniqueWith rm b cell val) := by
  unfold uniqueWith
  apply forEach_post
  intro b n _
  apply post_of_cells (cells_decCount b n val)
  simp only
  split
  · split
    · exact (assignWith_spec h _ _ _).1
    · exact ⟨mono_refl _, succ_refl _⟩
  · exact ⟨mono_refl _, succ_refl _⟩

theorem removeWith_spec {rm : Board → Nat → Nat → Res} (h : RemSpec rm) (b : Board)
    (cell val : Nat) (hv : val < 9) :
    Post b (removeWith rm b cell val) ∧
      ∀ b1, removeWith rm b cell val = .ok (true, b1) → Cell.isSet (b1.cellAt cell) val = false := by
  unfold removeWith
  split
  · exact ⟨trivial, fun b1 h1 => Outcome.noConfusion h1⟩
  rename_i c hc
  obtain ⟨hlt, hcell⟩ := cellAt_of_getElem? hc
  split
  swap
  · rename_i hns
    refine ⟨⟨mono_refl b, succ_refl b⟩, fun b1 h1 => ?_⟩
    have : b = b1 := by injection h1 with h1; injection h1
    subst this
    rw [hcell]
    simpa using hns
  rename_i hset
  simp only
  generalize hb1 : ({ b with cells := b.cells.set cell (Cell.remove c val) } : Board) = b1
  have hat : ∀ y, b1.cellAt y = if y = cell then Cell.remove c val else b.cellAt y := by
    intro y; rw [← hb1]; exact cellAt_set b hlt _ y
  have hlen : b1.cells.length = b.cells.length := by rw [← hb1]; simp
  have m1 : Mono b b1 := by
    refine ⟨hlen, fun x i hi => ?_⟩
    rw [hat] at hi
    by_cases hx : x = cell
    · rw [if_pos hx, Cell.isSet_remove _ hv] at hi
      rw [hx, hcell]
      simp only [Bool.and_eq_true] at hi
      exact hi.1
    · rwa [if_neg hx] at hi
  have hgone : Cell.isSet (b1.cellAt cell) val = false := by
    rw [hat, if_pos rfl, Cell.isSet_remove _ hv]; simp
  split
  · rename_i h0
    exact ⟨⟨m1, cell, by rw [hlen]; exact hlt, by rw [hat, if_pos rfl]; exact h0⟩,
      fun b2 h2 => by injection h2 with h2; injection h2 with h2; exact Bool.noConfusion h2⟩
  rename_i h0
  -- the state after the cascade, when it succeeds, is a good successor of `b`
  have key : ∀ b2, (if Cell.count (Cell.remove c val) = 1 then
        cascadeWith rm b1 cell (Cell.val (Cell.remove c val)) else Outcome.ok (true, b1))
        = .ok (true, b2) → Mono b b2 ∧ Succ b b2 ∧ Mono b1 b2 := by
    intro b2 h2
    split at h2
    · rename_i h1
      obtain ⟨hvv, hss⟩ := Cell.of_count_eq_one h1
      obtain ⟨hp, hq⟩ := cascadeWith_spec h b1 cell _ hvv
      rw [h2] at hp
      have hq := hq b2 h2
      refine ⟨mono_trans m1 hp.1, ⟨fun x hx => ?_, fun k hk1 hk2 x hpx => ?_⟩, hp.1⟩
      · apply hp.2.1
        rw [hat]
        by_cases hxc : x = cell
        · rw [if_pos hxc]; exact h0
        · rwa [if_neg hxc]
      · by_cases hkc : k = cell
        · subst hkc
          have h11 : Cell.count (b1.cellAt k) = 1 := by rw [hat, if_pos rfl]; exact h1
          have := (mono_fixed hp.1 h11 (by omega)).2
          rw [this, hat, if_pos rfl]
          exact hq x hpx
        · apply hp.2.2 k _ hk2 x hpx
          rw [hat, if_neg hkc]; exact hk1
    · rename_i h1
      have : b1 = b2 := by injection h2 with h2; injection h2
      subst this
      refine ⟨m1, ⟨fun x hx => ?_, fun k hk1 hk2 x _ => ?_⟩, mono_refl _⟩
      · rw [hat]
        by_cases hxc : x = cell
        · rw [if_pos hxc]; exact h0
        · rwa [if_neg hxc]
      · exfalso
        rw [hat] at hk2
        by_cases hkc : k = cell
        · rw [if_pos hkc] at hk2; exact h1 hk2
        · rw [if_neg hkc] at hk2; exact hk1 hk2
  have pc : Post b1 (if Cell.count (Cell.remove c val) = 1 then
        cascadeWith rm b1 cell (Cell.val (Cell.remove c val)) else Outcome.ok (true, b1)) := by
    split
    · rename_i h1
      exact (cascadeWith_spec h b1 cell _ (Cell.of_count_eq_one h1).1).1
    · exact ⟨mono_refl _, succ_refl _⟩
  split
  · rename_i b2 h2
    obtain ⟨m2, s2, m12⟩ := key b2 h2
    have pu := uniqueWith_spec h b2 cell val
    refine ⟨post_trans m2 s2 pu, fun b3 h3 => ?_⟩
    rw [h3] at pu
    exact isSet_false_mono (mono_trans m12 pu.1) hgone
  · rename_i r hr
    generalize hcas : (if Cell.count (Cell.remove c val) = 1 then
        cascadeWith rm b1 cell (Cell.val (Cell.remove c val)) else Outcome.ok (true, b1)) = res at *
    match res, pc, hr with
    | .fault _, _, _ => exact ⟨trivial, fun b1 h1 => Outcome.noConfusion h1⟩
    | .ok (true, b2), _, hr => exact absurd rfl (hr b2)
    | .ok (false, b2), pc, _ =>
      exact ⟨post_of_mono m1 pc,
        fun b2 h2 => by injection h2 with h2; injection h2 with h2; exact Bool.noConfusion h2⟩

theorem remove_spec : ∀ fuel, RemSpec (remove fuel) := by
  intro fuel
  induction fuel with
  | zero => intro b c v _; exact ⟨trivial, fun b1 h1 => Outcome.noConfusion h1⟩
  | succ n ih => intro b c v hv; exact removeWith_spec ih b c v hv

theorem assign_spec (fuel : Nat) (b : Board) (c v : Nat) :
    Post b (assign fuel b c v) ∧
      ∀ b1, assign fuel b c v = .ok (true, b1) →
        ∀ i, i < 9 → i ≠ v → Cell.isSet (b1.cellAt c) i = false :=
  assignWith_spec (remove_spec fuel) b c v

/-! ## `isSolved` and `solve` -/

theorem isSolved_iff (b : Board) :
    isSolved b = true ↔ ∀ x, x < b.cells.length → Cell.count (b.cellAt x) = 1 := by
  unfold isSolved
  rw [List.all_eq_true]
  constructor
  · intro h x hx
    have := h (b.cells[x]) (List.getElem_mem hx)
    have e : b.cellAt x = b.cells[x] := by
      simp [Board.cellAt, List.getD_eq_getElem?_getD, List.getElem?_eq_getElem hx]
    rw [e]
    simpa using this
  · intro h c hc
    obtain ⟨x, hx, rfl⟩ := List.getElem_of_mem hc
    have e : b.cellAt x = b.cells[x] := by
      simp [Board.cellAt, List.getD_eq_getElem?_getD, List.getElem?_eq_getElem hx]
    have := h x hx
    rw [e] at this
    simpa using this

theorem not_isSolved_of_hasEmpty {b : Board} (h : HasEmpty b) : isSolved b = false := by
  obtain ⟨x, hx, h0⟩ := h
  by_contra hc
  have hs : isSolved b = true := by simpa using hc
  have := (isSolved_iff b).1 hs x hx
  omega

theorem hasEmpty_mono {b b1 : Board} (m : Mono b b1) (h : HasEmpty b) : HasEmpty b1 := by
  obtain ⟨x, hx, h0⟩ := h
  exact ⟨x, by rw [m.1]; exact hx, by have := mono_count_le m x; omega⟩

theorem tryEach_post (f : Nat → Res) (b : Board) (js : List Nat)
    (hf : ∀ j b1, j ∈ js → f j = .ok (true, b1) → SolvePost b (.ok (true, b1))) :
    SolvePost b (tryEach f b js) := by
  induction js with
  | nil => exact rfl
  | cons j js ih =>
    unfold tryEach
    split
    · rename_i b1 heq
      exact hf j b1 (List.mem_cons_self _ _) heq
    · exact ih (fun j b1 hj => hf j b1 (List.mem_cons_of_mem _ hj))
    · trivial

theorem solve_post (pf : Nat) : ∀ fuel b, SolvePost b (solve pf fuel b) := by
  intro fuel
  induction fuel with
  | zero => intro b; trivial
  | succ n ih =>
    intro b
    unfold solve
    split
    · rename_i hs
      exact ⟨mono_refl b, succ_refl b, hs⟩
    · simp only
      split
      · trivial
      · apply tryEach_post
        intro j b1 _ hj
        split at hj
        · split at hj
          · rename_i cop hcop
            have hp := (assign_spec pf b (smallest b) j).1
            rw [hcop] at hp
            have hs := ih cop
            rw [hj] at hs
            exact ⟨mono_trans hp.1 hs.1, succ_trans hs.1 hp.2 hs.2.1, hs.2.2⟩
          · rename_i r hne
            exact absurd hj (by
              intro hr
              rw [hr] at hne
              exact hne b1 rfl)
        · exact absurd hj (by intro h; injection h with h; injection h with h; exact Bool.noConfusion h)

/-! ## The invariant behind soundness -/

theorem inv_step {b b1 : Board} (m : Mono b b1) (s : Succ b b1) (h : Inv b) : Inv b1 := by
  intro c hc x hp
  by_cases hb : Cell.count (b.cellAt c) = 1
  · rw [(mono_fixed m hb (by omega)).2]
    exact isSet_false_mono m (h c hb x hp)
  · exact s.2 c hb hc x hp

theorem getD_replicate {α : Type} (n : Nat) (a d : α) (x : Nat) :
    (List.replicate n a).getD x d = if x < n then a else d := by
  rw [List.getD_eq_getElem?_getD, List.getElem?_replicate]
  split <;> rfl

theorem cellAt_fresh (x : Nat) : fresh.cellAt x = if x < 81 then Cell.full else 0 :=
  getD_replicate 81 Cell.full 0 x

theorem count_full : Cell.count Cell.full = 9 := by decide

theorem count_zero : Cell.count 0 = 0 := by decide

theorem Inv_fresh : Inv fresh := by
  intro c hc
  rw [cellAt_fresh] at hc
  split at hc
  · rw [count_full] at hc; omega
  · rw [count_zero] at hc; omega

theorem length_fresh : fresh.cells.length = 81 := List.length_replicate 81 Cell.full

/-! ## The topology tables -/

theorem groups_length : groups.length = 27 := by decide!

theorem groups_shape : ∀ n, n < 27 →
    (groups.getD n []).length = 9 ∧ (groups.getD n []).Nodup ∧ ∀ x ∈ groups.getD n [], x < 81 := by
  decide!

theorem belong_of_group : ∀ n, n < 27 → ∀ x ∈ groups.getD n [], n ∈ belong_to.getD x [] := by
  decide!

theorem group_of_belong : ∀ c, c < 81 →
    (belong_to.getD c []).Nodup ∧ ∀ n ∈ belong_to.getD c [], n < 27 ∧ c ∈ groups.getD n [] := by
  decide!

theorem mem_groups_iff (vec : List Nat) : vec ∈ groups ↔ ∃ n, n < 27 ∧ vec = groups.getD n [] := by
  constructor
  · intro h
    obtain ⟨n, hn, rfl⟩ := List.getElem_of_mem h
    refine ⟨n, by rw [← groups_length]; exact hn, ?_⟩
    simp [List.getD_eq_getElem?_getD, List.getElem?_eq_getElem hn]
  · rintro ⟨n, hn, rfl⟩
    have hn2 : n < groups.length := by rw [groups_length]; exact hn
    have : groups.getD n [] = groups[n] := by
      simp [List.getD_eq_getElem?_getD, List.getElem?_eq_getElem hn2]
    rw [this]
    exact List.getElem_mem hn2

/-! ## The uniqueness check of `isSolvedDebug` -/

theorem setInsert_nodup {s : List Nat} (h : s.Nodup) (x : Nat) : (setInsert s x).Nodup := by
  unfold setInsert
  split
  · exact h
  · rename_i hx
    exact List.nodup_cons.2 ⟨hx, h⟩

theorem mem_setInsert (s : List Nat) (x y : Nat) : y ∈ setInsert s x ↔ y = x ∨ y ∈ s := by
  unfold setInsert
  split
  · rename_i hx
    constructor
    · exact Or.inr
    · rintro (rfl | h)
      · exact hx
      · exact h
  · exact List.mem_cons

theorem insertAll_spec (g : Nat → Nat) (l : List Nat) : ∀ s : List Nat, s.Nodup →
    (l.foldl (fun check i => setInsert check (g i)) s).Nodup ∧
      ∀ y, y ∈ l.foldl (fun check i => setInsert check (g i)) s ↔ y ∈ s ∨ y ∈ l.map g := by
  induction l with
  | nil => intro s hs; simpa using hs
  | cons a l ih =>
    intro s hs
    rw [List.foldl_cons]
    obtain ⟨h1, h2⟩ := ih (setInsert s (g a)) (setInsert_nodup hs _)
    refine ⟨h1, fun y => ?_⟩
    rw [h2, mem_setInsert, List.map_cons, List.mem_cons]
    tauto

theorem insertAll_length (g : Nat → Nat) (l : List Nat) :
    (l.foldl (fun check i => setInsert check (g i)) []).length = (l.map g).dedup.length := by
  obtain ⟨h1, h2⟩ := insertAll_spec g l [] List.nodup_nil
  apply List.Perm.length_eq
  rw [List.perm_ext_iff_of_nodup h1 (List.nodup_dedup _)]
  intro y
  rw [h2, List.mem_dedup]
  simp

theorem dedup_length_eq_iff (l : List Nat) : l.dedup.length = l.length ↔ l.Nodup := by
  constructor
  · intro h
    have := (List.dedup_sublist l).eq_of_length h
    exact List.dedup_eq_self.1 this
  · intro h
    rw [h.dedup]

theorem isSolvedDebug_iff (b : Board) :
    isSolvedDebug b = true ↔ isSolved b = true ∧ ∀ n, n < 27 → (groupVals b n).Nodup := by
  unfold isSolvedDebug
  rw [Bool.and_eq_true, List.all_eq_true]
  apply and_congr_right
  intro _
  constructor
  · intro h n hn
    have := h _ ((mem_groups_iff _).2 ⟨n, hn, rfl⟩)
    rw [beq_iff_eq, insertAll_length] at this
    rw [← dedup_length_eq_iff, groupVals, this, List.length_map, (groups_shape n hn).1]
  · intro h vec hvec
    obtain ⟨n, hn, rfl⟩ := (mem_groups_iff _).1 hvec
    rw [beq_iff_eq, insertAll_length]
    have := h n hn
    rw [← dedup_length_eq_iff] at this
    rw [groupVals] at this
    rw [this, List.length_map, (groups_shape n hn).1]

/-- A solved board that satisfies the peer invariant passes the full check. -/
theorem isSolvedDebug_of_inv {b : Board} (hlen : b.cells.length = 81) (hs : isSolved b = true)
    (hi : Inv b) : isSolvedDebug b = true := by
  rw [isSolvedDebug_iff]
  refine ⟨hs, fun n hn => ?_⟩
  obtain ⟨_, hnd, hlt⟩ := groups_shape n hn
  apply List.Nodup.map_on _ hnd
  intro x hx y hy hxy
  by_contra hne
  have hcx := (isSolved_iff b).1 hs x (by rw [hlen]; exact hlt x hx)
  have hcy := (isSolved_iff b).1 hs y (by rw [hlen]; exact hlt y hy)
  have hp : Peer x y := ⟨fun e => hne e.symm, n, belong_of_group n hn x hx, hy⟩
  have h1 := hi x hcx y hp
  obtain ⟨hv, hss⟩ := Cell.of_count_eq_one hcy
  have h2 := (hss _ hv).2 rfl
  rw [hxy, h2] at h1
  exact Bool.noConfusion h1

/-! ## The constructor -/

theorem digit_lt {c : Char} (h : '1' ≤ c ∧ c ≤ '9') : c.toNat - '1'.toNat < 9 := by
  obtain ⟨h1, h2⟩ := h
  have e1 : '1'.toNat ≤ c.toNat := h1
  have e2 : c.toNat ≤ '9'.toNat := h2
  have e3 : '1'.toNat = 49 := rfl
  have e4 : '9'.toNat = 57 := rfl
  omega

/-- A successful `assign` leaves the cell with the assigned digit as its only candidate. -/
theorem assign_fixes {fuel : Nat} {b b1 : Board} {c v : Nat} (hv : v < 9)
    (h : assign fuel b c v = .ok (true, b1)) :
    Cell.count (b1.cellAt c) = 1 ∧ Cell.val (b1.cellAt c) = v := by
  obtain ⟨hp, hq⟩ := assign_spec fuel b c v
  have hq := hq b1 h
  rw [h] at hp
  have hset : Cell.isSet (b.cellAt c) v = true := by
    unfold assign assignWith at h
    split at h
    · exact Outcome.noConfusion h
    · rename_i c0 hc0
      split at h
      · rename_i hs
        rw [(cellAt_of_getElem? hc0).2]; exact hs
      · exact Outcome.noConfusion h
  have hne : Cell.count (b.cellAt c) ≠ 0 := by
    intro h0
    rw [Cell.count_eq_zero_iff] at h0
    rw [h0 v hv] at hset
    exact Bool.noConfusion hset
  have hne1 := hp.2.1 c hne
  apply Cell.count_eq_one_of hv
  intro i hi
  constructor
  · intro hs
    by_contra hiv
    rw [hq i hi hiv] at hs
    exact Bool.noConfusion hs
  · intro hiv
    subst hiv
    by_contra hs
    apply hne1
    rw [Cell.count_eq_zero_iff]
    intro j hj
    by_cases hji : j = i
    · subst hji; simpa using hs
    · exact hq j hj hji

theorem filter_isCellChar_cons (c : Char) (cs : List Char) :
    (c :: cs).filter isCellChar = if isCellChar c then c :: cs.filter isCellChar
      else cs.filter isCellChar := by
  rw [List.filter_cons]

/-- What the constructor returns: either a board with an empty cell (a clue failed), or a
successor of the starting board reached by successful propagation in which every clue read
is fixed in its cell. -/
theorem build_spec (pf : Nat) : ∀ (cs : List Char) (b : Board) (i : Nat) (bf : Board),
    build pf b i cs = .ok bf →
      HasEmpty bf ∨ (Mono b bf ∧ Succ b bf ∧
        ∀ k c, (cs.filter isCellChar)[k]? = some c → '1' ≤ c ∧ c ≤ '9' →
          Cell.count (bf.cellAt (i + k)) = 1 ∧ Cell.val (bf.cellAt (i + k)) = c.toNat - '1'.toNat) := by
  intro cs
  induction cs with
  | nil =>
    intro b i bf h
    have : b = bf := by unfold build at h; injection h
    subst this
    exact Or.inr ⟨mono_refl b, succ_refl b, fun k c hk => by simp at hk⟩
  | cons c cs ih =>
    intro b i bf h
    unfold build at h
    split at h
    · rename_i hd
      have hcc : isCellChar c = true := by
        unfold isCellChar
        have : '0' ≤ c := le_trans (by decide) hd.1
        simp [this, hd.2]
      split at h
      · rename_i b1 ha
        have hp := (assign_spec pf b i (c.toNat - '1'.toNat)).1
        rw [ha] at hp
        have hfix := assign_fixes (digit_lt hd) ha
        rcases ih b1 (i + 1) bf h with he | ⟨m, s, hk⟩
        · exact Or.inl he
        · refine Or.inr ⟨mono_trans hp.1 m, succ_trans m hp.2 s, fun k d hkd hdd => ?_⟩
          rw [filter_isCellChar_cons, if_pos hcc] at hkd
          cases k with
          | zero =>
            simp only [List.getElem?_cons_zero, Option.some.injEq] at hkd
            subst hkd
            have := mono_fixed m hfix.1 (s.1 i (by omega))
            rw [Nat.add_zero]
            exact ⟨this.1, this.2.trans hfix.2⟩
          | succ k =>
            rw [List.getElem?_cons_succ] at hkd
            have := hk k d hkd hdd
            rwa [show i + 1 + k = i + (k + 1) by omega] at this
      · rename_i b1 ha
        have hp := (assign_spec pf b i (c.toNat - '1'.toNat)).1
        rw [ha] at hp
        have : b1 = bf := by injection h
        subst this
        exact Or.inl hp.2
      · exact Outcome.noConfusion h
    · rename_i hd
      split at h
      · rename_i hb
        have hcc : isCellChar c = true := by
          unfold isCellChar
          rcases hb with rfl | rfl
          · decide
          · decide
        rcases ih b (i + 1) bf h with he | ⟨m, s, hk⟩
        · exact Or.inl he
        · refine Or.inr ⟨m, s, fun k d hkd hdd => ?_⟩
          rw [filter_isCellChar_cons, if_pos hcc] at hkd
          cases k with
          | zero =>
            simp only [List.getElem?_cons_zero, Option.some.injEq] at hkd
            subst hkd
            exact absurd hdd hd
          | succ k =>
            rw [List.getElem?_cons_succ] at hkd
            have := hk k d hkd hdd
            rwa [show i + 1 + k = i + (k + 1) by omega] at this
      · rename_i hb
        have hcc : isCellChar c = false := by
          unfold isCellChar
          have h9 : ¬ ('0' ≤ c ∧ c ≤ '9') := by
            rintro ⟨h0, h9⟩
            by_cases h1 : '1' ≤ c
            · exact hd ⟨h1, h9⟩
            · apply hb
              left
              have e0 : '0'.toNat ≤ c.toNat := h0
              have e1 : ¬ '1'.toNat ≤ c.toNat := h1
              have e3 : '1'.toNat = 49 := rfl
              have e4 : '0'.toNat = 48 := rfl
              have : c.toNat = 48 := by omega
              apply Char.ext
              apply UInt32.ext
              exact this
          have hdot : ¬ c = '.' := fun e => hb (Or.inr e)
          simp [h9, hdot]
        rcases ih b i bf h with he | ⟨m, s, hk⟩
        · exact Or.inl he
        · refine Or.inr ⟨m, s, fun k d hkd hdd => ?_⟩
          rw [filter_isCellChar_cons, hcc] at hkd
          exact hk k d hkd hdd

/-- Soundness of construction followed by search. -/
theorem run_sound {pf sf : Nat} {inp : String} {b b1 : Board} (hc : construct pf inp = .ok b)
    (hs : solve pf sf b = .ok (true, b1)) :
    b1.cells.length = 81 ∧ isSolved b1 = true ∧ Inv b1 ∧
      ∀ k c, (effective inp)[k]? = some c → '1' ≤ c ∧ c ≤ '9' →
        Cell.count (b1.cellAt k) = 1 ∧ Cell.val (b1.cellAt k) = c.toNat - '1'.toNat := by
  have hsp := solve_post pf sf b
  rw [hs] at hsp
  obtain ⟨m2, s2, hsol⟩ := hsp
  rcases build_spec pf _ _ _ _ hc with he | ⟨m, s, hk⟩
  · have := not_isSolved_of_hasEmpty (hasEmpty_mono m2 he)
    rw [hsol] at this
    exact Bool.noConfusion this
  · refine ⟨by rw [m2.1, m.1]; exact length_fresh, hsol, inv_step m2 s2 (inv_step m s Inv_fresh),
      fun k c hkc hd => ?_⟩
    have h1 := hk k c hkc hd
    rw [Nat.zero_add] at h1
    have := mono_fixed m2 h1.1 (s2.1 k (by omega))
    exact ⟨this.1, this.2.trans h1.2⟩

/-! ## More fuel never changes an outcome -/

theorem fuelLe_refl {α : Type} (r : Outcome α) : FuelLe r r := Or.inr rfl

theorem fuelLe_trans {α : Type} {r1 r2 r3 : Outcome α} (h1 : FuelLe r1 r2) (h2 : FuelLe r2 r3) :
    FuelLe r1 r3 := by
  rcases h1 with h1 | h1
  · exact Or.inl h1
  · rcases h2 with h2 | h2
    · exact Or.inl (h1 ▸ h2)
    · exact Or.inr (h2.trans h1)

theorem forEach_fuel {α : Type} {f g : Board → α → Res} (xs : List α)
    (h : ∀ b x, x ∈ xs → FuelLe (f b x) (g b x)) : ∀ b, FuelLe (forEach f b xs) (forEach g b xs) := by
  induction xs with
  | nil => intro b; exact fuelLe_refl _
  | cons x xs ih =>
    intro b
    have ih2 := ih (fun b y hy => h b y (List.mem_cons_of_mem _ hy))
    rcases h b x (List.mem_cons_self _ _) with h1 | h1
    · left
      unfold forEach
      rw [h1]
    · unfold forEach
      rw [h1]
      split
      · exact ih2 _
      · exact fuelLe_refl _

theorem assignWith_fuel {rm rm1 : Board → Nat → Nat → Res}
    (h : ∀ b c v, FuelLe (rm b c v) (rm1 b c v)) (b : Board) (c v : Nat) :
    FuelLe (assignWith rm b c v) (assignWith rm1 b c v) := by
  unfold assignWith
  split
  · exact fuelLe_refl _
  · split
    · apply forEach_fuel
      intro b i _
      split
      · exact fuelLe_refl _
      · exact h b c i
    · exact fuelLe_refl _

theorem cascadeWith_fuel {rm rm1 : Board → Nat → Nat → Res}
    (h : ∀ b c v, FuelLe (rm b c v) (rm1 b c v)) (b : Board) (c i : Nat) :
    FuelLe (cascadeWith rm b c i) (cascadeWith rm1 b c i) := by
  unfold cascadeWith
  apply forEach_fuel
  intro b n _
  apply forEach_fuel
  intro b x _
  split
  · exact fuelLe_refl _
  · exact h b x i

theorem uniqueWith_fuel {rm rm1 : Board → Nat → Nat → Res}
    (h : ∀ b c v, FuelLe (rm b c v) (rm1 b c v)) (b : Board) (c v : Nat) :
    FuelLe (uniqueWith rm b c v) (uniqueWith rm1 b c v) := by
  unfold uniqueWith
  apply forEach_fuel
  intro b n _
  simp only
  split
  · split
    · exact assignWith_fuel h _ _ _
    · exact fuelLe_refl _
  · exact fuelLe_refl _

theorem removeWith_fuel {rm rm1 : Board → Nat → Nat → Res}
    (h : ∀ b c v, FuelLe (rm b c v) (rm1 b c v)) (b : Board) (c v : Nat) :
    FuelLe (removeWith rm b c v) (removeWith rm1 b c v) := by
  unfold removeWith
  split
  · exact fuelLe_refl _
  rename_i c0 _
  split
  swap
  · exact fuelLe_refl _
  simp only
  split
  · exact fuelLe_refl _
  have hc : FuelLe
      (if Cell.count (Cell.remove c0 v) = 1 then
        cascadeWith rm { b with cells := b.cells.set c (Cell.remove c0 v) } c
          (Cell.val (Cell.remove c0 v))
        else Outcome.ok (true, { b with cells := b.cells.set c (Cell.remove c0 v) }))
      (if Cell.count (Cell.remove c0 v) = 1 then
        cascadeWith rm1 { b with cells := b.cells.set c (Cell.remove c0 v) } c
          (Cell.val (Cell.remove c0 v))
        else Outcome.ok (true, { b with cells := b.cells.set c (Cell.remove c0 v) })) := by
    split
    · exact cascadeWith_fuel h _ _ _
    · exact fuelLe_refl _
  rcases hc with hc | hc
  · left
    rw [hc]
  · rw [hc]
    generalize (if Cell.count (Cell.remove c0 v) = 1 then
        cascadeWith rm { b with cells := b.cells.set c (Cell.remove c0 v) } c
          (Cell.val (Cell.remove c0 v))
        else Outcome.ok (true, { b with cells := b.cells.set c (Cell.remove c0 v) })) = res
    match res with
    | .fault _ => exact fuelLe_refl _
    | .ok (true, b2) => exact uniqueWith_fuel h _ _ _
    | .ok (false, _) => exact fuelLe_refl _

theorem remove_fuel_succ : ∀ fuel b c v, FuelLe (remove fuel b c v) (remove (fuel + 1) b c v) := by
  intro fuel
  induction fuel with
  | zero => intro b c v; exact Or.inl rfl
  | succ n ih => intro b c v; exact removeWith_fuel ih b c v

theorem remove_fuel {f g : Nat} (h : f ≤ g) (b : Board) (c v : Nat) :
    FuelLe (remove f b c v) (remove g b c v) := by
  induction h with
  | refl => exact fuelLe_refl _
  | step _ ih => exact fuelLe_trans ih (remove_fuel_succ _ b c v)

theorem assign_fuel {f g : Nat} (h : f ≤ g) (b : Board) (c v : Nat) :
    FuelLe (assign f b c v) (assign g b c v) :=
  assignWith_fuel (remove_fuel h) b c v

theorem tryEach_fuel {f g : Nat → Res} (b : Board) (js : List Nat)
    (h : ∀ j, j ∈ js → FuelLe (f j) (g j)) : FuelLe (tryEach f b js) (tryEach g b js) := by
  induction js with
  | nil => exact fuelLe_refl _
  | cons j js ih =>
    have ih2 := ih (fun j hj => h j (List.mem_cons_of_mem _ hj))
    rcases h j (List.mem_cons_self _ _) with h1 | h1
    · left
      unfold tryEach
      rw [h1]
    · unfold tryEach
      rw [h1]
      split
      · exact fuelLe_refl _
      · exact ih2
      · exact fuelLe_refl _

theorem solve_fuel_aux {pf pg : Nat} (hp : pf ≤ pg) :
    ∀ sf b, FuelLe (solve pf sf b) (solve pg (sf + 1) b) ∧ FuelLe (solve pf sf b) (solve pg sf b) := by
  intro sf
  induction sf with
  | zero => intro b; exact ⟨Or.inl rfl, Or.inl rfl⟩
  | succ n ih =>
    intro b
    have body : ∀ m, (∀ b, FuelLe (solve pf n b) (solve pg m b)) →
        FuelLe (solve pf (n + 1) b) (solve pg (m + 1) b) := by
      intro m hm
      unfold solve
      split
      · exact fuelLe_refl _
      · simp only
        split
        · exact fuelLe_refl _
        · apply tryEach_fuel
          intro j _
          split
          · rcases assign_fuel hp b (smallest b) j with h1 | h1
            · left; rw [h1]
            · rw [h1]
              split
              · exact hm _
              · exact fuelLe_refl _
          · exact fuelLe_refl _
    exact ⟨body (n + 1) (fun b => (ih b).1), body n (fun b => (ih b).2)⟩

theorem solve_fuel {pf pg sf sg : Nat} (hp : pf ≤ pg) (hs : sf ≤ sg) (b : Board) :
    FuelLe (solve pf sf b) (solve pg sg b) := by
  induction hs with
  | refl => exact (solve_fuel_aux hp sf b).2
  | step _ ih => exact fuelLe_trans ih (solve_fuel_aux (le_refl pg) _ b).1

theorem build_fuel {pf pg : Nat} (hp : pf ≤ pg) : ∀ (cs : List Char) (b : Board) (i : Nat),
    FuelLe (build pf b i cs) (build pg b i cs) := by
  intro cs
  induction cs with
  | nil => intro b i; exact fuelLe_refl _
  | cons c cs ih =>
    intro b i
    unfold build
    split
    · rcases assign_fuel hp b i (c.toNat - '1'.toNat) with h1 | h1
      · left; rw [h1]
      · rw [h1]
        split
        · exact ih _ _
        · exact fuelLe_refl _
        · exact fuelLe_refl _
    · split
      · exact ih _ _
      · exact ih _ _

theorem construct_fuel {pf pg : Nat} (hp : pf ≤ pg) (inp : String) :
    FuelLe (construct pf inp) (construct pg inp) := build_fuel hp _ _ _

theorem run_fuel {pf pg sf sg : Nat} (hp : pf ≤ pg) (hs : sf ≤ sg) (inp : String) :
    FuelLe (run pf sf inp) (run pg sg inp) := by
  unfold run
  rcases construct_fuel hp inp with h1 | h1
  · left; rw [h1]
  · rw [h1]
    split
    · exact fuelLe_refl _
    · rename_i b _
      rcases solve_fuel hp hs b with h2 | h2
      · left; rw [h2]
      · rw [h2]
        exact fuelLe_refl _

/-! ## Termination of the propagation -/

theorem mono_bits_le {b b1 : Board} (m : Mono b b1) : bits b1 ≤ bits b := by
  unfold bits
  rw [m.1]
  exact Finset.sum_le_sum (fun x _ => mono_count_le m x)

theorem bits_le (b : Board) : bits b ≤ 9 * b.cells.length := by
  unfold bits
  calc ∑ x in Finset.range b.cells.length, Cell.count (b.cellAt x)
      ≤ ∑ _x in Finset.range b.cells.length, 9 := Finset.sum_le_sum (fun x _ => Cell.count_le _)
    _ = 9 * b.cells.length := by simp [mul_comm]

theorem forEach_total {α : Type} (f : Board → α → Res) (I : Board → Prop) (xs : List α)
    (hI : ∀ b b1, Mono b b1 → I b → I b1)
    (hp : ∀ b x, x ∈ xs → Post b (f b x))
    (hf : ∀ b x, x ∈ xs → I b → ∃ t b1, f b x = .ok (t, b1)) :
    ∀ b, I b → ∃ t b1, forEach f b xs = .ok (t, b1) := by
  induction xs with
  | nil => intro b _; exact ⟨true, b, rfl⟩
  | cons x xs ih =>
    intro b hb
    obtain ⟨t, b1, h1⟩ := hf b x (List.mem_cons_self _ _) hb
    have hp1 := hp b x (List.mem_cons_self _ _)
    unfold forEach
    rw [h1] at hp1 ⊢
    cases t with
    | true =>
      exact ih (fun b y hy => hp b y (List.mem_cons_of_mem _ hy))
        (fun b y hy => hf b y (List.mem_cons_of_mem _ hy)) b1 (hI b b1 hp1.1 hb)
    | false => exact ⟨false, b1, rfl⟩

theorem budget_mono {N : Nat} (b b1 : Board) (m : Mono b b1)
    (h : b.cells.length = 81 ∧ bits b < N) : b1.cells.length = 81 ∧ bits b1 < N :=
  ⟨m.1.trans h.1, lt_of_le_of_lt (mono_bits_le m) h.2⟩

theorem assignWith_total {rm : Board → Nat → Nat → Res} {N : Nat} (hs : RemSpec rm)
    (ht : Total rm N) (b : Board) (c v : Nat) (hlen : b.cells.length = 81) (hc : c < 81)
    (hset : Cell.isSet (b.cellAt c) v = true) (hb : bits b < N) :
    ∃ t b1, assignWith rm b c v = .ok (t, b1) := by
  unfold assignWith
  rw [getElem?_of_lt (by rw [hlen]; exact hc)]
  simp only [hset, if_true]
  apply forEach_total _ (fun b => b.cells.length = 81 ∧ bits b < N) _ budget_mono
  · intro b i hi
    split
    · exact ⟨mono_refl b, succ_refl b⟩
    · exact (hs b c i (by simpa [Cell.size] using hi)).1
  · intro b i hi hI
    split
    · exact ⟨true, b, rfl⟩
    · exact ht b c i hI.1 hc (by simpa [Cell.size] using hi) hI.2
  · exact ⟨hlen, hb⟩

theorem cascadeWith_total {rm : Board → Nat → Nat → Res} {N : Nat} (hs : RemSpec rm)
    (ht : Total rm N) (b : Board) (c i : Nat) (hlen : b.cells.length = 81) (hc : c < 81)
    (hi : i < 9) (hb : bits b < N) : ∃ t b1, cascadeWith rm b c i = .ok (t, b1) := by
  unfold cascadeWith
  have hin : ∀ (b : Board) (x : Nat),
      Post b (if x = c then Outcome.ok (true, b) else rm b x i) := by
    intro b x
    split
    · exact ⟨mono_refl b, succ_refl b⟩
    · exact (hs b x i hi).1
  apply forEach_total _ (fun b => b.cells.length = 81 ∧ bits b < N) _ budget_mono
  · intro b n _
    exact forEach_post _ _ (fun b x _ => hin b x) b
  · intro b n hn hI
    have hn27 := ((group_of_belong c hc).2 n hn).1
    apply forEach_total _ (fun b => b.cells.length = 81 ∧ bits b < N) _ budget_mono
    · exact fun b x _ => hin b x
    · intro b x hx hI
      split
      · exact ⟨true, b, rfl⟩
      · exact ht b x i hI.1 ((groups_shape n hn27).2.2 x hx) hi hI.2
    · exact hI
  · exact ⟨hlen, hb⟩

theorem bits_decCount (b : Board) (n v : Nat) : bits (decCount b n v) = bits b := rfl

theorem uniqueWith_total {rm : Board → Nat → Nat → Res} {N : Nat} (hs : RemSpec rm)
    (ht : Total rm N) (b : Board) (c v : Nat) (hlen : b.cells.length = 81) (hc : c < 81)
    (hb : bits b < N) : ∃ t b1, uniqueWith rm b c v = .ok (t, b1) := by
  unfold uniqueWith
  apply forEach_total _ (fun b => b.cells.length = 81 ∧ bits b < N) _ budget_mono
  · intro b n _
    apply post_of_cells (cells_decCount b n v)
    simp only
    split
    · split
      · exact (assignWith_spec hs _ _ _).1
      · exact ⟨mono_refl _, succ_refl _⟩
    · exact ⟨mono_refl _, succ_refl _⟩
  · intro b n hn hI
    have hn27 := ((group_of_belong c hc).2 n hn).1
    simp only
    split
    · split
      · rename_i x hx
        have hmem := List.mem_of_find?_eq_some hx
        have hxs := List.find?_some hx
        exact assignWith_total hs ht _ x v hI.1 ((groups_shape n hn27).2.2 x hmem) hxs hI.2
      · exact ⟨true, _, rfl⟩
    · exact ⟨true, _, rfl⟩
  · exact ⟨hlen, hb⟩

theorem bits_set_lt (b : Board) {c : Nat} (hc : c < b.cells.length) {c1 : Nat}
    (h : Cell.count c1 < Cell.count (b.cellAt c)) :
    bits { b with cells := b.cells.set c c1 } < bits b := by
  unfold bits
  simp only [List.length_set]
  apply Finset.sum_lt_sum
  · intro x _
    rw [cellAt_set b hc]
    split
    · rename_i hx; subst hx; exact le_of_lt h
    · exact le_refl _
  · exact ⟨c, Finset.mem_range.2 hc, by rw [cellAt_set b hc, if_pos rfl]; exact h⟩

theorem removeWith_total {rm : Board → Nat → Nat → Res} {N : Nat} (hs : RemSpec rm)
    (ht : Total rm N) : Total (removeWith rm) (N + 1) := by
  intro b c v hlen hc hv hb
  unfold removeWith
  have hclt : c < b.cells.length := by rw [hlen]; exact hc
  rw [getElem?_of_lt hclt]
  simp only
  split
  swap
  · exact ⟨true, b, rfl⟩
  rename_i hset
  split
  · exact ⟨false, _, rfl⟩
  have hlt := bits_set_lt b hclt
    (show Cell.count (Cell.remove (b.cellAt c) v) < Cell.count (b.cellAt c) by
      have := Cell.count_remove hv hset; omega)
  generalize hb1 : ({ b with cells := b.cells.set c (Cell.remove (b.cellAt c) v) } : Board) = b1
    at hlt
  have hlen1 : b1.cells.length = 81 := by rw [← hb1]; simpa using hlen
  have hbits1 : bits b1 < N := by omega
  have hc1 : ∃ t b2, (if Cell.count (Cell.remove (b.cellAt c) v) = 1 then
        cascadeWith rm b1 c (Cell.val (Cell.remove (b.cellAt c) v)) else Outcome.ok (true, b1))
        = .ok (t, b2) ∧ Mono b1 b2 := by
    split
    · rename_i h1
      have hv1 := (Cell.of_count_eq_one h1).1
      obtain ⟨t, b2, h2⟩ := cascadeWith_total hs ht b1 c _ hlen1 hc hv1 hbits1
      have hp := (cascadeWith_spec hs b1 c _ hv1).1
      rw [h2] at hp
      refine ⟨t, b2, h2, ?_⟩
      cases t
      · exact hp.1
      · exact hp.1
    · exact ⟨true, b1, rfl, mono_refl _⟩
  obtain ⟨t, b2, h2, m2⟩ := hc1
  rw [h2]
  cases t with
  | false => exact ⟨false, b2, rfl⟩
  | true =>
    have := budget_mono b1 b2 m2 ⟨hlen1, hbits1⟩
    exact uniqueWith_total hs ht b2 c v this.1 hc this.2

theorem remove_total : ∀ fuel, Total (remove fuel) fuel := by
  intro fuel
  induction fuel with
  | zero => intro b c v _ _ _ hb; exact absurd hb (Nat.not_lt_zero _)
  | succ n ih => exact removeWith_total (remove_spec n) ih

theorem assign_total {fuel : Nat} (b : Board) (c v : Nat) (hlen : b.cells.length = 81)
    (hc : c < 81) (hset : Cell.isSet (b.cellAt c) v = true) (hb : bits b < fuel) :
    ∃ t b1, assign fuel b c v = .ok (t, b1) :=
  assignWith_total (remove_spec fuel) (remove_total fuel) b c v hlen hc hset hb

/-! ## `smallest` -/

theorem scan_inv (b : Board) : ∀ k, k ≤ b.cells.length →
    ScanInv b k ((List.range k).foldl
      (fun (st : Nat × Nat) i =>
        let n := Cell.count (b.cellAt i)
        if n = 1 then st else if n < st.1 then (n, i) else st)
      (2 ^ 64 - 1, b.cells.length)) := by
  intro k
  induction k with
  | zero => intro _; exact Or.inl ⟨rfl, rfl, fun x hx => absurd hx (Nat.not_lt_zero _)⟩
  | succ k ih =>
    intro hk
    rw [List.range_succ, List.foldl_append]
    have ih := ih (by omega)
    generalize (List.range k).foldl
      (fun (st : Nat × Nat) i =>
        let n := Cell.count (b.cellAt i)
        if n = 1 then st else if n < st.1 then (n, i) else st)
      (2 ^ 64 - 1, b.cells.length) = st at ih
    simp only [List.foldl_cons, List.foldl_nil]
    have h9 := Cell.count_le (b.cellAt k)
    by_cases h1 : Cell.count (b.cellAt k) = 1
    · rw [if_pos h1]
      rcases ih with ⟨a1, a2, a3⟩ | ⟨a1, a2, a3, a4, a5⟩
      · refine Or.inl ⟨a1, a2, fun x hx => ?_⟩
        rcases Nat.lt_succ_iff_lt_or_eq.1 hx with h | h
        · exact a3 x h
        · rw [h]; exact h1
      · refine Or.inr ⟨by omega, a2, a3, fun x hx hx1 => ?_, a5⟩
        rcases Nat.lt_succ_iff_lt_or_eq.1 hx with h | h
        · exact a4 x h hx1
        · rw [h] at hx1; exact absurd h1 hx1
    · rw [if_neg h1]
      by_cases h2 : Cell.count (b.cellAt k) < st.1
      · rw [if_pos h2]
        refine Or.inr ⟨by simp, h1, rfl, fun x hx hx1 => ?_, fun x hx hx1 => ?_⟩
        · rcases Nat.lt_succ_iff_lt_or_eq.1 hx with h | h
          · rcases ih with ⟨_, _, a3⟩ | ⟨_, _, _, a4, _⟩
            · exact absurd (a3 x h) hx1
            · exact le_trans (le_of_lt h2) (a4 x h hx1)
          · rw [h]
        · have hx : x < k := hx
          rcases ih with ⟨_, _, a3⟩ | ⟨_, _, _, a4, _⟩
          · exact absurd (a3 x hx) hx1
          · exact lt_of_lt_of_le h2 (a4 x hx hx1)
      · rw [if_neg h2]
        rcases ih with ⟨a1, a2, a3⟩ | ⟨a1, a2, a3, a4, a5⟩
        · exfalso
          rw [a2] at h2
          have : (9 : Nat) < 2 ^ 64 - 1 := by norm_num
          omega
        · refine Or.inr ⟨by omega, a2, a3, fun x hx hx1 => ?_, a5⟩
          rcases Nat.lt_succ_iff_lt_or_eq.1 hx with h | h
          · exact a4 x h hx1
          · rw [h]; omega

theorem smallest_lt {b : Board} (h : isSolved b = false) :
    smallest b < b.cells.length ∧ Cell.count (b.cellAt (smallest b)) ≠ 1 := by
  have := scan_inv b b.cells.length (le_refl _)
  rcases this with ⟨_, _, a3⟩ | ⟨a1, a2, _⟩
  · have : isSolved b = true := (isSolved_iff b).2 a3
    rw [h] at this
    exact Bool.noConfusion this
  · exact ⟨a1, a2⟩

/-! ## Termination of the search -/

theorem tryEach_total (f : Nat → Res) (b : Board) (js : List Nat)
    (h : ∀ j, j ∈ js → ∃ t b1, f j = .ok (t, b1)) : ∃ t b1, tryEach f b js = .ok (t, b1) := by
  induction js with
  | nil => exact ⟨false, b, rfl⟩
  | cons j js ih =>
    obtain ⟨t, b1, h1⟩ := h j (List.mem_cons_self _ _)
    unfold tryEach
    rw [h1]
    cases t with
    | true => exact ⟨true, b1, rfl⟩
    | false => exact ih (fun j hj => h j (List.mem_cons_of_mem _ hj))

/-- A successful assignment to an unfixed cell leaves strictly fewer unfixed cells. -/
theorem unsolved_lt {fuel : Nat} {b b1 : Board} {c v : Nat} (hc : c < b.cells.length)
    (hv : v < 9) (h1 : Cell.count (b.cellAt c) ≠ 1) (h : assign fuel b c v = .ok (true, b1)) :
    unsolved b1 < unsolved b := by
  have hp := (assign_spec fuel b c v).1
  rw [h] at hp
  have hfix := assign_fixes hv h
  apply Finset.card_lt_card
  rw [Finset.ssubset_iff_of_subset]
  · refine ⟨c, ?_, ?_⟩
    · simp [unsolvedSet, hc, h1]
    · simp [unsolvedSet, hfix.1]
  · intro x hx
    simp only [unsolvedSet, Finset.mem_filter, Finset.mem_range] at hx ⊢
    refine ⟨by rw [← hp.1.1]; exact hx.1, fun hb => hx.2 ?_⟩
    exact (mono_fixed hp.1 hb (hp.2.1 x (by omega))).1

theorem solve_total (pf : Nat) : ∀ sf b, b.cells.length = 81 → bits b < pf → unsolved b < sf →
    ∃ t b1, solve pf sf b = .ok (t, b1) := by
  intro sf
  induction sf with
  | zero => intro b _ _ h; exact absurd h (Nat.not_lt_zero _)
  | succ n ih =>
    intro b hlen hb hu
    unfold solve
    split
    · exact ⟨true, b, rfl⟩
    · rename_i hs
      have hs : isSolved b = false := by simpa using hs
      obtain ⟨hi, hi1⟩ := smallest_lt hs
      simp only
      rw [getElem?_of_lt hi]
      simp only
      apply tryEach_total
      intro j hj
      have hj9 : j < 9 := by simpa [Cell.size] using hj
      split
      · rename_i hset
        obtain ⟨t, cop, hcop⟩ := assign_total b (smallest b) j hlen (by rw [← hlen]; exact hi) hset hb
        rw [hcop]
        cases t with
        | false => exact ⟨false, cop, rfl⟩
        | true =>
          have hp := (assign_spec pf b (smallest b) j).1
          rw [hcop] at hp
          have hlt := unsolved_lt hi hj9 hi1 hcop
          exact ih cop (hp.1.1.trans hlen) (lt_of_le_of_lt (mono_bits_le hp.1) hb) (by omega)
      · exact ⟨false, b, rfl⟩

theorem unsolved_le (b : Board) : unsolved b ≤ b.cells.length := by
  unfold unsolved unsolvedSet
  exact (Finset.card_filter_le _ _).trans (by simp)

/-! ## The counter table -/

theorem getD_set {α : Type} (l : List α) (i : Nat) (a d : α) (j : Nat) :
    (l.set i a).getD j d = if j = i ∧ i < l.length then a else l.getD j d := by
  simp only [List.getD_eq_getElem?_getD, List.getElem?_set]
  by_cases h : i = j
  · subst h
    by_cases h2 : i < l.length
    · simp [h2]
    · simp [h2, List.getElem?_eq_none (not_lt.1 h2)]
  · have h2 : ¬ j = i := fun e => h e.symm
    simp [h, h2]

theorem getCount_decCount (b : Board) (hs : CountShape b) {n v : Nat} (hn : n < 27) (hv : v < 9)
    (n1 v1 : Nat) :
    getCount (decCount b n v) n1 v1 =
      if n1 = n ∧ v1 = v then (getCount b n v + 255) % 256 else getCount b n1 v1 := by
  unfold decCount
  simp only [getCount]
  rw [getD_set]
  by_cases h1 : n1 = n
  · subst h1
    rw [if_pos ⟨rfl, by rw [hs.1]; exact hn⟩, getD_set]
    by_cases h2 : v1 = v
    · subst h2
      rw [if_pos ⟨rfl, by rw [hs.2 n1 hn]; exact hv⟩, if_pos ⟨rfl, rfl⟩]
    · rw [if_neg (fun h => h2 h.1), if_neg (fun h => h2 h.2)]
  · rw [if_neg (fun h => h1 h.1), if_neg (fun h => h1 h.1)]

theorem countShape_decCount {b : Board} (hs : CountShape b) (n v : Nat) :
    CountShape (decCount b n v) := by
  unfold Sudoku.decCount
  refine ⟨by simpa using hs.1, fun n1 hn1 => ?_⟩
  simp only
  rw [getD_set]
  split
  · rename_i h
    rw [List.length_set, ← h.1]
    exact hs.2 n1 hn1
  · exact hs.2 n1 hn1

theorem actual_decCount (b : Board) (n v n1 v1 : Nat) :
    actual (decCount b n v) n1 v1 = actual b n1 v1 := rfl

theorem countP_erase_one (p : Nat → Bool) (c : Nat) : ∀ l : List Nat, l.Nodup →
    l.countP (fun x => p x && decide (x ≠ c)) + (if c ∈ l ∧ p c = true then 1 else 0)
      = l.countP p := by
  intro l
  induction l with
  | nil => intro _; simp
  | cons a l ih =>
    intro hnd
    obtain ⟨ha, hl⟩ := List.nodup_cons.1 hnd
    have ih := ih hl
    rw [List.countP_cons, List.countP_cons]
    by_cases hac : a = c
    · subst hac
      have e : (if a ∈ l ∧ p a = true then 1 else 0) = 0 := if_neg (fun h => ha h.1)
      rw [e] at ih
      by_cases hp : p a = true
      · simp [hp] at ih ⊢; omega
      · simp [hp] at ih ⊢; omega
    · have e : (c ∈ a :: l ∧ p c = true) ↔ (c ∈ l ∧ p c = true) := by
        rw [List.mem_cons]
        constructor
        · rintro ⟨h | h, h2⟩
          · exact absurd h.symm hac
          · exact ⟨h, h2⟩
        · rintro ⟨h, h2⟩
          exact ⟨Or.inr h, h2⟩
      rw [if_congr e rfl rfl]
      by_cases hp : p a = true
      · simp [hp, hac] at ih ⊢; omega
      · simp [hp, hac] at ih ⊢; omega

/-- Clearing candidate `v` of cell `c` lowers by one the number of holders of `v` in each
group of `c`, and changes no other number. -/
theorem actual_clear (b : Board) {c v : Nat} (hc : c < b.cells.length) (hc81 : c < 81) (hv : v < 9)
    (hset : Cell.isSet (b.cellAt c) v = true) {n v1 : Nat} (hn : n < 27) (hv1 : v1 < 9) :
    actual { b with cells := b.cells.set c (Cell.remove (b.cellAt c) v) } n v1
      + (if v1 = v ∧ n ∈ belong_to.getD c [] then 1 else 0) = actual b n v1 := by
  unfold actual
  have hp : ∀ x, Cell.isSet
      (Board.cellAt { b with cells := b.cells.set c (Cell.remove (b.cellAt c) v) } x) v1
      = (Cell.isSet (b.cellAt x) v1 && decide (¬ (x = c ∧ v1 = v))) := by
    intro x
    rw [cellAt_set b hc]
    by_cases hx : x = c
    · subst hx
      rw [if_pos rfl, Cell.isSet_remove _ hv]
      by_cases hvv : v1 = v
      · simp [hvv]
      · simp [hvv, hv1]
    · rw [if_neg hx]; simp [hx]
  by_cases hvv : v1 = v
  · subst hvv
    have hcong : (groups.getD n []).countP (fun x => Cell.isSet
        (Board.cellAt { b with cells := b.cells.set c (Cell.remove (b.cellAt c) v1) } x) v1)
        = (groups.getD n []).countP
          (fun x => Cell.isSet (b.cellAt x) v1 && decide (x ≠ c)) := by
      apply List.countP_congr
      intro x _
      rw [hp]; simp
    rw [hcong, ← countP_erase_one (fun x => Cell.isSet (b.cellAt x) v1) c _ (groups_shape n hn).2.1]
    congr 1
    apply if_congr _ rfl rfl
    constructor
    · rintro ⟨_, h⟩
      exact ⟨((group_of_belong c hc81).2 n h).2, hset⟩
    · rintro ⟨h, _⟩
      exact ⟨rfl, belong_of_group n hn c h⟩
  · rw [if_neg (fun h => hvv h.1), Nat.add_zero]
    apply List.countP_congr
    intro x _
    rw [hp]; simp [hvv]

/-! ## Successful propagation keeps the counters in step with the candidates -/

theorem forEach_suffix {α : Type} (f : Board → α → Res) (I : List α → Board → Prop)
    (h : ∀ b x rest b1, I (x :: rest) b → f b x = .ok (true, b1) → I rest b1) :
    ∀ xs b b1, I xs b → forEach f b xs = .ok (true, b1) → I [] b1 := by
  intro xs
  induction xs with
  | nil =>
    intro b b1 hI hr
    have : b = b1 := by unfold forEach at hr; injection hr with hr; injection hr
    exact this ▸ hI
  | cons x xs ih =>
    intro b b1 hI hr
    unfold forEach at hr
    split at hr
    · rename_i b2 h2
      exact ih b2 b1 (h b x xs b2 hI h2) hr
    · rename_i hne
      exact absurd hr (hne b1)

theorem forEach_inv {α : Type} (f : Board → α → Res) (I : Board → Prop) (xs : List α)
    (h : ∀ b x b1, x ∈ xs → I b → f b x = .ok (true, b1) → I b1) :
    ∀ b b1, I b → forEach f b xs = .ok (true, b1) → I b1 := by
  intro b b1 hI hr
  have := forEach_suffix f (fun rest b => (∀ x, x ∈ rest → x ∈ xs) ∧ I b)
    (fun b x rest b1 hI hr =>
      ⟨fun y hy => hI.1 y (List.mem_cons_of_mem _ hy),
        h b x b1 (hI.1 x (List.mem_cons_self _ _)) hI.2 hr⟩)
    xs b b1 ⟨fun x hx => hx, hI⟩ hr
  exact this.2

theorem countInv_congr {k k1 : Nat → Nat → Nat} {b : Board} (h : CountInv k b)
    (e : ∀ n v, n < 27 → v < 9 → k n v = k1 n v) : CountInv k1 b :=
  ⟨h.1, fun n v hn hv => by rw [← e n v hn hv]; exact h.2 n v hn hv⟩

theorem post_length {b b1 : Board} {r : Res} (hp : Post b r) (hr : r = .ok (true, b1))
    (hlen : b.cells.length = 81) : b1.cells.length = 81 := by
  subst hr
  exact hp.1.1.trans hlen

theorem assignWith_count {rm : Board → Nat → Nat → Res} (hs : RemSpec rm) (hc : CountSpec rm)
    {b b1 : Board} {c v : Nat} {k : Nat → Nat → Nat} (hlen : b.cells.length = 81) (hc81 : c < 81)
    (hk : CountInv k b) (hr : assignWith rm b c v = .ok (true, b1)) : CountInv k b1 := by
  unfold assignWith at hr
  split at hr
  · exact Outcome.noConfusion hr
  split at hr
  swap
  · exact Outcome.noConfusion hr
  have := forEach_inv _ (fun b => b.cells.length = 81 ∧ CountInv k b) _
    (fun b i b1 hi hI hr => by
      have hi9 : i < 9 := by simpa [Cell.size] using hi
      split at hr
      · have : b = b1 := by injection hr with hr; injection hr
        exact this ▸ hI
      · exact ⟨post_length (hs b c i hi9).1 hr hI.1, hc b c i k b1 hI.1 hc81 hi9 hI.2 hr⟩)
    b b1 ⟨hlen, hk⟩ hr
  exact this.2

theorem cascadeWith_count {rm : Board → Nat → Nat → Res} (hs : RemSpec rm) (hc : CountSpec rm)
    {b b1 : Board} {c i : Nat} {k : Nat → Nat → Nat} (hlen : b.cells.length = 81) (hc81 : c < 81)
    (hi : i < 9) (hk : CountInv k b) (hr : cascadeWith rm b c i = .ok (true, b1)) :
    b1.cells.length = 81 ∧ CountInv k b1 := by
  unfold cascadeWith at hr
  refine forEach_inv _ (fun b => b.cells.length = 81 ∧ CountInv k b) _
    (fun b n b1 hn hI hr => ?_) b b1 ⟨hlen, hk⟩ hr
  have hn27 := ((group_of_belong c hc81).2 n hn).1
  refine forEach_inv _ (fun b => b.cells.length = 81 ∧ CountInv k b) _
    (fun b x b1 hx hI hr => ?_) b b1 hI hr
  split at hr
  · have : b = b1 := by injection hr with hr; injection hr
    exact this ▸ hI
  · have hx81 := (groups_shape n hn27).2.2 x hx
    exact ⟨post_length (hs b x i hi).1 hr hI.1, hc b x i k b1 hI.1 hx81 hi hI.2 hr⟩

theorem mod_dec {x : Nat} (h1 : 0 < x) (h2 : x < 256) : (x + 255) % 256 = x - 1 := by omega

theorem uniqueWith_count {rm : Board → Nat → Nat → Res} (hs : RemSpec rm) (hc : CountSpec rm)
    {b b1 : Board} {c v : Nat} {k : Nat → Nat → Nat} (hlen : b.cells.length = 81) (hc81 : c < 81)
    (hv : v < 9)
    (hk : CountInv (fun n v1 => k n v1 + if v1 = v ∧ n ∈ belong_to.getD c [] then 1 else 0) b)
    (hr : uniqueWith rm b c v = .ok (true, b1)) : b1.cells.length = 81 ∧ CountInv k b1 := by
  unfold uniqueWith at hr
  have := forEach_suffix _
    (fun rest b => rest.Nodup ∧ (∀ n, n ∈ rest → n < 27) ∧ b.cells.length = 81 ∧
      CountInv (fun n v1 => k n v1 + if v1 = v ∧ n ∈ rest then 1 else 0) b)
    (fun b n rest b1 hI hr => by
      obtain ⟨hnd, h27, hl, hk⟩ := hI
      obtain ⟨hn_notin, hnd2⟩ := List.nodup_cons.1 hnd
      have hn27 := h27 n (List.mem_cons_self _ _)
      have h27r : ∀ m, m ∈ rest → m < 27 := fun m hm => h27 m (List.mem_cons_of_mem _ hm)
      have hk3 : CountInv (fun n v1 => k n v1 + if v1 = v ∧ n ∈ rest then 1 else 0)
          (decCount b n v) := by
        refine ⟨countShape_decCount hk.1 n v, fun n1 v1 hn1 hv1 => ?_⟩
        rw [getCount_decCount b hk.1 hn27 hv, actual_decCount]
        by_cases h : n1 = n ∧ v1 = v
        · obtain ⟨rfl, rfl⟩ := h
          rw [if_pos ⟨rfl, rfl⟩]
          obtain ⟨e1, e2⟩ := hk.2 n1 v1 hn1 hv1
          beta_reduce at e1 ⊢
          rw [if_pos ⟨rfl, List.mem_cons_self _ _⟩] at e1
          rw [if_neg (fun h => hn_notin h.2), mod_dec (by omega) e2]
          omega
        · rw [if_neg h]
          obtain ⟨e1, e2⟩ := hk.2 n1 v1 hn1 hv1
          refine ⟨?_, e2⟩
          rw [e1]
          beta_reduce
          congr 2
          apply if_congr _ rfl rfl
          constructor
          · rintro ⟨h1, h2⟩
            rcases List.mem_cons.1 h2 with h3 | h3
            · exact absurd ⟨h3, h1⟩ h
            · exact ⟨h1, h3⟩
          · rintro ⟨h1, h2⟩
            exact ⟨h1, List.mem_cons_of_mem _ h2⟩
      simp only at hr
      refine ⟨hnd2, h27r, ?_⟩
      split at hr
      · split at hr
        · rename_i x hx
          have hx81 := (groups_shape n hn27).2.2 x (List.mem_of_find?_eq_some hx)
          exact ⟨post_length (assignWith_spec hs _ _ _).1 hr hl,
            assignWith_count hs hc (b := decCount b n v) hl hx81 hk3 hr⟩
        · have : decCount b n v = b1 := by injection hr with hr; injection hr
          exact this ▸ ⟨hl, hk3⟩
      · have : decCount b n v = b1 := by injection hr with hr; injection hr
        exact this ▸ ⟨hl, hk3⟩)
    (belong_to.getD c []) b b1
    ⟨(group_of_belong c hc81).1, fun n hn => ((group_of_belong c hc81).2 n hn).1, hlen, hk⟩ hr
  exact ⟨this.2.2.1, countInv_congr this.2.2.2 (fun n v1 _ _ => by simp)⟩

/-- Clearing a candidate raises by one the slack of the counters yet to be decremented. -/
theorem countInv_clear {k : Nat → Nat → Nat} {b : Board} (hk : CountInv k b) {c v : Nat}
    (hclt : c < b.cells.length) (hc81 : c < 81) (hv : v < 9)
    (hset : Cell.isSet (b.cellAt c) v = true) :
    CountInv (fun n v1 => k n v1 + if v1 = v ∧ n ∈ belong_to.getD c [] then 1 else 0)
      { b with cells := b.cells.set c (Cell.remove (b.cellAt c) v) } := by
  refine ⟨hk.1, fun n v1 hn hv1 => ?_⟩
  obtain ⟨e1, e2⟩ := hk.2 n v1 hn hv1
  have := actual_clear b hclt hc81 hv hset hn hv1
  refine ⟨?_, e2⟩
  show getCount b n v1 = _
  beta_reduce
  rw [e1]
  omega

theorem removeWith_count {rm : Board → Nat → Nat → Res} (hs : RemSpec rm) (hc : CountSpec rm) :
    CountSpec (removeWith rm) := by
  intro b c v k b3 hlen hc81 hv hk hr
  unfold removeWith at hr
  have hclt : c < b.cells.length := by rw [hlen]; exact hc81
  rw [getElem?_of_lt hclt] at hr
  simp only at hr
  split at hr
  swap
  · have : b = b3 := by injection hr with hr; injection hr
    exact this ▸ hk
  rename_i hset
  split at hr
  · exact absurd hr (by intro h; injection h with h; injection h with h; exact Bool.noConfusion h)
  have hk1 := countInv_clear hk hclt hc81 hv hset
  generalize hb1 : ({ b with cells := b.cells.set c (Cell.remove (b.cellAt c) v) } : Board) = b1
    at hr hk1
  have hlen1 : b1.cells.length = 81 := by rw [← hb1]; simpa using hlen
  split at hr
  · rename_i b2 h2
    have h22 : b2.cells.length = 81 ∧
        CountInv (fun n v1 => k n v1 + if v1 = v ∧ n ∈ belong_to.getD c [] then 1 else 0) b2 := by
      split at h2
      · rename_i h1
        exact cascadeWith_count hs hc hlen1 hc81 (Cell.of_count_eq_one h1).1 hk1 h2
      · have : b1 = b2 := by injection h2 with h2; injection h2
        exact this ▸ ⟨hlen1, hk1⟩
    exact (uniqueWith_count hs hc h22.1 hc81 hv h22.2 hr).2
  · rename_i hne
    exact absurd hr (hne b3)

theorem remove_count : ∀ fuel, CountSpec (remove fuel) := by
  intro fuel
  induction fuel with
  | zero => intro b c v k b1 _ _ _ _ hr; exact Outcome.noConfusion hr
  | succ n ih => exact removeWith_count (remove_spec n) ih

theorem assign_count {fuel : Nat} {b b1 : Board} {c v : Nat} {k : Nat → Nat → Nat}
    (hlen : b.cells.length = 81) (hc81 : c < 81) (hk : CountInv k b)
    (hr : assign fuel b c v = .ok (true, b1)) : CountInv k b1 :=
  assignWith_count (remove_spec fuel) (remove_count fuel) hlen hc81 hk hr

/-! ## Propagation never discards a solution -/

theorem forEach_true_suffix {α : Type} (f : Board → α → Res) (I : List α → Board → Prop)
    (h : ∀ b x rest t b1, I (x :: rest) b → f b x = .ok (t, b1) → t = true ∧ I rest b1) :
    ∀ xs b t b1, I xs b → forEach f b xs = .ok (t, b1) → t = true ∧ I [] b1 := by
  intro xs
  induction xs with
  | nil =>
    intro b t b1 hI hr
    unfold forEach at hr
    injection hr with hr
    injection hr with h1 h2
    exact ⟨h1.symm, h2 ▸ hI⟩
  | cons x xs ih =>
    intro b t b1 hI hr
    unfold forEach at hr
    split at hr
    · rename_i b2 h2
      exact ih b2 t b1 (h b x xs true b2 hI h2).2 hr
    · rename_i hne
      have := (h b x xs t b1 hI hr).1
      subst this
      exact absurd hr (hne b1)

theorem forEach_true {α : Type} (f : Board → α → Res) (I : Board → Prop) (xs : List α)
    (h : ∀ b x t b1, x ∈ xs → I b → f b x = .ok (t, b1) → t = true ∧ I b1) :
    ∀ b t b1, I b → forEach f b xs = .ok (t, b1) → t = true ∧ I b1 := by
  intro b t b1 hI hr
  have := forEach_true_suffix f (fun rest b => (∀ x, x ∈ rest → x ∈ xs) ∧ I b)
    (fun b x rest t b1 hI hr =>
      have := h b x t b1 (hI.1 x (List.mem_cons_self _ _)) hI.2 hr
      ⟨this.1, fun y hy => hI.1 y (List.mem_cons_of_mem _ hy), this.2⟩)
    xs b t b1 ⟨fun x hx => hx, hI⟩ hr
  exact ⟨this.1, this.2.2⟩

theorem validGrid_ne {S : Nat → Nat} (hS : ValidGrid S) {n x y : Nat} (hn : n < 27)
    (hx : x ∈ groups.getD n []) (hy : y ∈ groups.getD n []) (hxy : x ≠ y) : S x ≠ S y := by
  intro e
  have hx81 := (groups_shape n hn).2.2 x hx
  obtain ⟨z, _, _, hz⟩ := hS.2 n hn (S x) (hS.1 x hx81)
  exact hxy ((hz x hx rfl).trans (hz y hy e.symm).symm)

theorem countP_one_unique (p : Nat → Bool) (l : List Nat) (h : l.countP p = 1) {x y : Nat}
    (hx : x ∈ l) (hpx : p x = true) (hy : y ∈ l) (hpy : p y = true) : x = y := by
  rw [List.countP_eq_length_filter, List.length_eq_one] at h
  obtain ⟨z, hz⟩ := h
  have h1 : x ∈ l.filter p := List.mem_filter.2 ⟨hx, hpx⟩
  have h2 : y ∈ l.filter p := List.mem_filter.2 ⟨hy, hpy⟩
  rw [hz, List.mem_singleton] at h1 h2
  exact h1.trans h2.symm

theorem assignWith_cons {S : Nat → Nat} {rm : Board → Nat → Nat → Res} (hs : RemSpec rm)
    (hc : CountSpec rm) (hS : ConsSpec S rm) {b b1 : Board} {c : Nat} {t : Bool}
    {k : Nat → Nat → Nat} (hlen : b.cells.length = 81) (hc81 : c < 81) (hk : CountInv k b)
    (hcons : Cons S b) {v : Nat} (hcv : S c = v) (hr : assignWith rm b c v = .ok (t, b1)) :
    t = true ∧ Cons S b1 := by
  subst hcv
  unfold assignWith at hr
  split at hr
  · exact Outcome.noConfusion hr
  split at hr
  swap
  · exact Outcome.noConfusion hr
  have := forEach_true _ (fun b => b.cells.length = 81 ∧ CountInv k b ∧ Cons S b) _
    (fun b i t b1 hi hI hr => by
      have hi9 : i < 9 := by simpa [Cell.size] using hi
      split at hr
      · injection hr with hr
        injection hr with h1 h2
        exact ⟨h1.symm, h2 ▸ hI⟩
      · rename_i hne
        obtain ⟨ht, hc1⟩ := hS b c i k t b1 hI.1 hc81 hi9 hI.2.1 hI.2.2 (fun e => hne e.symm) hr
        subst ht
        exact ⟨rfl, post_length (hs b c i hi9).1 hr hI.1, hc b c i k b1 hI.1 hc81 hi9 hI.2.1 hr,
          hc1⟩)
    b t b1 ⟨hlen, hk, hcons⟩ hr
  exact ⟨this.1, this.2.2.2⟩

theorem cascadeWith_cons {S : Nat → Nat} (hv : ValidGrid S) {rm : Board → Nat → Nat → Res}
    (hs : RemSpec rm) (hc : CountSpec rm) (hS : ConsSpec S rm) {b b1 : Board} {c : Nat} {t : Bool}
    {k : Nat → Nat → Nat} (hlen : b.cells.length = 81) (hc81 : c < 81) (hk : CountInv k b)
    (hcons : Cons S b) {i : Nat} (hci : S c = i) (hr : cascadeWith rm b c i = .ok (t, b1)) :
    t = true ∧ Cons S b1 := by
  subst hci
  unfold cascadeWith at hr
  have hi9 := hv.1 c hc81
  have := forEach_true _ (fun b => b.cells.length = 81 ∧ CountInv k b ∧ Cons S b) _
    (fun b n t b1 hn hI hr => by
      obtain ⟨hn27, hcn⟩ := (group_of_belong c hc81).2 n hn
      exact forEach_true _ (fun b => b.cells.length = 81 ∧ CountInv k b ∧ Cons S b) _
        (fun b x t b1 hx hI hr => by
          split at hr
          · injection hr with hr
            injection hr with h1 h2
            exact ⟨h1.symm, h2 ▸ hI⟩
          · rename_i hne
            have hx81 := (groups_shape n hn27).2.2 x hx
            obtain ⟨ht, hc1⟩ := hS b x (S c) k t b1 hI.1 hx81 hi9 hI.2.1 hI.2.2
              (validGrid_ne hv hn27 hx hcn hne) hr
            subst ht
            exact ⟨rfl, post_length (hs b x _ hi9).1 hr hI.1,
              hc b x _ k b1 hI.1 hx81 hi9 hI.2.1 hr, hc1⟩)
        b t b1 hI hr)
    b t b1 ⟨hlen, hk, hcons⟩ hr
  exact ⟨this.1, this.2.2.2⟩

theorem cons_decCount {S : Nat → Nat} {b : Board} (h : Cons S b) (n v : Nat) :
    Cons S (decCount b n v) := h

theorem uniqueWith_cons {S : Nat → Nat} (hvg : ValidGrid S) {rm : Board → Nat → Nat → Res}
    (hs : RemSpec rm) (hc : CountSpec rm) (hS : ConsSpec S rm) {b b1 : Board} {c v : Nat}
    {t : Bool} {k : Nat → Nat → Nat} (hlen : b.cells.length = 81) (hc81 : c < 81) (hv : v < 9)
    (hk : CountInv (fun n v1 => k n v1 + if v1 = v ∧ n ∈ belong_to.getD c [] then 1 else 0) b)
    (hcons : Cons S b) (hr : uniqueWith rm b c v = .ok (t, b1)) : t = true ∧ Cons S b1 := by
  unfold uniqueWith at hr
  have := forEach_true_suffix _
    (fun rest b => (rest.Nodup ∧ (∀ n, n ∈ rest → n < 27) ∧ b.cells.length = 81 ∧
      CountInv (fun n v1 => k n v1 + if v1 = v ∧ n ∈ rest then 1 else 0) b) ∧ Cons S b)
    (fun b n rest t b1 hI hr => by
      obtain ⟨hI, hcons⟩ := hI
      have hn27 := hI.2.1 n (List.mem_cons_self _ _)
      -- the counters after the decrement, as in the proof that they stay in step
      have hstep : ∀ b2, (fun (b : Board) (n : Nat) => Outcome.ok (true, decCount b n v)) b n
          = Outcome.ok (true, b2) → rest.Nodup ∧ (∀ n, n ∈ rest → n < 27) ∧
            b2.cells.length = 81 ∧
            CountInv (fun n v1 => k n v1 + if v1 = v ∧ n ∈ rest then 1 else 0) b2 := by
        intro b2 h2
        obtain ⟨hnd, h27, hl, hk⟩ := hI
        obtain ⟨hn_notin, hnd2⟩ := List.nodup_cons.1 hnd
        have : decCount b n v = b2 := by injection h2 with h2; injection h2
        subst this
        refine ⟨hnd2, fun m hm => h27 m (List.mem_cons_of_mem _ hm), hl, countShape_decCount hk.1 n v,
          fun n1 v1 hn1 hv1 => ?_⟩
        rw [getCount_decCount b hk.1 hn27 hv, actual_decCount]
        by_cases h : n1 = n ∧ v1 = v
        · obtain ⟨rfl, rfl⟩ := h
          rw [if_pos ⟨rfl, rfl⟩]
          obtain ⟨e1, e2⟩ := hk.2 n1 v1 hn1 hv1
          beta_reduce at e1 ⊢
          rw [if_pos ⟨rfl, List.mem_cons_self _ _⟩] at e1
          rw [if_neg (fun h => hn_notin h.2), mod_dec (by omega) e2]
          omega
        · rw [if_neg h]
          obtain ⟨e1, e2⟩ := hk.2 n1 v1 hn1 hv1
          refine ⟨?_, e2⟩
          rw [e1]
          beta_reduce
          congr 2
          apply if_congr _ rfl rfl
          constructor
          · rintro ⟨h1, h2⟩
            rcases List.mem_cons.1 h2 with h3 | h3
            · exact absurd ⟨h3, h1⟩ h
            · exact ⟨h1, h3⟩
          · rintro ⟨h1, h2⟩
            exact ⟨h1, List.mem_cons_of_mem _ h2⟩
      have h3 := hstep _ rfl
      simp only at hr
      split at hr
      · rename_i hone
        split at hr
        · rename_i x hx
          have hxm := List.mem_of_find?_eq_some hx
          have hxs : Cell.isSet ((decCount b n v).cellAt x) v = true :=
            List.find?_some (p := fun x => Cell.isSet ((decCount b n v).cellAt x) v) hx
          have hx81 := (groups_shape n hn27).2.2 x hxm
          -- the cell found is the grid's cell for `v` in the group
          obtain ⟨y, hy, hSy, _⟩ := hvg.2 n hn27 v hv
          have hy81 := (groups_shape n hn27).2.2 y hy
          have hys : Cell.isSet ((decCount b n v).cellAt y) v = true := by
            have := hcons y hy81
            rwa [hSy] at this
          have hpos : 0 < actual (decCount b n v) n v :=
            List.countP_pos_iff.2 ⟨y, hy, hys⟩
          have hact : actual (decCount b n v) n v = 1 := by
            have := (h3.2.2.2.2 n v hn27 hv).1
            beta_reduce at this
            omega
          have hxy : x = y := countP_one_unique _ _ hact hxm hxs hy hys
          have hSx : S x = v := hxy ▸ hSy
          obtain ⟨ht, hc1⟩ := assignWith_cons hs hc hS (b := decCount b n v) h3.2.2.1 hx81
            h3.2.2.2 (cons_decCount hcons n v) hSx hr
          subst ht
          have hk1 := assignWith_count hs hc (b := decCount b n v) h3.2.2.1 hx81 h3.2.2.2 hr
          exact ⟨rfl, ⟨h3.1, h3.2.1, post_length (assignWith_spec hs _ _ _).1 hr h3.2.2.1, hk1⟩,
            hc1⟩
        · injection hr with hr
          injection hr with h1 h2
          exact ⟨h1.symm, h2 ▸ ⟨h3, cons_decCount hcons n v⟩⟩
      · injection hr with hr
        injection hr with h1 h2
        exact ⟨h1.symm, h2 ▸ ⟨h3, cons_decCount hcons n v⟩⟩)
    (belong_to.getD c []) b t b1
    ⟨⟨(group_of_belong c hc81).1, fun n hn => ((group_of_belong c hc81).2 n hn).1, hlen, hk⟩,
      hcons⟩ hr
  exact ⟨this.1, this.2.2⟩

theorem removeWith_cons {S : Nat → Nat} (hvg : ValidGrid S) {rm : Board → Nat → Nat → Res}
    (hs : RemSpec rm) (hc : CountSpec rm) (hS : ConsSpec S rm) : ConsSpec S (removeWith rm) := by
  intro b c v k t b3 hlen hc81 hv hk hcons hne hr
  unfold removeWith at hr
  have hclt : c < b.cells.length := by rw [hlen]; exact hc81
  rw [getElem?_of_lt hclt] at hr
  simp only at hr
  split at hr
  swap
  · injection hr with hr
    injection hr with h1 h2
    exact ⟨h1.symm, h2 ▸ hcons⟩
  rename_i hset
  have hk1 := countInv_clear hk hclt hc81 hv hset
  have hS9 := hvg.1 c hc81
  -- the grid's digit stays in the cell
  have hkeep : Cell.isSet (Cell.remove (b.cellAt c) v) (S c) = true := by
    rw [Cell.isSet_remove _ hv, hcons c hc81]
    simp [hS9, hne]
  have hcons1 : Cons S { b with cells := b.cells.set c (Cell.remove (b.cellAt c) v) } := by
    intro x hx
    rw [cellAt_set b hclt]
    split
    · rename_i hxc; subst hxc; exact hkeep
    · exact hcons x hx
  have h0 : Cell.count (Cell.remove (b.cellAt c) v) ≠ 0 := by
    intro h0
    rw [Cell.count_eq_zero_iff] at h0
    rw [h0 _ hS9] at hkeep
    exact Bool.noConfusion hkeep
  rw [if_neg h0] at hr
  generalize hb1 : ({ b with cells := b.cells.set c (Cell.remove (b.cellAt c) v) } : Board) = b1
    at hr hk1 hcons1
  have hlen1 : b1.cells.length = 81 := by rw [← hb1]; simpa using hlen
  -- the cascade, when it runs, succeeds
  have hcas : ∀ t2 b2, (if Cell.count (Cell.remove (b.cellAt c) v) = 1 then
        cascadeWith rm b1 c (Cell.val (Cell.remove (b.cellAt c) v)) else Outcome.ok (true, b1))
        = .ok (t2, b2) → t2 = true ∧ b2.cells.length = 81 ∧
          CountInv (fun n v1 => k n v1 + if v1 = v ∧ n ∈ belong_to.getD c [] then 1 else 0) b2 ∧
          Cons S b2 := by
    intro t2 b2 h2
    split at h2
    · rename_i h1
      obtain ⟨hv9, hss⟩ := Cell.of_count_eq_one h1
      have hval : S c = Cell.val (Cell.remove (b.cellAt c) v) := (hss _ hS9).1 hkeep
      obtain ⟨ht, hc2⟩ := cascadeWith_cons hvg hs hc hS hlen1 hc81 hk1 hcons1 hval h2
      subst ht
      have := cascadeWith_count hs hc hlen1 hc81 hv9 hk1 h2
      exact ⟨rfl, this.1, this.2, hc2⟩
    · injection h2 with h2
      injection h2 with h21 h22
      exact ⟨h21.symm, h22 ▸ ⟨hlen1, hk1, hcons1⟩⟩
  generalize hres : (if Cell.count (Cell.remove (b.cellAt c) v) = 1 then
        cascadeWith rm b1 c (Cell.val (Cell.remove (b.cellAt c) v)) else Outcome.ok (true, b1))
      = res at hr hcas
  match res, hr, hcas with
  | .fault _, hr, _ => exact Outcome.noConfusion hr
  | .ok (false, b2), _, hcas => exact absurd (hcas false b2 rfl).1 (by decide)
  | .ok (true, b2), hr, hcas =>
    obtain ⟨_, hl2, hk2, hc2⟩ := hcas true b2 rfl
    exact uniqueWith_cons hvg hs hc hS hl2 hc81 hv hk2 hc2 hr

theorem remove_cons {S : Nat → Nat} (hvg : ValidGrid S) : ∀ fuel, ConsSpec S (remove fuel) := by
  intro fuel
  induction fuel with
  | zero => intro b c v k t b1 _ _ _ _ _ _ hr; exact Outcome.noConfusion hr
  | succ n ih => exact removeWith_cons hvg (remove_spec n) (remove_count n) ih

/-- Assigning a cell its grid digit, on a board where the grid is possible, succeeds with
enough fuel and keeps the grid possible and the counters in step. -/
theorem assign_cons {S : Nat → Nat} (hvg : ValidGrid S) {fuel : Nat} {b : Board} {c : Nat}
    {k : Nat → Nat → Nat} (hlen : b.cells.length = 81) (hc81 : c < 81) (hk : CountInv k b)
    (hcons : Cons S b) (hb : bits b < fuel) :
    ∃ b1, assign fuel b c (S c) = .ok (true, b1) ∧ b1.cells.length = 81 ∧ CountInv k b1 ∧
      Cons S b1 := by
  obtain ⟨t, b1, hr⟩ := assign_total b c (S c) hlen hc81 (hcons c hc81) hb
  obtain ⟨ht, hc1⟩ := assignWith_cons (remove_spec fuel) (remove_count fuel) (remove_cons hvg fuel)
    hlen hc81 hk hcons rfl hr
  subst ht
  exact ⟨b1, hr, post_length (assign_spec fuel b c (S c)).1 hr hlen, assign_count hlen hc81 hk hr,
    hc1⟩

/-! ## Completeness of the search -/

theorem tryEach_true (f : Nat → Res) (b : Board) (js : List Nat)
    (h : ∀ j, j ∈ js → ∃ t b1, f j = .ok (t, b1)) (j0 : Nat) (hj0 : j0 ∈ js)
    (h0 : ∃ b1, f j0 = .ok (true, b1)) : ∃ b1, tryEach f b js = .ok (true, b1) := by
  induction js with
  | nil => exact absurd hj0 (List.not_mem_nil _)
  | cons j js ih =>
    obtain ⟨t, b1, h1⟩ := h j (List.mem_cons_self _ _)
    unfold tryEach
    rw [h1]
    cases t with
    | true => exact ⟨b1, rfl⟩
    | false =>
      rcases List.mem_cons.1 hj0 with e | e
      · subst e
        obtain ⟨b2, h2⟩ := h0
        rw [h1] at h2
        exact absurd h2 (by intro h; injection h with h; injection h with h; exact Bool.noConfusion h)
      · exact ih (fun j hj => h j (List.mem_cons_of_mem _ hj)) e

theorem search_complete {S : Nat → Nat} (hvg : ValidGrid S) (pf : Nat) :
    ∀ sf b, b.cells.length = 81 → CountInv (fun _ _ => 0) b → Cons S b → bits b < pf →
      unsolved b < sf → ∃ b1, solve pf sf b = .ok (true, b1) := by
  intro sf
  induction sf with
  | zero => intro b _ _ _ _ h; exact absurd h (Nat.not_lt_zero _)
  | succ n ih =>
    intro b hlen hk hcons hb hu
    unfold solve
    split
    · exact ⟨b, rfl⟩
    · rename_i hs
      have hs : isSolved b = false := by simpa using hs
      obtain ⟨hi, hi1⟩ := smallest_lt hs
      have hi81 : smallest b < 81 := by rw [← hlen]; exact hi
      simp only
      rw [getElem?_of_lt hi]
      simp only
      -- every digit tried returns
      have hall : ∀ j, j ∈ List.range Cell.size → ∃ t b1,
          (if Cell.isSet (b.cellAt (smallest b)) j = true then
            match assign pf b (smallest b) j with
            | .ok (true, cop) => solve pf n cop
            | r => r
          else Outcome.ok (false, b)) = .ok (t, b1) := by
        intro j hj
        have hj9 : j < 9 := by simpa [Cell.size] using hj
        split
        · rename_i hset
          obtain ⟨t, cop, hcop⟩ := assign_total b (smallest b) j hlen hi81 hset hb
          rw [hcop]
          cases t with
          | false => exact ⟨false, cop, rfl⟩
          | true =>
            have hp := (assign_spec pf b (smallest b) j).1
            rw [hcop] at hp
            have hlt := unsolved_lt hi hj9 hi1 hcop
            exact solve_total pf n cop (hp.1.1.trans hlen) (lt_of_le_of_lt (mono_bits_le hp.1) hb)
              (by omega)
        · exact ⟨false, b, rfl⟩
      apply tryEach_true _ _ _ hall (S (smallest b))
      · simpa [Cell.size] using hvg.1 _ hi81
      · rw [if_pos (hcons _ hi81)]
        obtain ⟨cop, hcop, hl1, hk1, hc1⟩ := assign_cons hvg hlen hi81 hk hcons hb
        rw [hcop]
        have hp := (assign_spec pf b (smallest b) (S (smallest b))).1
        rw [hcop] at hp
        have hlt := unsolved_lt hi (hvg.1 _ hi81) hi1 hcop
        exact ih cop hl1 hk1 hc1 (lt_of_le_of_lt (mono_bits_le hp.1) hb) (by omega)

/-! ## Rows, columns and boxes against the group table -/

theorem units_sub_groups : ∀ u ∈ units, u ∈ groups := by decide!

theorem groups_sub_units : ∀ g ∈ groups, g ∈ units := by decide!

theorem getD_mem_groups {n : Nat} (hn : n < 27) : groups.getD n [] ∈ groups :=
  (mem_groups_iff _).2 ⟨n, hn, rfl⟩

theorem count_map_eq_countP (f : Nat → Nat) (d : Nat) (l : List Nat) :
    (l.map f).count d = l.countP (fun x => f x == d) := by
  rw [List.count, List.countP_map]
  rfl

/-- A solution grid, its digits renumbered from 0, is a valid grid over the group table. -/
theorem isSolution_valid {G : Nat → Nat} (h : IsSolution G) : ValidGrid (fun x => G x - 1) := by
  refine ⟨fun x hx => by have := h.1 x hx; show G x - 1 < 9; omega, fun n hn d hd => ?_⟩
  have hu := h.2 _ (groups_sub_units _ (getD_mem_groups hn)) (d + 1) (by omega) (by omega)
  rw [count_map_eq_countP] at hu
  have hpos : 0 < (groups.getD n []).countP (fun x => G x == d + 1) := by omega
  obtain ⟨x, hx, hpx⟩ := List.countP_pos_iff.1 hpos
  have hGx : G x = d + 1 := by simpa using hpx
  refine ⟨x, hx, by show G x - 1 = d; omega, fun y hy hSy => ?_⟩
  have hy81 := (groups_shape n hn).2.2 y hy
  have hGy : G y = d + 1 := by
    have := h.1 y hy81
    have e : G y - 1 = d := hSy
    omega
  exact countP_one_unique _ _ hu hy (by simpa using hGy) hx hpx

/-! ## The fresh board -/

theorem fresh_counts : fresh.group_counts.length = 27 ∧
    (∀ n, n < 27 → (fresh.group_counts.getD n []).length = 9) ∧
    ∀ n, n < 27 → ∀ v, v < 9 →
      getCount fresh n v = actual fresh n v + 0 ∧ getCount fresh n v < 256 := by
  decide!

theorem CountInv_fresh : CountInv (fun _ _ => 0) fresh :=
  ⟨⟨fresh_counts.1, fresh_counts.2.1⟩, fun n v hn hv => fresh_counts.2.2 n hn v hv⟩

theorem isSet_full : ∀ v, v < 9 → Cell.isSet Cell.full v = true := by decide

theorem Cons_fresh {S : Nat → Nat} (h : ValidGrid S) : Cons S fresh := by
  intro x hx
  rw [cellAt_fresh, if_pos hx]
  exact isSet_full _ (h.1 x hx)

theorem bits_fresh_lt : bits fresh < 730 := by
  have := bits_le fresh
  rw [length_fresh] at this
  omega

/-! ## Completeness of construction followed by search -/

theorem build_complete {S : Nat → Nat} (hvg : ValidGrid S) (pf : Nat) :
    ∀ (cs : List Char) (b : Board) (i : Nat), b.cells.length = 81 →
      CountInv (fun _ _ => 0) b → Cons S b → bits b < pf →
      i + (cs.filter isCellChar).length ≤ 81 →
      (∀ k c, (cs.filter isCellChar)[k]? = some c → '1' ≤ c ∧ c ≤ '9' →
        S (i + k) = c.toNat - '1'.toNat) →
      ∃ bf, build pf b i cs = .ok bf ∧ bf.cells.length = 81 ∧ CountInv (fun _ _ => 0) bf ∧
        Cons S bf ∧ bits bf < pf := by
  intro cs
  induction cs with
  | nil => intro b i hlen hk hc hb _ _; exact ⟨b, rfl, hlen, hk, hc, hb⟩
  | cons c cs ih =>
    intro b i hlen hk hc hb hi hcl
    unfold build
    by_cases hd : '1' ≤ c ∧ c ≤ '9'
    · have hcc : isCellChar c = true := by
        unfold isCellChar
        have : '0' ≤ c := le_trans (by decide) hd.1
        simp [this, hd.2]
      rw [filter_isCellChar_cons, if_pos hcc] at hi hcl
      rw [if_pos hd]
      have hSi : S i = c.toNat - '1'.toNat := hcl 0 c (List.getElem?_cons_zero) hd
      have hi81 : i < 81 := by simp only [List.length_cons] at hi; omega
      obtain ⟨b1, h1, hl1, hk1, hc1⟩ := assign_cons hvg hlen hi81 hk hc hb
      rw [← hSi, h1]
      have hp := (assign_spec pf b i (S i)).1
      rw [h1] at hp
      apply ih b1 (i + 1) hl1 hk1 hc1 (lt_of_le_of_lt (mono_bits_le hp.1) hb)
      · simp only [List.length_cons] at hi; omega
      · intro k d hkd hdd
        have := hcl (k + 1) d (by rw [List.getElem?_cons_succ]; exact hkd) hdd
        rwa [show i + 1 + k = i + (k + 1) by omega]
    · rw [if_neg hd]
      by_cases hb0 : c = '0' ∨ c = '.'
      · have hcc : isCellChar c = true := by
          unfold isCellChar
          rcases hb0 with rfl | rfl
          · decide
          · decide
        rw [filter_isCellChar_cons, if_pos hcc] at hi hcl
        rw [if_pos hb0]
        apply ih b (i + 1) hlen hk hc hb
        · simp only [List.length_cons] at hi; omega
        · intro k d hkd hdd
          have := hcl (k + 1) d (by rw [List.getElem?_cons_succ]; exact hkd) hdd
          rwa [show i + 1 + k = i + (k + 1) by omega]
      · rw [if_neg hb0]
        have hcc : isCellChar c = false := by
          unfold isCellChar
          have h9 : ¬ ('0' ≤ c ∧ c ≤ '9') := by
            rintro ⟨h0, h9⟩
            by_cases h1 : '1' ≤ c
            · exact hd ⟨h1, h9⟩
            · apply hb0
              left
              have e0 : '0'.toNat ≤ c.toNat := h0
              have e1 : ¬ '1'.toNat ≤ c.toNat := h1
              have e3 : '1'.toNat = 49 := rfl
              have e4 : '0'.toNat = 48 := rfl
              have : c.toNat = 48 := by omega
              apply Char.ext
              apply UInt32.ext
              exact this
          have hdot : ¬ c = '.' := fun e => hb0 (Or.inr e)
          simp [h9, hdot]
        rw [filter_isCellChar_cons, hcc] at hi hcl
        exact ih b i hlen hk hc hb hi hcl

theorem run_complete {inp : String} (hlen : (effective inp).length ≤ 81) {G : Nat → Nat}
    (hG : IsSolution G) (hA : Agrees G inp) {pf sf : Nat} (hpf : 730 ≤ pf) (hsf : 82 ≤ sf) :
    ∃ b b1, construct pf inp = .ok b ∧ solve pf sf b = .ok (true, b1) := by
  have hvg := isSolution_valid hG
  obtain ⟨b, hb, hl, hk, hc, hbits⟩ := build_complete hvg pf inp.data fresh 0 length_fresh
    CountInv_fresh (Cons_fresh hvg) (lt_of_lt_of_le bits_fresh_lt hpf)
    (by rw [Nat.zero_add]; exact hlen)
    (fun k c hkc hd => by
      have := hA k c hkc hd
      rw [Nat.zero_add]
      show G k - 1 = _
      rw [this]
      have e1 : '1'.toNat = 49 := rfl
      have e0 : '0'.toNat = 48 := rfl
      omega)
  have hu : unsolved b < sf := by
    have := unsolved_le b
    rw [hl] at this
    omega
  obtain ⟨b1, h1⟩ := search_complete hvg pf sf b hl hk hc hbits hu
  exact ⟨b, b1, hb, h1⟩

/-! ## `isSolvedDebug` against rows, columns and boxes -/

theorem nodup_iff_each_once (l : List Nat) (hlen : l.length = 9) (hlt : ∀ y ∈ l, y < 9) :
    l.Nodup ↔ ∀ d, 0 ≤ d → d < 0 + 9 → l.count d = 1 := by
  constructor
  · intro hnd d _ hd
    have hsub : l.toFinset ⊆ Finset.range 9 := by
      intro y hy
      exact Finset.mem_range.2 (hlt y (List.mem_toFinset.1 hy))
    have hcard : (Finset.range 9).card ≤ l.toFinset.card := by
      rw [List.toFinset_card_of_nodup hnd, hlen, Finset.card_range]
    have heq := Finset.eq_of_subset_of_card_le hsub hcard
    have hd9 : d < 9 := by omega
    have hmem : d ∈ l := List.mem_toFinset.1 (heq ▸ Finset.mem_range.2 hd9)
    exact List.count_eq_one_of_mem hnd hmem
  · intro h
    rw [List.nodup_iff_count_le_one]
    intro a
    by_cases ha : a < 9
    · exact le_of_eq (h a (Nat.zero_le _) (by omega))
    · have : a ∉ l := fun hm => ha (hlt a hm)
      rw [List.count_eq_zero_of_not_mem this]
      exact Nat.zero_le _

theorem isSolvedDebug_units (b : Board) (hlen : b.cells.length = 81) :
    isSolvedDebug b = true ↔
      (∀ x, x < 81 → Cell.count (b.cellAt x) = 1) ∧
        ∀ u, u ∈ units → EachOnce (fun x => Cell.val (b.cellAt x)) 0 u := by
  rw [isSolvedDebug_iff, isSolved_iff, hlen]
  apply and_congr_right
  intro hs
  have key : ∀ n, n < 27 → ((groupVals b n).Nodup ↔
      EachOnce (fun x => Cell.val (b.cellAt x)) 0 (groups.getD n [])) := by
    intro n hn
    obtain ⟨h9, _, hlt⟩ := groups_shape n hn
    exact nodup_iff_each_once _ (by rw [groupVals, List.length_map, h9]) (by
      intro y hy
      obtain ⟨x, hx, rfl⟩ := List.mem_map.1 hy
      exact (Cell.of_count_eq_one (hs x (hlt x hx))).1)
  constructor
  · intro h u hu
    obtain ⟨n, hn, rfl⟩ := (mem_groups_iff u).1 (units_sub_groups u hu)
    exact (key n hn).1 (h n hn)
  · intro h n hn
    exact (key n hn).2 (h _ (groups_sub_units _ (getD_mem_groups hn)))

/-! ## The constructor reads only the classified characters -/

theorem isCellChar_digit {c : Char} (hd : '1' ≤ c ∧ c ≤ '9') : isCellChar c = true := by
  unfold isCellChar
  have : '0' ≤ c := le_trans (by decide) hd.1
  simp [this, hd.2]

theorem isCellChar_blank {c : Char} (hb : c = '0' ∨ c = '.') : isCellChar c = true := by
  unfold isCellChar
  rcases hb with rfl | rfl
  · decide
  · decide

theorem isCellChar_other {c : Char} (hd : ¬ ('1' ≤ c ∧ c ≤ '9')) (hb : ¬ (c = '0' ∨ c = '.')) :
    isCellChar c = false := by
  unfold isCellChar
  have h9 : ¬ ('0' ≤ c ∧ c ≤ '9') := by
    rintro ⟨h0, h9⟩
    by_cases h1 : '1' ≤ c
    · exact hd ⟨h1, h9⟩
    · apply hb
      left
      have e0 : '0'.toNat ≤ c.toNat := h0
      have e1 : ¬ '1'.toNat ≤ c.toNat := h1
      have e3 : '1'.toNat = 49 := rfl
      have e4 : '0'.toNat = 48 := rfl
      have : c.toNat = 48 := by omega
      apply Char.ext
      apply UInt32.ext
      exact this
  have hdot : ¬ c = '.' := fun e => hb (Or.inr e)
  simp [h9, hdot]

theorem build_cons (pf : Nat) (b : Board) (i : Nat) (c : Char) (cs : List Char) :
    build pf b i (c :: cs) =
      if '1' ≤ c ∧ c ≤ '9' then
        match assign pf b i (c.toNat - '1'.toNat) with
        | .ok (true, b1) => build pf b1 (i + 1) cs
        | .ok (false, b1) => .ok b1
        | .fault e => .fault e
      else if c = '0' ∨ c = '.' then build pf b (i + 1) cs
      else build pf b i cs := rfl

theorem build_dot (pf : Nat) (b : Board) (i : Nat) (cs : List Char) :
    build pf b i ('.' :: cs) = build pf b (i + 1) cs := by
  rw [build_cons, if_neg (by decide), if_pos (Or.inr rfl)]

theorem build_normalize (pf : Nat) : ∀ (cs : List Char) (b : Board) (i : Nat),
    build pf b i ((cs.filter isCellChar).map (fun c => if c = '0' then '.' else c))
      = build pf b i cs := by
  intro cs
  induction cs with
  | nil => intro b i; rfl
  | cons c cs ih =>
    intro b i
    by_cases hd : '1' ≤ c ∧ c ≤ '9'
    · have hne : c ≠ '0' := by
        rintro rfl
        exact absurd hd.1 (by decide)
      rw [filter_isCellChar_cons, if_pos (isCellChar_digit hd), List.map_cons, if_neg hne]
      simp only [build_cons, if_pos hd]
      split
      · exact ih _ _
      · rfl
      · rfl
    · by_cases hb : c = '0' ∨ c = '.'
      · rw [filter_isCellChar_cons, if_pos (isCellChar_blank hb), List.map_cons]
        have hdot : (if c = '0' then '.' else c) = '.' := by
          rcases hb with rfl | rfl
          · rfl
          · rfl
        rw [hdot, build_dot, build_cons, if_neg hd, if_pos hb]
        exact ih _ _
      · rw [filter_isCellChar_cons, isCellChar_other hd hb, build_cons pf b i c cs, if_neg hd,
          if_neg hb]
        simp only [Bool.false_eq_true, if_false]
        exact ih _ _

theorem construct_normalize (pf : Nat) (inp : String) :
    construct pf (normalize inp) = construct pf inp :=
  build_normalize pf inp.data fresh 0

/-! ## Blank characters and trailing cells -/

theorem build_blanks (pf : Nat) (b : Board) : ∀ (n i : Nat) (cs : List Char),
    build pf b i (List.replicate n '.' ++ cs) = build pf b (i + n) cs := by
  intro n
  induction n with
  | zero => intro i cs; rfl
  | succ n ih =>
    intro i cs
    rw [List.replicate_succ, List.cons_append, build_dot, ih]
    rw [show i + 1 + n = i + (n + 1) by omega]

theorem build_append_blanks (pf : Nat) (n : Nat) : ∀ (cs : List Char) (b : Board) (i : Nat),
    build pf b i (cs ++ List.replicate n '.') = build pf b i cs := by
  intro cs
  induction cs with
  | nil =>
    intro b i
    have := build_blanks pf b n i []
    rw [List.append_nil] at this
    rw [List.nil_append, this]
    rfl
  | cons c cs ih =>
    intro b i
    rw [List.cons_append, build_cons, build_cons pf b i c cs]
    split
    · split
      · exact ih _ _
      · rfl
      · rfl
    · split
      · exact ih _ _
      · exact ih _ _

theorem build_no_digit (pf : Nat) (b : Board) : ∀ (cs : List Char) (i : Nat),
    (∀ c, c ∈ cs → ¬ ('1' ≤ c ∧ c ≤ '9')) → build pf b i cs = .ok b := by
  intro cs
  induction cs with
  | nil => intro i _; rfl
  | cons c cs ih =>
    intro i h
    rw [build_cons, if_neg (h c (List.mem_cons_self _ _))]
    split
    · exact ih _ (fun d hd => h d (List.mem_cons_of_mem _ hd))
    · exact ih _ (fun d hd => h d (List.mem_cons_of_mem _ hd))

/-! ## A digit past the last cell -/

theorem assign_out_of_range (pf : Nat) (b : Board) (c v : Nat) (h : b.cells.length ≤ c) :
    assign pf b c v = .fault .outOfRange := by
  unfold assign assignWith
  rw [List.getElem?_eq_none h]

/-! ## A successful run yields a solution grid -/

theorem count_map_succ (f : Nat → Nat) (d : Nat) (hd : 1 ≤ d) : ∀ u : List Nat,
    (u.map (fun x => f x + 1)).count d = (u.map f).count (d - 1) := by
  intro u
  induction u with
  | nil => rfl
  | cons a u ih =>
    rw [List.map_cons, List.map_cons, List.count_cons, List.count_cons, ih]
    congr 1
    by_cases h : f a + 1 = d
    · have h2 : f a = d - 1 := by omega
      rw [h, h2]
      simp
    · have h2 : ¬ f a = d - 1 := by omega
      simp [h, h2]

/-- The digits of a board on which a run succeeded form a solution grid that agrees with the
digits given in the input. -/
theorem grid_of_run {pf sf : Nat} {inp : String} {b b1 : Board} (hc : construct pf inp = .ok b)
    (hs : solve pf sf b = .ok (true, b1)) :
    IsSolution (fun x => Cell.val (b1.cellAt x) + 1) ∧
      Agrees (fun x => Cell.val (b1.cellAt x) + 1) inp := by
  obtain ⟨hl, hsol, hinv, hcl⟩ := run_sound hc hs
  have hdbg := isSolvedDebug_of_inv hl hsol hinv
  obtain ⟨h1, hu⟩ := (isSolvedDebug_units b1 hl).1 hdbg
  refine ⟨⟨fun x hx => ?_, fun u huu d hd1 hd9 => ?_⟩, fun k c hk hd => ?_⟩
  · have := (Cell.of_count_eq_one (h1 x hx)).1
    constructor
    · exact Nat.le_add_left 1 _
    · show Cell.val (b1.cellAt x) + 1 ≤ 9
      omega
  · rw [count_map_succ (fun x => Cell.val (b1.cellAt x)) d hd1 u]
    exact hu u huu (d - 1) (Nat.zero_le _) (by omega)
  · have h2 := (hcl k c hk hd).2
    have e1 : '1'.toNat ≤ c.toNat := hd.1
    have e3 : '1'.toNat = 49 := rfl
    have e4 : '0'.toNat = 48 := rfl
    show Cell.val (b1.cellAt k) + 1 = _
    rw [h2]
    omega

/-! ## Concrete inputs -/

theorem grid81_solution : IsSolution grid81 := by
  unfold IsSolution EachOnce
  decide!

theorem agrees_of_check {G : Nat → Nat} {inp : String}
    (h : ∀ k, k < (effective inp).length →
      ('1' ≤ (effective inp).getD k '.' ∧ (effective inp).getD k '.' ≤ '9') →
        G k = ((effective inp).getD k '.').toNat - '0'.toNat) : Agrees G inp := by
  intro k c hk hd
  obtain ⟨hlt, hc⟩ := List.getElem?_eq_some_iff.1 hk
  have e : (effective inp).getD k '.' = c := by
    rw [List.getD_eq_getElem?_getD, hk]; rfl
  have := h k hlt
  rw [e] at this
  exact this hd

theorem grid81_agrees : Agrees grid81 puzzle81 := by
  apply agrees_of_check
  decide!

theorem puzzle81_len : (effective puzzle81).length ≤ 81 := by decide

/-- Two cells of one unit cannot both hold the digit `d` in a solution grid. -/
theorem unit_unique {G : Nat → Nat} (hG : IsSolution G) {u : List Nat} (hu : u ∈ units)
    {d x y : Nat} (hd1 : 1 ≤ d) (hd9 : d < 1 + 9) (hx : x ∈ u) (hy : y ∈ u) (hGx : G x = d)
    (hGy : G y = d) : x = y := by
  have h := hG.2 u hu d hd1 hd9
  rw [count_map_eq_countP] at h
  exact countP_one_unique _ _ h hx (by simpa using hGx) hy (by simpa using hGy)

/-- The clues of the 80-character line contradict each other: the bottom right box has no
cell left for the digit 1, which the line gives in row 7 and in column 8. -/
theorem puzzle80_no_grid : ¬ ∃ G, IsSolution G ∧ Agrees G puzzle80 := by
  rintro ⟨G, hG, hA⟩
  have clue : ∀ (k : Nat) (c : Char), (effective puzzle80)[k]? = some c → '1' ≤ c ∧ c ≤ '9' →
      G k = c.toNat - '0'.toNat := hA
  have g60 : G 60 = 2 := clue 60 '2' (by decide) (by decide)
  have g61 : G 61 = 8 := clue 61 '8' (by decide) (by decide)
  have g71 : G 71 = 5 := clue 71 '5' (by decide) (by decide)
  have g78 : G 78 = 7 := clue 78 '7' (by decide) (by decide)
  have g79 : G 79 = 9 := clue 79 '9' (by decide) (by decide)
  have g67 : G 67 = 1 := clue 67 '1' (by decide) (by decide)
  have g44 : G 44 = 1 := clue 44 '1' (by decide) (by decide)
  have hbox : boxCells 2 2 ∈ units := by decide
  have hrow : rowCells 7 ∈ units := by decide
  have hcol : colCells 8 ∈ units := by decide
  have h := hG.2 _ hbox 1 (le_refl _) (by decide)
  have hmem : 1 ∈ (boxCells 2 2).map G := List.count_pos_iff.1 (by omega)
  obtain ⟨x, hx, hGx⟩ := List.mem_map.1 hmem
  have hx9 : x = 60 ∨ x = 61 ∨ x = 62 ∨ x = 69 ∨ x = 70 ∨ x = 71 ∨ x = 78 ∨ x = 79 ∨ x = 80 := by
    have e : boxCells 2 2 = [60, 61, 62, 69, 70, 71, 78, 79, 80] := by decide
    rw [e] at hx
    simpa using hx
  have inRow : ∀ y, y ∈ rowCells 7 → G y = 1 → y = 67 := fun y hy hGy =>
    unit_unique hG hrow (le_refl _) (by decide) hy (by decide) hGy g67
  have inCol : ∀ y, y ∈ colCells 8 → G y = 1 → y = 44 := fun y hy hGy =>
    unit_unique hG hcol (le_refl _) (by decide) hy (by decide) hGy g44
  rcases hx9 with rfl | rfl | rfl | rfl | rfl | rfl | rfl | rfl | rfl
  · omega
  · omega
  · exact absurd (inCol 62 (by decide) hGx) (by decide)
  · exact absurd (inRow 69 (by decide) hGx) (by decide)
  · exact absurd (inRow 70 (by decide) hGx) (by decide)
  · omega
  · omega
  · omega
  · exact absurd (inCol 80 (by decide) hGx) (by decide)

set_option maxRecDepth 100000 in
theorem eval_dupRow : construct 3 dupRow = .fault .assertion := by decide!

set_option maxRecDepth 100000 in
theorem eval_one : (match construct 3 "1" with
    | .ok b => decide (Cell.count (b.cellAt 1) = 8)
    | .fault _ => false) = true := by
  decide!

/-! ## Auxiliary facts for the concrete inputs -/

theorem fault_of_fuelLe {α : Type} {r r1 : Outcome α} {e : Fault} (h : FuelLe r r1)
    (h1 : r1 = .fault e) : r = .fault .outOfFuel ∨ r = .fault e := by
  rcases h with h | h
  · exact Or.inl h
  · exact Or.inr (h ▸ h1)

/-- An outcome that is a definite fault at some fuel is that fault or out of fuel at any fuel. -/
theorem construct_fault {inp : String} {pf0 : Nat} {e : Fault} (hne : e ≠ .outOfFuel)
    (h : construct pf0 inp = .fault e) (pf : Nat) :
    construct pf inp = .fault .outOfFuel ∨ construct pf inp = .fault e := by
  rcases Nat.le_total pf pf0 with hle | hle
  · exact fault_of_fuelLe (construct_fuel hle inp) h
  · rcases construct_fuel hle inp with h1 | h1
    · rw [h] at h1
      exact absurd (Outcome.fault.inj h1) hne
    · exact Or.inr (h1.trans h)

theorem blank_construct (pf : Nat) {inp : String} (h : inp = blankDots ∨ inp = blankZeros) :
    construct pf inp = .ok fresh := by
  apply build_no_digit
  intro c hc
  rcases h with rfl | rfl
  · have : c = '.' := List.eq_of_mem_replicate hc
    rw [this]; decide
  · have : c = '0' := List.eq_of_mem_replicate hc
    rw [this]; decide

theorem blank_effective {inp : String} (h : inp = blankDots ∨ inp = blankZeros) :
    (effective inp).length ≤ 81 := by
  unfold effective
  refine (List.length_filter_le _ _).trans ?_
  rcases h with rfl | rfl
  · exact le_of_eq (List.length_replicate 81 '.')
  · exact le_of_eq (List.length_replicate 81 '0')

/-- Every grid agrees with a line that gives no digit. -/
theorem agrees_of_no_digit (G : Nat → Nat) {inp : String}
    (h : ∀ c, c ∈ inp.data → ¬ ('1' ≤ c ∧ c ≤ '9')) : Agrees G inp := by
  intro k c hk hd
  obtain ⟨hlt, hget⟩ := List.getElem?_eq_some_iff.1 hk
  have hmem : c ∈ effective inp := hget ▸ List.getElem_mem hlt
  exact absurd hd (h c (List.mem_filter.1 hmem).1)

theorem blank_no_digit {inp : String} (h : inp = blankDots ∨ inp = blankZeros) :
    ∀ c, c ∈ inp.data → ¬ ('1' ≤ c ∧ c ≤ '9') := by
  intro c hc
  rcases h with rfl | rfl
  · have : c = '.' := List.eq_of_mem_replicate hc
    rw [this]; decide
  · have : c = '0' := List.eq_of_mem_replicate hc
    rw [this]; decide

theorem sound_of_solve {pf sf : Nat} {inp : String} {b b1 : Board}
    (hc : construct pf inp = .ok b) (hs : solve pf sf b = .ok (true, b1)) :
    isSolvedDebug b1 = true := by
  obtain ⟨hl, hsol, hinv, _⟩ := run_sound hc hs
  exact isSolvedDebug_of_inv hl hsol hinv

/-! ## The claims -/

/-- Claim C1. Soundness of the solver: for every input string (in particular every one with at most
81 effective cells) and whatever the fuel, if constructing a board from the string succeeds
and `solve` on it returns true, then `isSolvedDebug` is true on the resulting board: every
cell has exactly one candidate and every row, column and box holds each digit exactly
once. -/
theorem solver_soundness (pf sf : Nat) (inp : String) (b b1 : Board)
    (hc : construct pf inp = .ok b) (hs : solve pf sf b = .ok (true, b1)) :
    isSolvedDebug b1 = true ∧ (∀ x, x < 81 → Cell.count (b1.cellAt x) = 1) ∧
      ∀ u, u ∈ units → EachOnce (fun x => Cell.val (b1.cellAt x)) 0 u := by
  have h := sound_of_solve hc hs
  exact ⟨h, (isSolvedDebug_units b1 (run_sound hc hs).1).1 h⟩

/-- Claim C1 applies to the 81-character puzzle: construction succeeds on it, `solve` returns true,
and the resulting board passes the check. -/
theorem solver_soundness_witness :
    ∃ b b1, construct 730 puzzle81 = .ok b ∧ solve 730 82 b = .ok (true, b1) ∧
      (isSolvedDebug b1 = true ∧ (∀ x, x < 81 → Cell.count (b1.cellAt x) = 1) ∧
        ∀ u, u ∈ units → EachOnce (fun x => Cell.val (b1.cellAt x)) 0 u) := by
  obtain ⟨b, b1, hc, hs⟩ := run_complete puzzle81_len grid81_solution grid81_agrees
    (le_refl 730) (le_refl 82)
  exact ⟨b, b1, hc, hs, solver_soundness 730 82 puzzle81 b b1 hc hs⟩

/-- Claim C2. Completeness of the solver: for every input string with at most 81 effective cells,
if some complete grid holds every digit 1 to 9 exactly once in every row, column and box and
agrees with every digit given in the input, then with fuel for 729 candidates and 81 cells
construction succeeds and `solve` returns true. -/
theorem solver_completeness (pf sf : Nat) (inp : String) (G : Nat → Nat)
    (hlen : (effective inp).length ≤ 81) (hG : IsSolution G) (hA : Agrees G inp)
    (hpf : 730 ≤ pf) (hsf : 82 ≤ sf) :
    ∃ b b1, construct pf inp = .ok b ∧ solve pf sf b = .ok (true, b1) :=
  run_complete hlen hG hA hpf hsf

/-- Claim C2 applies to the 81-character puzzle, whose solution grid agrees with its clues. -/
theorem solver_completeness_witness :
    (effective puzzle81).length ≤ 81 ∧ IsSolution grid81 ∧ Agrees grid81 puzzle81 ∧
      ∃ b b1, construct 730 puzzle81 = .ok b ∧ solve 730 82 b = .ok (true, b1) :=
  ⟨puzzle81_len, grid81_solution, grid81_agrees,
    solver_completeness 730 82 puzzle81 grid81 puzzle81_len grid81_solution grid81_agrees
      (le_refl _) (le_refl _)⟩

/-- Claim C3. The solution respects the clues: if construction succeeds and `solve` returns true,
then for every position `k` whose `k`-th effective character is a digit `c` from `'1'` to
`'9'`, cell `k` of the resulting board has exactly one candidate, the zero-indexed digit
`c - '1'`. -/
theorem solution_respects_clues (pf sf : Nat) (inp : String) (b b1 : Board) (k : Nat) (c : Char)
    (hc : construct pf inp = .ok b) (hs : solve pf sf b = .ok (true, b1))
    (hk : (effective inp)[k]? = some c) (hd : '1' ≤ c ∧ c ≤ '9') :
    Cell.count (b1.cellAt k) = 1 ∧ Cell.val (b1.cellAt k) = c.toNat - '1'.toNat :=
  (run_sound hc hs).2.2.2 k c hk hd

/-- Claim C3 applies to the 81-character puzzle: its first character is the digit 5, and cell 0 of
the solved board holds exactly that digit. -/
theorem solution_respects_clues_witness :
    (effective puzzle81)[0]? = some '5' ∧
      ∃ b b1, construct 730 puzzle81 = .ok b ∧ solve 730 82 b = .ok (true, b1) ∧
        Cell.count (b1.cellAt 0) = 1 ∧ Cell.val (b1.cellAt 0) = '5'.toNat - '1'.toNat := by
  obtain ⟨b, b1, hc, hs⟩ := run_complete puzzle81_len grid81_solution grid81_agrees
    (le_refl 730) (le_refl 82)
  exact ⟨by decide, b, b1, hc, hs,
    solution_respects_clues 730 82 puzzle81 b b1 0 '5' hc hs (by decide) (by decide)⟩

/-- Claim C4, as stated, fails: the 80-character line of the specification has no solution
grid, its clues leaving no cell of the bottom right box for the digit 1, and so on it no
run of construction followed by `solve` returns true, whatever the fuel. -/
theorem spec_puzzle_not_solved :
    puzzle80.length = 80 ∧ (¬ ∃ G, IsSolution G ∧ Agrees G puzzle80) ∧
      ¬ ∃ pf sf b b1, construct pf puzzle80 = .ok b ∧ solve pf sf b = .ok (true, b1) := by
  refine ⟨by decide, puzzle80_no_grid, ?_⟩
  rintro ⟨pf, sf, b, b1, hb, hs⟩
  exact puzzle80_no_grid ⟨_, grid_of_run hb hs⟩

/-- Claim C4, amended: for the 81-character puzzle the line of the specification comes from,
with fuel for 729 candidates and 81 cells, construction succeeds, `solve` returns true and
`isSolvedDebug` is true on the resulting board; on the 80-character line as written no run
returns true. -/
theorem known_puzzle_solved (pf sf : Nat) (hpf : 730 ≤ pf) (hsf : 82 ≤ sf) :
    (∃ b b1, construct pf puzzle81 = .ok b ∧ solve pf sf b = .ok (true, b1) ∧
      isSolvedDebug b1 = true) ∧
      ¬ ∃ b b1, construct pf puzzle80 = .ok b ∧ solve pf sf b = .ok (true, b1) := by
  obtain ⟨b, b1, hc, hs⟩ := run_complete puzzle81_len grid81_solution grid81_agrees hpf hsf
  refine ⟨⟨b, b1, hc, hs, sound_of_solve hc hs⟩, ?_⟩
  rintro ⟨c, c1, hc2, hs2⟩
  exact puzzle80_no_grid ⟨_, grid_of_run hc2 hs2⟩

/-- Claim C4, amended, at the least fuel it names. -/
theorem known_puzzle_solved_witness :
    puzzle81.length = 81 ∧
      ∃ b b1, construct 730 puzzle81 = .ok b ∧ solve 730 82 b = .ok (true, b1) ∧
        isSolvedDebug b1 = true :=
  ⟨by decide, (known_puzzle_solved 730 82 (le_refl _) (le_refl _)).1⟩

/-- Claim C5. For the all-blank input, written with 81 dots or with 81 zeros, construction
leaves every cell with all 9 candidates, and with fuel for 729 candidates and 81 cells
`solve` returns true on a board on which `isSolvedDebug` is true. -/
theorem blank_board_solved (pf sf : Nat) (inp : String) (hpf : 730 ≤ pf) (hsf : 82 ≤ sf)
    (h : inp = blankDots ∨ inp = blankZeros) :
    construct pf inp = .ok fresh ∧ (∀ k, k < 81 → Cell.count (fresh.cellAt k) = 9) ∧
      ∃ b1, solve pf sf fresh = .ok (true, b1) ∧ isSolvedDebug b1 = true := by
  have hc := blank_construct pf h
  obtain ⟨b, b1, hb, hs⟩ := run_complete (blank_effective h) grid81_solution
    (agrees_of_no_digit grid81 (blank_no_digit h)) hpf hsf
  have e : b = fresh := by
    rw [hc] at hb
    exact (Outcome.ok.inj hb).symm
  subst e
  refine ⟨hc, fun k hk => ?_, b1, hs, sound_of_solve hc hs⟩
  rw [cellAt_fresh, if_pos hk]
  exact count_full

/-- Claim C5 at the line of 81 dots and the least fuel it names. -/
theorem blank_board_solved_witness :
    construct 730 blankDots = .ok fresh ∧ (∀ k, k < 81 → Cell.count (fresh.cellAt k) = 9) ∧
      ∃ b1, solve 730 82 fresh = .ok (true, b1) ∧ isSolvedDebug b1 = true :=
  blank_board_solved 730 82 blankDots (le_refl _) (le_refl _) (Or.inl rfl)

/-- Claim C6 fails on the code: with the digit 5 given in cells 0 and 1, the second `assign` is
called with a digit that is no longer a candidate, and the assertion at the head of
`assign` fails during construction; no run reaches a result. -/
theorem duplicate_clue_asserts :
    construct 3 dupRow = .fault .assertion ∧
      (∀ pf, construct pf dupRow = .fault .outOfFuel ∨ construct pf dupRow = .fault .assertion) ∧
      ∀ pf sf, ∃ e, run pf sf dupRow = .fault e := by
  refine ⟨eval_dupRow, construct_fault (by decide) eval_dupRow, fun pf sf => ?_⟩
  unfold run
  rcases construct_fault (by decide) eval_dupRow pf with h | h
  · rw [h]; exact ⟨_, rfl⟩
  · rw [h]; exact ⟨_, rfl⟩

/-- Claim C7. `isSolvedDebug` is the authoritative check: on every board of 81 cells it is true
exactly when every cell has one candidate and, reading that candidate as the digit of the
cell, each row, each column and each aligned box holds each of the 9 digits exactly once. -/
theorem isSolvedDebug_authoritative (b : Board) (hlen : b.cells.length = 81) :
    isSolvedDebug b = true ↔
      (∀ x, x < 81 → Cell.count (b.cellAt x) = 1) ∧
        ∀ u, u ∈ units → EachOnce (fun x => Cell.val (b.cellAt x)) 0 u :=
  isSolvedDebug_units b hlen

/-- Claim C7 applies to the solved board of the 81-character puzzle, which has 81 cells. -/
theorem isSolvedDebug_authoritative_witness :
    solved81.cells.length = 81 ∧
      (isSolvedDebug solved81 = true ↔
        (∀ x, x < 81 → Cell.count (solved81.cellAt x) = 1) ∧
          ∀ u, u ∈ units → EachOnce (fun x => Cell.val (solved81.cellAt x)) 0 u) :=
  ⟨by decide, isSolvedDebug_authoritative solved81 (by decide)⟩

/-- Claim C8. Construction depends only on the classified characters: for every input string (in
particular every one with at most 81 effective cells), the string with every character
other than `'0'`-`'9'` and `'.'` deleted and every `'0'` replaced by `'.'` gives the same
outcome of construction, the same board with the same candidate sets and counters. -/
theorem construction_reads_classified (pf : Nat) (inp : String) :
    construct pf (normalize inp) = construct pf inp :=
  construct_normalize pf inp

/-- Claim C9 fails on the code: on a line of 81 blanks followed by a digit the constructor calls
`assign` with cell index 81, outside the 81 cells, whatever the fuel. -/
theorem overlong_line_out_of_range :
    (effective overlong).length = 82 ∧ ∀ pf, construct pf overlong = .fault .outOfRange := by
  refine ⟨by decide, fun pf => ?_⟩
  show build pf fresh 0 (List.replicate 81 '.' ++ ['1']) = _
  rw [build_blanks, build_cons, if_pos (by decide),
    assign_out_of_range pf fresh _ _ (by rw [length_fresh])]

/-- Claim C10, as stated, fails: on the one-character line `1`, cell 1 is a trailing cell and is
left with 8 candidates, the digit given to cell 0 having been removed from it. -/
theorem trailing_cells_not_full :
    ∃ b, construct 3 "1" = .ok b ∧ (effective "1").length = 1 ∧ Cell.count (b.cellAt 1) = 8 := by
  have h := eval_one
  split at h
  · rename_i b hb
    exact ⟨b, hb, by decide, by simpa using h⟩
  · exact Bool.noConfusion h

/-- Claim C10, amended: the constructor treats the trailing cells as blanks, building from a line
the board it builds from the line padded with blanks to 81 effective cells; and when the
line gives no digit, every cell, trailing ones included, keeps all 9 candidates. -/
theorem trailing_cells_as_blanks (pf : Nat) (inp : String) :
    construct pf (padBlanks inp (81 - (effective inp).length)) = construct pf inp ∧
      ((∀ c, c ∈ inp.data → ¬ ('1' ≤ c ∧ c ≤ '9')) →
        construct pf inp = .ok fresh ∧ ∀ k, k < 81 → Cell.count (fresh.cellAt k) = 9) := by
  refine ⟨build_append_blanks pf _ inp.data fresh 0, fun h => ⟨build_no_digit pf fresh _ 0 h,
    fun k hk => ?_⟩⟩
  rw [cellAt_fresh, if_pos hk]
  exact count_full

/-- Claim C10, amended, at a line of two blanks and an ignored character, which gives no digit. -/
theorem trailing_cells_as_blanks_witness :
    (∀ c, c ∈ "0.x".data → ¬ ('1' ≤ c ∧ c ≤ '9')) ∧
      construct 3 (padBlanks "0.x" (81 - (effective "0.x").length)) = construct 3 "0.x" ∧
      construct 3 "0.x" = .ok fresh :=
  ⟨by decide, (trailing_cells_as_blanks 3 "0.x").1,
    ((trailing_cells_as_blanks 3 "0.x").2 (by decide)).1⟩

/-! ## Monotonicity, idempotence and the postcondition of `assign` -/

theorem mono_of_post {b b1 : Board} {r : Res} {t : Bool} (hp : Post b r) (hr : r = .ok (t, b1)) :
    Mono b b1 := by
  subst hr
  cases t
  · exact hp.1
  · exact hp.1

theorem mono_of_solve {pf sf : Nat} {b b1 : Board} {t : Bool}
    (h : solve pf sf b = .ok (t, b1)) : Mono b b1 := by
  have hp := solve_post pf sf b
  rw [h] at hp
  cases t
  · have e : b1 = b := hp
    rw [e]
    exact mono_refl b
  · exact hp.1

/-- Removing a digit that is not a candidate changes nothing and succeeds. -/
theorem remove_absent (fuel : Nat) (b : Board) (c v : Nat) (hc : c < b.cells.length)
    (h : Cell.isSet (b.cellAt c) v = false) : remove (fuel + 1) b c v = .ok (true, b) := by
  show removeWith (remove fuel) b c v = _
  unfold removeWith
  rw [getElem?_of_lt hc]
  simp only [h, Bool.false_eq_true, if_false]

theorem exactly_of_fixed {c v : Nat} (h : Cell.count c = 1 ∧ Cell.val c = v) :
    ∀ i, i < 9 → (Cell.isSet c i = true ↔ i = v) := by
  intro i hi
  rw [← h.2]
  exact (Cell.of_count_eq_one h.1).2 i hi

set_option maxRecDepth 100000 in
theorem eval_assign_fresh :
    (match assign 3 fresh 0 4 with | .ok (true, _) => true | _ => false) = true := by
  decide!

theorem assign_fresh_ok : ∃ b1, assign 3 fresh 0 4 = .ok (true, b1) := by
  have h := eval_assign_fresh
  split at h
  · rename_i b1 heq
    exact ⟨b1, heq⟩
  · exact Bool.noConfusion h

theorem unsolved_fresh_lt : unsolved fresh < 82 := by
  have := unsolved_le fresh
  rw [length_fresh] at this
  omega

theorem bits_lt_of_length {b : Board} (h : b.cells.length = 81) : bits b < 730 := by
  have := bits_le b
  rw [h] at this
  omega

/-! ## The topology tables, entry by entry -/

set_option maxRecDepth 100000 in
theorem eval_tables :
    belong_to.length = 81 ∧
      (∀ r, r < 9 → groups.getD (2 * r) [] = rowCells r ∧ groups.getD (2 * r + 1) [] = colCells r) ∧
      (∀ k, k < 9 → groups.getD (18 + k) [] = boxCells (k / 3) (k % 3)) ∧
      ∀ c, c < 81 → (belong_to.getD c []).length = 3 ∧
        2 * (c / 9) ∈ belong_to.getD c [] ∧ 2 * (c % 9) + 1 ∈ belong_to.getD c [] ∧
        18 + (3 * (c / 27) + c % 9 / 3) ∈ belong_to.getD c [] := by
  decide!

theorem topology_tables :
    groups.length = 27 ∧ belong_to.length = 81 ∧
      (∀ r, r < 9 → groups.getD (2 * r) [] = rowCells r ∧ groups.getD (2 * r + 1) [] = colCells r) ∧
      (∀ k, k < 9 → groups.getD (18 + k) [] = boxCells (k / 3) (k % 3)) ∧
      (∀ g, g < 27 → (groups.getD g []).length = 9 ∧ (groups.getD g []).Nodup ∧
        ∀ c ∈ groups.getD g [], c < 81) ∧
      (∀ c, c < 81 → (belong_to.getD c []).length = 3 ∧ (belong_to.getD c []).Nodup ∧
        2 * (c / 9) ∈ belong_to.getD c [] ∧ 2 * (c % 9) + 1 ∈ belong_to.getD c [] ∧
        18 + (3 * (c / 27) + c % 9 / 3) ∈ belong_to.getD c []) ∧
      ∀ c, c < 81 → ∀ g, g < 27 → (g ∈ belong_to.getD c [] ↔ c ∈ groups.getD g []) :=
  ⟨groups_length, eval_tables.1, eval_tables.2.1, eval_tables.2.2.1, groups_shape,
    fun c hc => ⟨(eval_tables.2.2.2 c hc).1, (group_of_belong c hc).1, (eval_tables.2.2.2 c hc).2⟩,
    fun c hc g hg => ⟨fun h => ((group_of_belong c hc).2 g h).2, belong_of_group g hg c⟩⟩

/-! ## `smallest` against its reference definition -/

theorem find?_range (P : Nat → Bool) : ∀ n i, i < n → P i = true → (∀ j, j < i → P j = false) →
    (List.range n).find? P = some i := by
  intro n
  induction n with
  | zero => intro i hi; exact absurd hi (Nat.not_lt_zero _)
  | succ n ih =>
    intro i hi hp hlt
    rw [List.range_succ, List.find?_append]
    by_cases h : i < n
    · rw [ih i h hp hlt]; rfl
    · have e : i = n := by omega
      subst e
      have hn : (List.range i).find? P = none := by
        rw [List.find?_eq_none]
        intro x hx
        rw [hlt x (List.mem_range.1 hx)]
        exact Bool.false_ne_true
      rw [hn]
      simp [hp]

/-- The reference definition returns the size of the cell array when no cell qualifies. -/
theorem smallestBy_none (p : Nat → Bool) (b : Board)
    (h : ∀ x, x < b.cells.length → p (Cell.count (b.cellAt x)) = false) :
    smallestBy p b = b.cells.length := by
  have e : (List.range b.cells.length).filter (fun i => p (Cell.count (b.cellAt i))) = [] := by
    rw [List.filter_eq_nil_iff]
    intro x hx
    rw [h x (List.mem_range.1 hx)]
    exact Bool.false_ne_true
  unfold smallestBy
  simp only [e]
  rfl

/-- The reference definition returns the first of the qualifying cells of least count. -/
theorem smallestBy_some (p : Nat → Bool) (b : Board) (i : Nat) (hi : i < b.cells.length)
    (hp : p (Cell.count (b.cellAt i)) = true)
    (hle : ∀ x, x < b.cells.length → p (Cell.count (b.cellAt x)) = true →
      Cell.count (b.cellAt i) ≤ Cell.count (b.cellAt x))
    (hlt : ∀ x, x < i → p (Cell.count (b.cellAt x)) = true →
      Cell.count (b.cellAt i) < Cell.count (b.cellAt x)) :
    smallestBy p b = i := by
  have hmin : (((List.range b.cells.length).filter (fun i => p (Cell.count (b.cellAt i)))).map
      (fun i => Cell.count (b.cellAt i))).min? = some (Cell.count (b.cellAt i)) := by
    rw [List.min?_eq_some_iff']
    constructor
    · exact List.mem_map.2 ⟨i, List.mem_filter.2 ⟨List.mem_range.2 hi, hp⟩, rfl⟩
    · intro m hm
      obtain ⟨x, hx, rfl⟩ := List.mem_map.1 hm
      obtain ⟨hx1, hx2⟩ := List.mem_filter.1 hx
      exact hle x (List.mem_range.1 hx1) hx2
  unfold smallestBy
  simp only [hmin]
  rw [List.find?_filter, find?_range _ _ i hi]
  · rfl
  · simp [hp]
  · intro j hj
    by_cases hpj : p (Cell.count (b.cellAt j)) = true
    · have := hlt j hj hpj
      have hne : Cell.count (b.cellAt j) ≠ Cell.count (b.cellAt i) := by omega
      simp [hpj, hne]
    · simp [hpj]

theorem smallestBy_congr (p q : Nat → Bool) (b : Board)
    (h : ∀ x, x < b.cells.length → p (Cell.count (b.cellAt x)) = q (Cell.count (b.cellAt x))) :
    smallestBy p b = smallestBy q b := by
  have e : (List.range b.cells.length).filter (fun i => p (Cell.count (b.cellAt i)))
      = (List.range b.cells.length).filter (fun i => q (Cell.count (b.cellAt i))) :=
    List.filter_congr (fun x hx => h x (List.mem_range.1 hx))
  unfold smallestBy
  simp only [e]

/-- The function `smallest` computes the reference definition taken over the cells whose count
is not 1. -/
theorem smallest_eq_by (b : Board) : smallest b = smallestBy (fun n => n != 1) b := by
  have := scan_inv b b.cells.length (le_refl _)
  rcases this with ⟨a1, _, a3⟩ | ⟨a1, a2, a3, a4, a5⟩
  · rw [smallestBy_none]
    · exact a1
    · intro x hx
      simp [a3 x hx]
  · symm
    apply smallestBy_some _ _ _ a1
    · simpa using a2
    · intro x hx hp
      rw [← a3]
      exact a4 x hx (by simpa using hp)
    · intro x hx hp
      rw [← a3]
      exact a5 x hx (by simpa using hp)

theorem eval_solve_stuck : solve 4 1 stuckBoard = .ok (false, stuckBoard) := by decide!

/-! ## No counter wraps: the checked decrement never fires on a successful run -/

/-- The counters around one decrement of the second loop of `remove`: the counter is positive
before it, and the slack of the group is used up after it. -/
theorem countInv_dec {k : Nat → Nat → Nat} {b : Board} {n v : Nat} {rest : List Nat}
    (hn27 : n < 27) (hv : v < 9) (hnotin : n ∉ rest)
    (hk : CountInv (fun n1 v1 => k n1 v1 + if v1 = v ∧ n1 ∈ n :: rest then 1 else 0) b) :
    0 < getCount b n v ∧ getCount (decCount b n v) n v = actual b n v + k n v ∧
      CountInv (fun n1 v1 => k n1 v1 + if v1 = v ∧ n1 ∈ rest then 1 else 0) (decCount b n v) := by
  have h0 : getCount b n v = actual b n v + (k n v + 1) ∧ getCount b n v < 256 := by
    have := hk.2 n v hn27 hv
    beta_reduce at this
    rwa [if_pos ⟨rfl, List.mem_cons_self _ _⟩] at this
  refine ⟨by omega, ?_, countShape_decCount hk.1 n v, fun n1 v1 hn1 hv1 => ?_⟩
  · rw [getCount_decCount b hk.1 hn27 hv, if_pos ⟨rfl, rfl⟩, mod_dec (by omega) h0.2]
    omega
  · rw [getCount_decCount b hk.1 hn27 hv, actual_decCount]
    by_cases h : n1 = n ∧ v1 = v
    · obtain ⟨rfl, rfl⟩ := h
      rw [if_pos ⟨rfl, rfl⟩]
      beta_reduce
      rw [if_neg (fun h => hnotin h.2), mod_dec (by omega) h0.2]
      omega
    · rw [if_neg h]
      obtain ⟨e1, e2⟩ := hk.2 n1 v1 hn1 hv1
      refine ⟨?_, e2⟩
      rw [e1]
      beta_reduce
      congr 2
      apply if_congr _ rfl rfl
      constructor
      · rintro ⟨h1, h2⟩
        rcases List.mem_cons.1 h2 with h3 | h3
        · exact absurd ⟨h3, h1⟩ h
        · exact ⟨h1, h3⟩
      · rintro ⟨h1, h2⟩
        exact ⟨h1, List.mem_cons_of_mem _ h2⟩

theorem forEach_agree_suffix {α : Type} (f g : Board → α → Res) (I : List α → Board → Prop)
    (h : ∀ b x rest b1, I (x :: rest) b → f b x = .ok (true, b1) →
      g b x = .ok (true, b1) ∧ I rest b1) :
    ∀ xs b b1, I xs b → forEach f b xs = .ok (true, b1) →
      forEach g b xs = .ok (true, b1) ∧ I [] b1 := by
  intro xs
  induction xs with
  | nil =>
    intro b b1 hI hr
    have : b = b1 := by unfold forEach at hr; injection hr with hr; injection hr
    subst this
    exact ⟨rfl, hI⟩
  | cons x xs ih =>
    intro b b1 hI hr
    unfold forEach at hr
    split at hr
    · rename_i b2 h2
      obtain ⟨hg, hI2⟩ := h b x xs b2 hI h2
      have := ih b2 b1 hI2 hr
      refine ⟨?_, this.2⟩
      unfold forEach
      rw [hg]
      exact this.1
    · rename_i hne
      exact absurd hr (hne b1)

theorem forEach_agree {α : Type} (f g : Board → α → Res) (I : Board → Prop) (xs : List α)
    (h : ∀ b x b1, x ∈ xs → I b → f b x = .ok (true, b1) → g b x = .ok (true, b1) ∧ I b1) :
    ∀ b b1, I b → forEach f b xs = .ok (true, b1) → forEach g b xs = .ok (true, b1) ∧ I b1 := by
  intro b b1 hI hr
  have := forEach_agree_suffix f g (fun rest b => (∀ x, x ∈ rest → x ∈ xs) ∧ I b)
    (fun b x rest b1 hI hr =>
      have := h b x b1 (hI.1 x (List.mem_cons_self _ _)) hI.2 hr
      ⟨this.1, fun y hy => hI.1 y (List.mem_cons_of_mem _ hy), this.2⟩)
    xs b b1 ⟨fun x hx => hx, hI⟩ hr
  exact ⟨this.1, this.2.2⟩

theorem assignWith_agree {rm rmC : Board → Nat → Nat → Res} (hs : RemSpec rm) (hc : CountSpec rm)
    (ha : ∀ b c v k b1, b.cells.length = 81 → c < 81 → v < 9 → CountInv k b →
      rm b c v = .ok (true, b1) → rmC b c v = .ok (true, b1))
    {b b1 : Board} {c v : Nat} {k : Nat → Nat → Nat} (hlen : b.cells.length = 81) (hc81 : c < 81)
    (hk : CountInv k b) (hr : assignWith rm b c v = .ok (true, b1)) :
    assignWith rmC b c v = .ok (true, b1) := by
  have hclt : c < b.cells.length := by rw [hlen]; exact hc81
  unfold assignWith at hr ⊢
  rw [getElem?_of_lt hclt] at hr ⊢
  simp only at hr ⊢
  by_cases hset : Cell.isSet (b.cellAt c) v = true
  swap
  · rw [if_neg hset] at hr
    exact Outcome.noConfusion hr
  rw [if_pos hset] at hr ⊢
  refine (forEach_agree _ _ (fun b => b.cells.length = 81 ∧ CountInv k b) _
    (fun b i b1 hi hI hr => ?_) b b1 ⟨hlen, hk⟩ hr).1
  have hi9 : i < 9 := by simpa [Cell.size] using hi
  by_cases hiv : i = v
  · rw [if_pos hiv] at hr ⊢
    have : b = b1 := by injection hr with hr; injection hr
    exact this ▸ ⟨rfl, hI⟩
  · rw [if_neg hiv] at hr ⊢
    exact ⟨ha b c i k b1 hI.1 hc81 hi9 hI.2 hr, post_length (hs b c i hi9).1 hr hI.1,
      hc b c i k b1 hI.1 hc81 hi9 hI.2 hr⟩

theorem cascadeWith_agree {rm rmC : Board → Nat → Nat → Res} (hs : RemSpec rm)
    (hc : CountSpec rm)
    (ha : ∀ b c v k b1, b.cells.length = 81 → c < 81 → v < 9 → CountInv k b →
      rm b c v = .ok (true, b1) → rmC b c v = .ok (true, b1))
    {b b1 : Board} {c i : Nat} {k : Nat → Nat → Nat} (hlen : b.cells.length = 81) (hc81 : c < 81)
    (hi : i < 9) (hk : CountInv k b) (hr : cascadeWith rm b c i = .ok (true, b1)) :
    cascadeWith rmC b c i = .ok (true, b1) := by
  unfold cascadeWith at hr ⊢
  refine (forEach_agree _ _ (fun b => b.cells.length = 81 ∧ CountInv k b) _
    (fun b n b1 hn hI hr => ?_) b b1 ⟨hlen, hk⟩ hr).1
  have hn27 := ((group_of_belong c hc81).2 n hn).1
  refine forEach_agree _ _ (fun b => b.cells.length = 81 ∧ CountInv k b) _
    (fun b x b1 hx hI hr => ?_) b b1 hI hr
  by_cases hxc : x = c
  · rw [if_pos hxc] at hr ⊢
    have : b = b1 := by injection hr with hr; injection hr
    exact this ▸ ⟨rfl, hI⟩
  · rw [if_neg hxc] at hr ⊢
    have hx81 := (groups_shape n hn27).2.2 x hx
    exact ⟨ha b x i k b1 hI.1 hx81 hi hI.2 hr, post_length (hs b x i hi).1 hr hI.1,
      hc b x i k b1 hI.1 hx81 hi hI.2 hr⟩

theorem uniqueWith_agree {rm rmC : Board → Nat → Nat → Res} (hs : RemSpec rm) (hc : CountSpec rm)
    (ha : ∀ b c v k b1, b.cells.length = 81 → c < 81 → v < 9 → CountInv k b →
      rm b c v = .ok (true, b1) → rmC b c v = .ok (true, b1))
    {b b1 : Board} {c v : Nat} {k : Nat → Nat → Nat} (hlen : b.cells.length = 81) (hc81 : c < 81)
    (hv : v < 9)
    (hk : CountInv (fun n v1 => k n v1 + if v1 = v ∧ n ∈ belong_to.getD c [] then 1 else 0) b)
    (hr : uniqueWith rm b c v = .ok (true, b1)) : uniqueChecked rmC b c v = .ok (true, b1) := by
  unfold uniqueWith at hr
  unfold uniqueChecked
  refine (forEach_agree_suffix _ _
    (fun rest b => rest.Nodup ∧ (∀ n, n ∈ rest → n < 27) ∧ b.cells.length = 81 ∧
      CountInv (fun n v1 => k n v1 + if v1 = v ∧ n ∈ rest then 1 else 0) b)
    (fun b n rest b1 hI hr => ?_) (belong_to.getD c []) b b1
    ⟨(group_of_belong c hc81).1, fun n hn => ((group_of_belong c hc81).2 n hn).1, hlen, hk⟩ hr).1
  obtain ⟨hnd, h27, hl, hk⟩ := hI
  obtain ⟨hn_notin, hnd2⟩ := List.nodup_cons.1 hnd
  have hn27 := h27 n (List.mem_cons_self _ _)
  have h27r : ∀ m, m ∈ rest → m < 27 := fun m hm => h27 m (List.mem_cons_of_mem _ hm)
  obtain ⟨hpos, _, hk3⟩ := countInv_dec hn27 hv hn_notin hk
  simp only at hr ⊢
  rw [if_neg (by omega)]
  by_cases hone : getCount (decCount b n v) n v = 1
  · rw [if_pos hone] at hr ⊢
    generalize hx : List.find? (fun x => Cell.isSet ((decCount b n v).cellAt x) v)
      (groups.getD n []) = o at hr ⊢
    cases o with
    | some x =>
      have hx81 := (groups_shape n hn27).2.2 x (List.mem_of_find?_eq_some hx)
      exact ⟨assignWith_agree hs hc ha (b := decCount b n v) hl hx81 hk3 hr, hnd2, h27r,
        post_length (assignWith_spec hs _ _ _).1 hr hl,
        assignWith_count hs hc (b := decCount b n v) hl hx81 hk3 hr⟩
    | none =>
      have : decCount b n v = b1 := by injection hr with hr; injection hr
      exact this ▸ ⟨rfl, hnd2, h27r, hl, hk3⟩
  · rw [if_neg hone] at hr ⊢
    have : decCount b n v = b1 := by injection hr with hr; injection hr
    exact this ▸ ⟨rfl, hnd2, h27r, hl, hk3⟩

theorem removeWith_agree {rm rmC : Board → Nat → Nat → Res} (hs : RemSpec rm) (hc : CountSpec rm)
    (ha : ∀ b c v k b1, b.cells.length = 81 → c < 81 → v < 9 → CountInv k b →
      rm b c v = .ok (true, b1) → rmC b c v = .ok (true, b1))
    (b : Board) (c v : Nat) (k : Nat → Nat → Nat) (b3 : Board) (hlen : b.cells.length = 81)
    (hc81 : c < 81) (hv : v < 9) (hk : CountInv k b)
    (hr : removeWith rm b c v = .ok (true, b3)) : removeCheckedWith rmC b c v = .ok (true, b3) := by
  unfold removeWith at hr
  unfold removeCheckedWith
  have hclt : c < b.cells.length := by rw [hlen]; exact hc81
  rw [getElem?_of_lt hclt] at hr ⊢
  simp only at hr ⊢
  by_cases hset : Cell.isSet (b.cellAt c) v = true
  swap
  · rw [if_neg hset] at hr ⊢
    exact hr
  rw [if_pos hset] at hr ⊢
  by_cases h0 : Cell.count (Cell.remove (b.cellAt c) v) = 0
  · rw [if_pos h0] at hr ⊢
    exact hr
  rw [if_neg h0] at hr ⊢
  have hk1 := countInv_clear hk hclt hc81 hv hset
  generalize hb1 : ({ b with cells := b.cells.set c (Cell.remove (b.cellAt c) v) } : Board) = b1
    at hr hk1 ⊢
  have hlen1 : b1.cells.length = 81 := by rw [← hb1]; simpa using hlen
  by_cases h1 : Cell.count (Cell.remove (b.cellAt c) v) = 1
  · rw [if_pos h1] at hr ⊢
    have hv9 := (Cell.of_count_eq_one h1).1
    generalize hres : cascadeWith rm b1 c (Cell.val (Cell.remove (b.cellAt c) v)) = res at hr
    match res, hr, hres with
    | .fault _, hr, _ => exact Outcome.noConfusion hr
    | .ok (false, b2), hr, _ =>
      exact absurd hr (by intro h; injection h with h; injection h with h; exact Bool.noConfusion h)
    | .ok (true, b2), hr, hres =>
      rw [cascadeWith_agree hs hc ha hlen1 hc81 hv9 hk1 hres]
      have h22 := cascadeWith_count hs hc hlen1 hc81 hv9 hk1 hres
      exact uniqueWith_agree hs hc ha h22.1 hc81 hv h22.2 hr
  · rw [if_neg h1] at hr ⊢
    exact uniqueWith_agree hs hc ha hlen1 hc81 hv hk1 hr

/-- A successful `remove` from a board whose counters are in step is also a successful run of
the checked `remove`, with the same board: no decrement met a counter at 0. -/
theorem remove_agree : ∀ fuel b c v k b1, b.cells.length = 81 → c < 81 → v < 9 → CountInv k b →
    remove fuel b c v = .ok (true, b1) → removeChecked fuel b c v = .ok (true, b1) := by
  intro fuel
  induction fuel with
  | zero => intro b c v k b1 _ _ _ _ hr; exact Outcome.noConfusion hr
  | succ n ih => exact removeWith_agree (remove_spec n) (remove_count n) ih

theorem assign_agree {fuel : Nat} {b b1 : Board} {c v : Nat} {k : Nat → Nat → Nat}
    (hlen : b.cells.length = 81) (hc81 : c < 81) (hk : CountInv k b)
    (hr : assign fuel b c v = .ok (true, b1)) : assignChecked fuel b c v = .ok (true, b1) :=
  assignWith_agree (remove_spec fuel) (remove_count fuel) (remove_agree fuel) hlen hc81 hk hr

/-! ## Exact counters -/

theorem actual_le (b : Board) {n : Nat} (hn : n < 27) (v : Nat) : actual b n v ≤ 9 := by
  unfold actual
  have := (groups_shape n hn).1
  exact (List.countP_le_length _).trans (by rw [this])

theorem countInv_of_exact {b : Board} (h : CountsExact b) : CountInv (fun _ _ => 0) b :=
  ⟨h.1, fun n v hn hv => ⟨by rw [h.2 n v hn hv]; rfl, by
    rw [h.2 n v hn hv]; exact lt_of_le_of_lt (actual_le b hn v) (by norm_num)⟩⟩

theorem exact_of_countInv {b : Board} (h : CountInv (fun _ _ => 0) b) : CountsExact b :=
  ⟨h.1, fun n v hn hv => (h.2 n v hn hv).1⟩

/-- The holders of a digit in a group before a run are the holders after it and the cells
that lost the digit. -/
theorem actual_add_lost {b b1 : Board} (m : Mono b b1) (n v : Nat) :
    actual b1 n v + lost b b1 n v = actual b n v := by
  unfold actual lost
  generalize groups.getD n [] = l
  induction l with
  | nil => rfl
  | cons x l ih =>
    simp only [List.countP_cons]
    have hm := m.2 x v
    cases h1 : Cell.isSet (b1.cellAt x) v
    · cases h : Cell.isSet (b.cellAt x) v
      · simp; omega
      · simp; omega
    · rw [hm h1]
      simp; omega

/-! ## Counters brought to 1 by a successful run -/

theorem actual_mono {b b1 : Board} (m : Mono b b1) (n v : Nat) : actual b1 n v ≤ actual b n v := by
  have := actual_add_lost m n v
  omega

theorem val_of_fixed {c v : Nat} (hv : v < 9) (h1 : Cell.count c = 1)
    (hs : Cell.isSet c v = true) : Cell.val c = v :=
  (((Cell.of_count_eq_one h1).2 v hv).1 hs).symm

theorem isSet_of_fixed {c v : Nat} (hv : v < 9) (h1 : Cell.count c = 1) (hval : Cell.val c = v) :
    Cell.isSet c v = true :=
  ((Cell.of_count_eq_one h1).2 v hv).2 hval.symm

theorem closes_trans {a b c : Board} (h1 : Closes a b) (m : Mono b c)
    (ne : ∀ x, Cell.count (b.cellAt x) ≠ 0 → Cell.count (c.cellAt x) ≠ 0) (h2 : Closes b c) :
    Closes a c := by
  intro n v hn hv ha hc
  by_cases hb : getCount b n v = 1
  · rcases h1 n v hn hv ha hb with h0 | ⟨x, hx, hxs, hx1⟩
    · left
      have := actual_mono m n v
      omega
    · right
      have hc0 := ne x (by omega)
      obtain ⟨hc1, hval⟩ := mono_fixed m hx1 hc0
      exact ⟨x, hx, isSet_of_fixed hv hc1 (hval.trans (val_of_fixed hv hx1 hxs)), hc1⟩
  · exact h2 n v hn hv hb hc

theorem step_refl (b : Board) : Step b b :=
  ⟨mono_refl b, fun _ h => h, fun _ _ _ _ h1 h2 => absurd h2 h1⟩

theorem step_trans {a b c : Board} (h1 : Step a b) (h2 : Step b c) : Step a c :=
  ⟨mono_trans h1.1 h2.1, fun x h => h2.2.1 x (h1.2.1 x h), closes_trans h1.2.2 h2.1 h2.2.1 h2.2.2⟩

theorem forEach_step {α : Type} (f : Board → α → Res) (I : Board → Prop) (xs : List α)
    (h : ∀ b x b1, x ∈ xs → I b → f b x = .ok (true, b1) → I b1 ∧ Step b b1) :
    ∀ b b1, I b → forEach f b xs = .ok (true, b1) → I b1 ∧ Step b b1 := by
  intro b b1 hI hr
  exact forEach_inv f (fun b2 => I b2 ∧ Step b b2) xs
    (fun b2 x b3 hx hI2 hr2 =>
      have := h b2 x b3 hx hI2.1 hr2
      ⟨this.1, step_trans hI2.2 this.2⟩)
    b b1 ⟨hI, step_refl b⟩ hr

theorem assignWith_step {rm : Board → Nat → Nat → Res} (hs : RemSpec rm) (hc : CountSpec rm)
    (ht : StepSpec rm) {b b1 : Board} {c v : Nat} {k : Nat → Nat → Nat}
    (hlen : b.cells.length = 81) (hc81 : c < 81) (hk : CountInv k b)
    (hr : assignWith rm b c v = .ok (true, b1)) : Step b b1 := by
  unfold assignWith at hr
  split at hr
  · exact Outcome.noConfusion hr
  split at hr
  swap
  · exact Outcome.noConfusion hr
  refine (forEach_step _ (fun b => b.cells.length = 81 ∧ CountInv k b) _
    (fun b i b1 hi hI hr => ?_) b b1 ⟨hlen, hk⟩ hr).2
  have hi9 : i < 9 := by simpa [Cell.size] using hi
  split at hr
  · have : b = b1 := by injection hr with hr; injection hr
    exact this ▸ ⟨hI, step_refl b⟩
  · exact ⟨⟨post_length (hs b c i hi9).1 hr hI.1, hc b c i k b1 hI.1 hc81 hi9 hI.2 hr⟩,
      ht b c i k b1 hI.1 hc81 hi9 hI.2 hr⟩

theorem cascadeWith_step {rm : Board → Nat → Nat → Res} (hs : RemSpec rm) (hc : CountSpec rm)
    (ht : StepSpec rm) {b b1 : Board} {c i : Nat} {k : Nat → Nat → Nat}
    (hlen : b.cells.length = 81) (hc81 : c < 81) (hi : i < 9) (hk : CountInv k b)
    (hr : cascadeWith rm b c i = .ok (true, b1)) : Step b b1 := by
  unfold cascadeWith at hr
  refine (forEach_step _ (fun b => b.cells.length = 81 ∧ CountInv k b) _
    (fun b n b1 hn hI hr => ?_) b b1 ⟨hlen, hk⟩ hr).2
  have hn27 := ((group_of_belong c hc81).2 n hn).1
  refine forEach_step _ (fun b => b.cells.length = 81 ∧ CountInv k b) _
    (fun b x b1 hx hI hr => ?_) b b1 hI hr
  split at hr
  · have : b = b1 := by injection hr with hr; injection hr
    exact this ▸ ⟨hI, step_refl b⟩
  · have hx81 := (groups_shape n hn27).2.2 x hx
    exact ⟨⟨post_length (hs b x i hi).1 hr hI.1, hc b x i k b1 hI.1 hx81 hi hI.2 hr⟩,
      ht b x i k b1 hI.1 hx81 hi hI.2 hr⟩

/-- A decrement that is followed by no assignment is a step unless it brought the counter to 1
with a holder left. -/
theorem step_decCount {b : Board} (hs : CountShape b) {n v : Nat} (hn : n < 27) (hv : v < 9)
    (h : getCount (decCount b n v) n v = 1 → actual b n v = 0) : Step b (decCount b n v) := by
  refine ⟨mono_of_cells (cells_decCount b n v), fun _ h => h, fun n1 v1 _ _ hne h1 => ?_⟩
  rw [getCount_decCount b hs hn hv] at h1
  by_cases hnv : n1 = n ∧ v1 = v
  · obtain ⟨rfl, rfl⟩ := hnv
    left
    apply h
    rw [getCount_decCount b hs hn hv, if_pos ⟨rfl, rfl⟩]
    rwa [if_pos ⟨rfl, rfl⟩] at h1
  · rw [if_neg hnv] at h1
    exact absurd h1 hne

theorem uniqueWith_step {rm : Board → Nat → Nat → Res} (hs : RemSpec rm) (hc : CountSpec rm)
    (ht : StepSpec rm)
    (hfix : ∀ b x v b1, v < 9 → assignWith rm b x v = .ok (true, b1) →
      Cell.count (b1.cellAt x) = 1 ∧ Cell.val (b1.cellAt x) = v)
    {b b1 : Board} {c v : Nat} {k : Nat → Nat → Nat} (hlen : b.cells.length = 81) (hc81 : c < 81)
    (hv : v < 9)
    (hk : CountInv (fun n v1 => k n v1 + if v1 = v ∧ n ∈ belong_to.getD c [] then 1 else 0) b)
    (hr : uniqueWith rm b c v = .ok (true, b1)) : Step b b1 := by
  unfold uniqueWith at hr
  refine (forEach_suffix _
    (fun rest b2 => (rest.Nodup ∧ (∀ n, n ∈ rest → n < 27) ∧ b2.cells.length = 81 ∧
      CountInv (fun n v1 => k n v1 + if v1 = v ∧ n ∈ rest then 1 else 0) b2) ∧ Step b b2)
    (fun b2 n rest b3 hI hr => ?_) (belong_to.getD c []) b b1
    ⟨⟨(group_of_belong c hc81).1, fun n hn => ((group_of_belong c hc81).2 n hn).1, hlen, hk⟩,
      step_refl b⟩ hr).2
  obtain ⟨⟨hnd, h27, hl, hk⟩, hst⟩ := hI
  obtain ⟨hn_notin, hnd2⟩ := List.nodup_cons.1 hnd
  have hn27 := h27 n (List.mem_cons_self _ _)
  have h27r : ∀ m, m ∈ rest → m < 27 := fun m hm => h27 m (List.mem_cons_of_mem _ hm)
  obtain ⟨_, _, hk3⟩ := countInv_dec hn27 hv hn_notin hk
  simp only at hr
  split at hr
  · rename_i hone
    split at hr
    · rename_i x hx
      have hxm := List.mem_of_find?_eq_some hx
      have hx81 := (groups_shape n hn27).2.2 x hxm
      have h34 := assignWith_step hs hc ht (b := decCount b2 n v) hl hx81 hk3 hr
      obtain ⟨hx1, hxv⟩ := hfix _ _ _ _ hv hr
      refine ⟨⟨hnd2, h27r, post_length (assignWith_spec hs _ _ _).1 hr hl,
        assignWith_count hs hc (b := decCount b2 n v) hl hx81 hk3 hr⟩, step_trans hst ?_⟩
      refine ⟨mono_trans (mono_of_cells (cells_decCount b2 n v)) h34.1, fun y h => h34.2.1 y h,
        fun n1 v1 hn1 hv1 hne h1 => ?_⟩
      by_cases hnv : n1 = n ∧ v1 = v
      · obtain ⟨rfl, rfl⟩ := hnv
        exact Or.inr ⟨x, hxm, isSet_of_fixed hv hx1 hxv, hx1⟩
      · refine h34.2.2 n1 v1 hn1 hv1 ?_ h1
        rw [getCount_decCount b2 hk.1 hn27 hv, if_neg hnv]
        exact hne
    · rename_i hx
      have : decCount b2 n v = b3 := by injection hr with hr; injection hr
      subst this
      refine ⟨⟨hnd2, h27r, hl, hk3⟩, step_trans hst (step_decCount hk.1 hn27 hv (fun _ => ?_))⟩
      unfold actual
      rw [List.countP_eq_zero]
      exact List.find?_eq_none.1 hx
  · rename_i hone
    have : decCount b2 n v = b3 := by injection hr with hr; injection hr
    subst this
    exact ⟨⟨hnd2, h27r, hl, hk3⟩,
      step_trans hst (step_decCount hk.1 hn27 hv (fun h => absurd h hone))⟩

theorem removeWith_step {rm : Board → Nat → Nat → Res} (hs : RemSpec rm) (hc : CountSpec rm)
    (ht : StepSpec rm)
    (hfix : ∀ b x v b1, v < 9 → assignWith rm b x v = .ok (true, b1) →
      Cell.count (b1.cellAt x) = 1 ∧ Cell.val (b1.cellAt x) = v) :
    StepSpec (removeWith rm) := by
  intro b c v k b3 hlen hc81 hv hk hr
  have hpost := (removeWith_spec hs b c v hv).1
  rw [hr] at hpost
  refine ⟨hpost.1, hpost.2.1, ?_⟩
  unfold removeWith at hr
  have hclt : c < b.cells.length := by rw [hlen]; exact hc81
  rw [getElem?_of_lt hclt] at hr
  simp only at hr
  split at hr
  swap
  · have : b = b3 := by injection hr with hr; injection hr
    subst this
    exact (step_refl b).2.2
  rename_i hset
  split at hr
  · exact absurd hr (by intro h; injection h with h; injection h with h; exact Bool.noConfusion h)
  have hk1 := countInv_clear hk hclt hc81 hv hset
  generalize hb1 : ({ b with cells := b.cells.set c (Cell.remove (b.cellAt c) v) } : Board) = b1
    at hr hk1
  have hlen1 : b1.cells.length = 81 := by rw [← hb1]; simpa using hlen
  have hcnt : ∀ n v1, getCount b1 n v1 = getCount b n v1 := by
    intro n v1; rw [← hb1]; rfl
  split at hr
  · rename_i b2 h2
    have h22 : (b2.cells.length = 81 ∧
        CountInv (fun n v1 => k n v1 + if v1 = v ∧ n ∈ belong_to.getD c [] then 1 else 0) b2) ∧
        Step b1 b2 := by
      split at h2
      · rename_i h1
        exact ⟨cascadeWith_count hs hc hlen1 hc81 (Cell.of_count_eq_one h1).1 hk1 h2,
          cascadeWith_step hs hc ht hlen1 hc81 (Cell.of_count_eq_one h1).1 hk1 h2⟩
      · have : b1 = b2 := by injection h2 with h2; injection h2
        exact this ▸ ⟨⟨hlen1, hk1⟩, step_refl b1⟩
    have h23 := uniqueWith_step hs hc ht hfix h22.1.1 hc81 hv h22.1.2 hr
    have h13 := step_trans h22.2 h23
    intro n v1 hn hv1 hne h1
    exact h13.2.2 n v1 hn hv1 (by rw [hcnt]; exact hne) h1
  · rename_i hne
    exact absurd hr (hne b3)

theorem remove_step : ∀ fuel, StepSpec (remove fuel) := by
  intro fuel
  induction fuel with
  | zero => intro b c v k b1 _ _ _ _ hr; exact Outcome.noConfusion hr
  | succ n ih =>
    exact removeWith_step (remove_spec n) (remove_count n) ih
      (fun b x v b1 hv h => @assign_fixes n b b1 x v hv h)

theorem assign_step {fuel : Nat} {b b1 : Board} {c v : Nat} {k : Nat → Nat → Nat}
    (hlen : b.cells.length = 81) (hc81 : c < 81) (hk : CountInv k b)
    (hr : assign fuel b c v = .ok (true, b1)) : Step b b1 :=
  assignWith_step (remove_spec fuel) (remove_count fuel) (remove_step fuel) hlen hc81 hk hr

/-! ## What holds of every board reached by successful assignments -/

theorem assign_ok_lt {fuel : Nat} {b b1 : Board} {c v : Nat} {t : Bool}
    (h : assign fuel b c v = .ok (t, b1)) :
    c < b.cells.length ∧ Cell.isSet (b.cellAt c) v = true := by
  unfold assign assignWith at h
  split at h
  · exact Outcome.noConfusion h
  · rename_i c0 hc0
    obtain ⟨hlt, he⟩ := cellAt_of_getElem? hc0
    split at h
    · rename_i hset
      exact ⟨hlt, by rw [he]; exact hset⟩
    · exact Outcome.noConfusion h

theorem lt_512_of_mono {b b1 : Board} (m : Mono b b1) {x : Nat} (h : b.cellAt x < 512) :
    b1.cellAt x < 512 := by
  apply Nat.lt_pow_two_of_testBit (n := 9)
  intro i hi
  by_contra hc
  have hc1 : Cell.isSet (b1.cellAt x) i = true := by simpa [Cell.isSet] using hc
  have h2 := m.2 x i hc1
  have h3 : (b.cellAt x).testBit i = false :=
    Nat.testBit_lt_two_pow (lt_of_lt_of_le h
      (Nat.pow_le_pow_right (show 0 < 2 by norm_num) hi))
  rw [Cell.isSet, h3] at h2
  exact Bool.noConfusion h2

theorem hiddenSingles_step {b b1 : Board} (hk : CountInv (fun _ _ => 0) b)
    (hk1 : CountInv (fun _ _ => 0) b1) (hst : Step b b1) (hs : HiddenSingles b) :
    HiddenSingles b1 := by
  intro n v hn hv hact x hx hxs
  have hc1 : getCount b1 n v = 1 := by
    have := (hk1.2 n v hn hv).1
    beta_reduce at this
    omega
  have hx0 : Cell.count (b1.cellAt x) ≠ 0 := by
    intro h0
    rw [Cell.count_eq_zero_iff] at h0
    rw [h0 v hv] at hxs
    exact Bool.noConfusion hxs
  by_cases hc : getCount b n v = 1
  · have hact0 : actual b n v = 1 := by
      have := (hk.2 n v hn hv).1
      beta_reduce at this
      omega
    exact (mono_fixed hst.1 (hs n v hn hv hact0 x hx (hst.1.2 x v hxs)) hx0).1
  · rcases hst.2.2 n v hn hv hc hc1 with h0 | ⟨y, hy, hys, hy1⟩
    · omega
    · have : x = y := countP_one_unique _ _ hact hx hxs hy hys
      rw [this]
      exact hy1

theorem sound_fresh : Sound fresh := by
  refine ⟨length_fresh, fun x => ?_, CountInv_fresh, fun x hx => ?_, Inv_fresh, ?_⟩
  · rw [cellAt_fresh]
    split
    · decide
    · decide
  · rw [cellAt_fresh, if_pos hx, count_full]
    decide
  · intro n v hn hv hact
    have := (CountInv_fresh.2 n v hn hv).1
    have h9 := (fresh_counts.2.2 n hn v hv).1
    have h99 : getCount fresh n v = 9 := by
      have : ∀ n, n < 27 → ∀ v, v < 9 → getCount fresh n v = 9 := by decide!
      exact this n hn v hv
    omega

theorem sound_assign {fuel : Nat} {b b1 : Board} {c v : Nat} (h : Sound b)
    (hr : assign fuel b c v = .ok (true, b1)) : Sound b1 := by
  obtain ⟨hlen, h512, hk, hne, hinv, hhs⟩ := h
  have hc81 : c < 81 := by rw [← hlen]; exact (assign_ok_lt hr).1
  have hp := (assign_spec fuel b c v).1
  rw [hr] at hp
  have hk1 := assign_count hlen hc81 hk hr
  exact ⟨hp.1.1.trans hlen, fun x => lt_512_of_mono hp.1 (h512 x), hk1,
    fun x hx => hp.2.1 x (hne x hx), inv_step hp.1 hp.2 hinv,
    hiddenSingles_step hk hk1 (assign_step hlen hc81 hk hr) hhs⟩

theorem assignSeq_sound (pf : Nat) : ∀ (seq : List (Nat × Nat)) (b b1 : Board), Sound b →
    assignSeq pf seq b = some b1 → Sound b1 := by
  intro seq
  induction seq with
  | nil =>
    intro b b1 hs h
    have : b = b1 := by unfold assignSeq at h; injection h
    exact this ▸ hs
  | cons p rest ih =>
    intro b b1 hs h
    obtain ⟨c, d⟩ := p
    unfold assignSeq at h
    split at h
    · split at h
      · rename_i b2 h2
        exact ih b2 b1 (sound_assign hs h2) h
      · exact Option.noConfusion h
    · exact Option.noConfusion h

theorem reach_sound {pf : Nat} {b : Board} (h : Reach pf b) : Sound b := by
  obtain ⟨seq, hseq⟩ := h
  exact assignSeq_sound pf seq fresh b sound_fresh hseq

/-- An assignment on a board without an empty cell returns false exactly when it leaves a cell
empty. -/
theorem assign_false_iff {fuel : Nat} {b b1 : Board} {c v : Nat} {t : Bool}
    (hlen : b.cells.length = 81) (hne : NoEmpty b) (hr : assign fuel b c v = .ok (t, b1)) :
    t = false ↔ HasEmpty b1 := by
  have hp := (assign_spec fuel b c v).1
  rw [hr] at hp
  cases t with
  | false => exact ⟨fun _ => hp.2, fun _ => rfl⟩
  | true =>
    refine ⟨fun h => Bool.noConfusion h, fun h => ?_⟩
    obtain ⟨x, hx, h0⟩ := h
    rw [hp.1.1, hlen] at hx
    exact absurd h0 (hp.2.1 x (hne x hx))

theorem assignSeq_fuel {pf pf1 : Nat} (hle : pf ≤ pf1) : ∀ (seq : List (Nat × Nat)) (b b1 : Board),
    assignSeq pf seq b = some b1 → assignSeq pf1 seq b = some b1 := by
  intro seq
  induction seq with
  | nil => intro b b1 h; exact h
  | cons p rest ih =>
    intro b b1 h
    obtain ⟨c, d⟩ := p
    unfold assignSeq at h ⊢
    split at h
    · rename_i hset
      rw [if_pos hset]
      split at h
      · rename_i b2 h2
        have := assign_fuel hle b c d
        rw [h2] at this
        rcases this with e | e
        · exact Outcome.noConfusion e
        · rw [e]
          exact ih b2 b1 h
      · exact Option.noConfusion h
    · exact Option.noConfusion h

/-! ## Propagation towards a closed board removes none of its candidates -/

theorem exists_isSet_of_count_ne_zero {c : Nat} (h : Cell.count c ≠ 0) :
    ∃ i, i < 9 ∧ Cell.isSet c i = true := by
  by_contra hcon
  apply h
  rw [Cell.count_eq_zero_iff]
  intro i hi
  by_contra hne
  exact hcon ⟨i, hi, by simpa using hne⟩

theorem fixed_of_sub_fixed {c d : Nat} (h0 : Cell.count c ≠ 0) (h1 : Cell.count d = 1)
    (hsub : ∀ i, i < 9 → Cell.isSet c i = true → Cell.isSet d i = true) :
    Cell.count c = 1 ∧ Cell.val c = Cell.val d := by
  obtain ⟨hv, hs⟩ := Cell.of_count_eq_one h1
  apply Cell.count_eq_one_of hv
  intro i hi
  constructor
  · intro h
    exact (hs i hi).1 (hsub i hi h)
  · intro hiv
    obtain ⟨j, hj, hjs⟩ := exists_isSet_of_count_ne_zero h0
    have := (hs j hj).1 (hsub j hj hjs)
    rw [hiv, ← this]
    exact hjs

theorem others_of_fixed {c v : Nat} (h1 : Cell.count c = 1) (hval : Cell.val c = v) :
    ∀ i, i < 9 → i ≠ v → Cell.isSet c i = false := by
  intro i hi hne
  by_contra hcon
  have hs : Cell.isSet c i = true := by simpa using hcon
  exact hne ((((Cell.of_count_eq_one h1).2 i hi).1 hs).trans hval)

theorem assignWith_keep {t : Board} {rm : Board → Nat → Nat → Res} (hs : RemSpec rm)
    (hc : CountSpec rm) (hK : KeepSpec t rm) {b b1 : Board} {c v : Nat} {r : Bool}
    {k : Nat → Nat → Nat} (hlen : b.cells.length = 81) (hc81 : c < 81) (hk : CountInv k b)
    (hsub : Sub t b) (hfix : ∀ i, i < 9 → i ≠ v → Cell.isSet (t.cellAt c) i = false)
    (hr : assignWith rm b c v = .ok (r, b1)) : r = true ∧ Sub t b1 := by
  unfold assignWith at hr
  split at hr
  · exact Outcome.noConfusion hr
  split at hr
  swap
  · exact Outcome.noConfusion hr
  have := forEach_true _ (fun b => b.cells.length = 81 ∧ CountInv k b ∧ Sub t b) _
    (fun b i r b1 hi hI hr => by
      have hi9 : i < 9 := by simpa [Cell.size] using hi
      split at hr
      · injection hr with hr
        injection hr with h1 h2
        exact ⟨h1.symm, h2 ▸ hI⟩
      · rename_i hne
        obtain ⟨ht, hc1⟩ := hK b c i k r b1 hI.1 hc81 hi9 hI.2.1 hI.2.2 (hfix i hi9 hne) hr
        subst ht
        exact ⟨rfl, post_length (hs b c i hi9).1 hr hI.1, hc b c i k b1 hI.1 hc81 hi9 hI.2.1 hr,
          hc1⟩)
    b r b1 ⟨hlen, hk, hsub⟩ hr
  exact ⟨this.1, this.2.2.2⟩

theorem cascadeWith_keep {t : Board} (hT : Closed t) {rm : Board → Nat → Nat → Res}
    (hs : RemSpec rm) (hc : CountSpec rm) (hK : KeepSpec t rm) {b b1 : Board} {c : Nat} {r : Bool}
    {k : Nat → Nat → Nat} (hlen : b.cells.length = 81) (hc81 : c < 81) (hk : CountInv k b)
    (hsub : Sub t b) {i : Nat} (hi9 : i < 9)
    (hci : Cell.count (t.cellAt c) = 1 ∧ Cell.val (t.cellAt c) = i)
    (hr : cascadeWith rm b c i = .ok (r, b1)) : r = true ∧ Sub t b1 := by
  unfold cascadeWith at hr
  have := forEach_true _ (fun b => b.cells.length = 81 ∧ CountInv k b ∧ Sub t b) _
    (fun b n r b1 hn hI hr => by
      obtain ⟨hn27, hcn⟩ := (group_of_belong c hc81).2 n hn
      exact forEach_true _ (fun b => b.cells.length = 81 ∧ CountInv k b ∧ Sub t b) _
        (fun b x r b1 hx hI hr => by
          split at hr
          · injection hr with hr
            injection hr with h1 h2
            exact ⟨h1.symm, h2 ▸ hI⟩
          · rename_i hne
            have hx81 := (groups_shape n hn27).2.2 x hx
            have hti : Cell.isSet (t.cellAt x) i = false := by
              have := hT.2.1 c hci.1 x ⟨hne, n, hn, hx⟩
              rwa [hci.2] at this
            obtain ⟨ht, hc1⟩ := hK b x i k r b1 hI.1 hx81 hi9 hI.2.1 hI.2.2 hti hr
            subst ht
            exact ⟨rfl, post_length (hs b x _ hi9).1 hr hI.1,
              hc b x _ k b1 hI.1 hx81 hi9 hI.2.1 hr, hc1⟩)
        b r b1 hI hr)
    b r b1 ⟨hlen, hk, hsub⟩ hr
  exact ⟨this.1, this.2.2.2⟩

/-- On a board above a closed board, a digit with one holder left in a group is the only
candidate of that holder on the closed board. -/
theorem closed_holder {t b : Board} (hT : Closed t) (hsub : Sub t b) {n v x : Nat} (hn : n < 27)
    (hv : v < 9) (hact : actual b n v = 1) (hx : x ∈ groups.getD n [])
    (hxs : Cell.isSet (b.cellAt x) v = true) :
    Cell.count (t.cellAt x) = 1 ∧ Cell.val (t.cellAt x) = v := by
  obtain ⟨_, _, hhs, hgl⟩ := hT
  have hex : ∃ y, y ∈ groups.getD n [] ∧ Cell.isSet (t.cellAt y) v = true := by
    by_contra hcon
    apply hgl
    refine ⟨n, v, hn, hv, fun y hy => ?_⟩
    by_contra hne
    exact hcon ⟨y, hy, by simpa using hne⟩
  obtain ⟨y, hy, hys⟩ := hex
  have hy81 := (groups_shape n hn).2.2 y hy
  have hyb := hsub y hy81 v hv hys
  have hxy : x = y := countP_one_unique _ _ hact hx hxs hy hyb
  subst hxy
  have hle : actual t n v ≤ actual b n v := by
    unfold actual
    apply List.countP_mono_left
    intro z hz hzs
    exact hsub z ((groups_shape n hn).2.2 z hz) v hv hzs
  have hpos : 0 < actual t n v := List.countP_pos_iff.2 ⟨x, hx, hys⟩
  have h1 := hhs n v hn hv (by omega) x hx hys
  exact ⟨h1, val_of_fixed hv h1 hys⟩

theorem uniqueWith_keep {t : Board} (hT : Closed t) {rm : Board → Nat → Nat → Res}
    (hs : RemSpec rm) (hc : CountSpec rm) (hK : KeepSpec t rm) {b b1 : Board} {c v : Nat}
    {r : Bool} {k : Nat → Nat → Nat} (hlen : b.cells.length = 81) (hc81 : c < 81) (hv : v < 9)
    (hk : CountInv (fun n v1 => k n v1 + if v1 = v ∧ n ∈ belong_to.getD c [] then 1 else 0) b)
    (hsub : Sub t b) (hr : uniqueWith rm b c v = .ok (r, b1)) : r = true ∧ Sub t b1 := by
  unfold uniqueWith at hr
  have := forEach_true_suffix _
    (fun rest b => (rest.Nodup ∧ (∀ n, n ∈ rest → n < 27) ∧ b.cells.length = 81 ∧
      CountInv (fun n v1 => k n v1 + if v1 = v ∧ n ∈ rest then 1 else 0) b) ∧ Sub t b)
    (fun b n rest r b1 hI hr => by
      obtain ⟨⟨hnd, h27, hl, hk⟩, hsub⟩ := hI
      obtain ⟨hn_notin, hnd2⟩ := List.nodup_cons.1 hnd
      have hn27 := h27 n (List.mem_cons_self _ _)
      have h27r : ∀ m, m ∈ rest → m < 27 := fun m hm => h27 m (List.mem_cons_of_mem _ hm)
      obtain ⟨_, hdec, hk3⟩ := countInv_dec hn27 hv hn_notin hk
      have hsub3 : Sub t (decCount b n v) := hsub
      simp only at hr
      split at hr
      · rename_i hone
        split at hr
        · rename_i x hx
          have hxm := List.mem_of_find?_eq_some hx
          have hxs : Cell.isSet (b.cellAt x) v = true :=
            List.find?_some (p := fun x => Cell.isSet ((decCount b n v).cellAt x) v) hx
          have hx81 := (groups_shape n hn27).2.2 x hxm
          have hpos : 0 < actual b n v := List.countP_pos_iff.2 ⟨x, hxm, hxs⟩
          have hact : actual b n v = 1 := by omega
          obtain ⟨ht1, htv⟩ := closed_holder hT hsub hn27 hv hact hxm hxs
          obtain ⟨ht, hc1⟩ := assignWith_keep hs hc hK (b := decCount b n v) hl hx81 hk3 hsub3
            (others_of_fixed ht1 htv) hr
          subst ht
          exact ⟨rfl, ⟨hnd2, h27r, post_length (assignWith_spec hs _ _ _).1 hr hl,
            assignWith_count hs hc (b := decCount b n v) hl hx81 hk3 hr⟩, hc1⟩
        · injection hr with hr
          injection hr with h1 h2
          exact ⟨h1.symm, h2 ▸ ⟨⟨hnd2, h27r, hl, hk3⟩, hsub3⟩⟩
      · injection hr with hr
        injection hr with h1 h2
        exact ⟨h1.symm, h2 ▸ ⟨⟨hnd2, h27r, hl, hk3⟩, hsub3⟩⟩)
    (belong_to.getD c []) b r b1
    ⟨⟨(group_of_belong c hc81).1, fun n hn => ((group_of_belong c hc81).2 n hn).1, hlen, hk⟩,
      hsub⟩ hr
  exact ⟨this.1, this.2.2⟩

theorem removeWith_keep {t : Board} (hT : Closed t) {rm : Board → Nat → Nat → Res}
    (hs : RemSpec rm) (hc : CountSpec rm) (hK : KeepSpec t rm) : KeepSpec t (removeWith rm) := by
  intro b c v k r b3 hlen hc81 hv hk hsub htv hr
  unfold removeWith at hr
  have hclt : c < b.cells.length := by rw [hlen]; exact hc81
  rw [getElem?_of_lt hclt] at hr
  simp only at hr
  split at hr
  swap
  · injection hr with hr
    injection hr with h1 h2
    exact ⟨h1.symm, h2 ▸ hsub⟩
  rename_i hset
  have hk1 := countInv_clear hk hclt hc81 hv hset
  -- the candidates of the closed board stay in the cell
  have hkeep : ∀ i, i < 9 → Cell.isSet (t.cellAt c) i = true →
      Cell.isSet (Cell.remove (b.cellAt c) v) i = true := by
    intro i hi his
    rw [Cell.isSet_remove _ hv, hsub c hc81 i hi his]
    have : i ≠ v := fun e => by rw [e, htv] at his; exact Bool.noConfusion his
    simp [this, hi]
  have hsub1 : Sub t { b with cells := b.cells.set c (Cell.remove (b.cellAt c) v) } := by
    intro x hx i hi his
    rw [cellAt_set b hclt]
    split
    · rename_i hxc; subst hxc; exact hkeep i hi his
    · exact hsub x hx i hi his
  have h0 : Cell.count (Cell.remove (b.cellAt c) v) ≠ 0 := by
    intro h0
    rw [Cell.count_eq_zero_iff] at h0
    obtain ⟨i, hi, his⟩ := exists_isSet_of_count_ne_zero (hT.1 c hc81)
    have := hkeep i hi his
    rw [h0 i hi] at this
    exact Bool.noConfusion this
  rw [if_neg h0] at hr
  generalize hb1 : ({ b with cells := b.cells.set c (Cell.remove (b.cellAt c) v) } : Board) = b1
    at hr hk1 hsub1
  have hlen1 : b1.cells.length = 81 := by rw [← hb1]; simpa using hlen
  -- the cascade, when it runs, succeeds
  have hcas : ∀ r2 b2, (if Cell.count (Cell.remove (b.cellAt c) v) = 1 then
        cascadeWith rm b1 c (Cell.val (Cell.remove (b.cellAt c) v)) else Outcome.ok (true, b1))
        = .ok (r2, b2) → r2 = true ∧ b2.cells.length = 81 ∧
          CountInv (fun n v1 => k n v1 + if v1 = v ∧ n ∈ belong_to.getD c [] then 1 else 0) b2 ∧
          Sub t b2 := by
    intro r2 b2 h2
    split at h2
    · rename_i h1
      have hv9 := (Cell.of_count_eq_one h1).1
      have hfix := fixed_of_sub_fixed (hT.1 c hc81) h1 hkeep
      obtain ⟨ht, hc2⟩ := cascadeWith_keep hT hs hc hK hlen1 hc81 hk1 hsub1 hv9 hfix h2
      subst ht
      have := cascadeWith_count hs hc hlen1 hc81 hv9 hk1 h2
      exact ⟨rfl, this.1, this.2, hc2⟩
    · injection h2 with h2
      injection h2 with h21 h22
      exact ⟨h21.symm, h22 ▸ ⟨hlen1, hk1, hsub1⟩⟩
  generalize hres : (if Cell.count (Cell.remove (b.cellAt c) v) = 1 then
        cascadeWith rm b1 c (Cell.val (Cell.remove (b.cellAt c) v)) else Outcome.ok (true, b1))
      = res at hr hcas
  match res, hr, hcas with
  | .fault _, hr, _ => exact Outcome.noConfusion hr
  | .ok (false, b2), _, hcas => exact absurd (hcas false b2 rfl).1 (by decide)
  | .ok (true, b2), hr, hcas =>
    obtain ⟨_, hl2, hk2, hc2⟩ := hcas true b2 rfl
    exact uniqueWith_keep hT hs hc hK hl2 hc81 hv hk2 hc2 hr

theorem remove_keep {t : Board} (hT : Closed t) : ∀ fuel, KeepSpec t (remove fuel) := by
  intro fuel
  induction fuel with
  | zero => intro b c v k r b1 _ _ _ _ _ _ hr; exact Outcome.noConfusion hr
  | succ n ih => exact removeWith_keep hT (remove_spec n) (remove_count n) ih

/-- Assigning a cell the digit a closed board below fixes it to removes no candidate of the
closed board, and returns true when it returns. -/
theorem assign_keep {t : Board} (hT : Closed t) {fuel : Nat} {b b1 : Board} {c v : Nat} {r : Bool}
    {k : Nat → Nat → Nat} (hlen : b.cells.length = 81) (hc81 : c < 81) (hk : CountInv k b)
    (hsub : Sub t b) (hfix : Cell.count (t.cellAt c) = 1 ∧ Cell.val (t.cellAt c) = v)
    (hr : assign fuel b c v = .ok (r, b1)) : r = true ∧ Sub t b1 :=
  assignWith_keep (remove_spec fuel) (remove_count fuel) (remove_keep hT fuel) hlen hc81 hk hsub
    (others_of_fixed hfix.1 hfix.2) hr

/-! ## Two orders of two assignments -/

theorem lt_9_of_isSet {c i : Nat} (hc : c < 512) (h : Cell.isSet c i = true) : i < 9 := by
  by_contra hi
  have : c.testBit i = false :=
    Nat.testBit_lt_two_pow (lt_of_lt_of_le hc
      (Nat.pow_le_pow_right (show 0 < 2 by norm_num) (by omega : 9 ≤ i)))
  rw [Cell.isSet, this] at h
  exact Bool.noConfusion h

theorem sub_of_mono {b t : Board} (m : Mono b t) : Sub t b := fun x _ i _ h => m.2 x i h

theorem getD_eq_of_lt {α : Type} (l : List α) (d : α) {i : Nat} (h : i < l.length) :
    l.getD i d = l[i] := by
  simp [List.getD_eq_getElem?_getD, List.getElem?_eq_getElem h]

/-- Two boards with the same cells and the same counters are the same board. -/
theorem board_ext {a b : Board} (ha : a.cells.length = 81) (hb : b.cells.length = 81)
    (hcell : ∀ x, x < 81 → a.cellAt x = b.cellAt x) (hsa : CountShape a) (hsb : CountShape b)
    (hcnt : ∀ n v, n < 27 → v < 9 → getCount a n v = getCount b n v) : a = b := by
  have h1 : a.cells = b.cells := by
    apply List.ext_getElem (by rw [ha, hb])
    intro n h1 h2
    have := hcell n (by rw [← ha]; exact h1)
    unfold Board.cellAt at this
    rw [getD_eq_of_lt _ _ h1, getD_eq_of_lt _ _ h2] at this
    exact this
  have h2 : a.group_counts = b.group_counts := by
    apply List.ext_getElem (by rw [hsa.1, hsb.1])
    intro n h1 h2
    have hn : n < 27 := by rw [← hsa.1]; exact h1
    have hra := hsa.2 n hn
    have hrb := hsb.2 n hn
    rw [getD_eq_of_lt _ _ h1] at hra
    rw [getD_eq_of_lt _ _ h2] at hrb
    apply List.ext_getElem (by rw [hra]; exact hrb.symm)
    intro v h3 h4
    have hv : v < 9 := by rwa [hra] at h3
    have := hcnt n v hn hv
    unfold getCount at this
    rw [getD_eq_of_lt _ _ h1, getD_eq_of_lt _ _ h2, getD_eq_of_lt _ _ h3, getD_eq_of_lt _ _ h4]
      at this
    exact this
  cases a
  cases b
  simp only at h1 h2
  rw [h1, h2]

theorem cell_eq_of_sub {t u : Board} (ht : ∀ x, t.cellAt x < 512) (hu : ∀ x, u.cellAt x < 512)
    (h1 : Sub t u) (h2 : Sub u t) {x : Nat} (hx : x < 81) : t.cellAt x = u.cellAt x := by
  apply Nat.eq_of_testBit_eq
  intro i
  by_cases hi : i < 9
  · have a := h1 x hx i hi
    have b := h2 x hx i hi
    unfold Cell.isSet at a b
    cases h : (t.cellAt x).testBit i
    · cases h' : (u.cellAt x).testBit i
      · rfl
      · rw [b h'] at h
        exact Bool.noConfusion h
    · exact (a h).symm
  · have hp : (2 : Nat) ^ 9 ≤ 2 ^ i := Nat.pow_le_pow_right (by norm_num) (by omega)
    rw [Nat.testBit_lt_two_pow (lt_of_lt_of_le (ht x) hp),
      Nat.testBit_lt_two_pow (lt_of_lt_of_le (hu x) hp)]

theorem actual_congr {t u : Board} (h : ∀ x, x < 81 → t.cellAt x = u.cellAt x) {n : Nat}
    (hn : n < 27) (v : Nat) : actual t n v = actual u n v := by
  unfold actual
  apply List.countP_congr
  intro x hx
  rw [h x ((groups_shape n hn).2.2 x hx)]

/-- Two sound boards that hold the same candidates are the same board. -/
theorem sound_ext {t u : Board} (ht : Sound t) (hu : Sound u) (h1 : Sub t u) (h2 : Sub u t) :
    t = u := by
  have hcell : ∀ x, x < 81 → t.cellAt x = u.cellAt x :=
    fun x hx => cell_eq_of_sub ht.2.1 hu.2.1 h1 h2 hx
  apply board_ext ht.1 hu.1 hcell ht.2.2.1.1 hu.2.2.1.1
  intro n v hn hv
  have a := (ht.2.2.1.2 n v hn hv).1
  have b := (hu.2.2.1.2 n v hn hv).1
  beta_reduce at a b
  rw [a, b, actual_congr hcell hn v]

/-- From a sound board, the second order of two assignments removes no candidate that the
first order kept, when the first order ended on a board where no group has lost a digit. -/
theorem order_keeps {pf : Nat} {b0 a1 ta b1 tb : Board} {a x c y : Nat} (hs : Sound b0)
    (h1 : assign pf b0 a x = .ok (true, a1)) (h2 : assign pf a1 c y = .ok (true, ta))
    (h3 : assign pf b0 c y = .ok (true, b1)) (h4 : assign pf b1 a x = .ok (true, tb))
    (hgl : ¬ GroupLost ta) : Sub ta tb := by
  have hs1 := sound_assign hs h1
  have hsa := sound_assign hs1 h2
  have hsb1 := sound_assign hs h3
  have hx9 : x < 9 := lt_9_of_isSet (hs.2.1 a) (assign_ok_lt h1).2
  have hy9 : y < 9 := lt_9_of_isSet (hs.2.1 c) (assign_ok_lt h3).2
  have ha81 : a < 81 := by rw [← hs.1]; exact (assign_ok_lt h1).1
  have hc81 : c < 81 := by rw [← hs.1]; exact (assign_ok_lt h3).1
  have hT : Closed ta := ⟨hsa.2.2.2.1, hsa.2.2.2.2.1, hsa.2.2.2.2.2, hgl⟩
  have hp1 := (assign_spec pf b0 a x).1
  rw [h1] at hp1
  have hp2 := (assign_spec pf a1 c y).1
  rw [h2] at hp2
  -- on the board the first order ends on, both cells are fixed to their digits
  have hfa1 := assign_fixes hx9 h1
  have hfa : Cell.count (ta.cellAt a) = 1 ∧ Cell.val (ta.cellAt a) = x := by
    have := mono_fixed hp2.1 hfa1.1 (hsa.2.2.2.1 a ha81)
    exact ⟨this.1, this.2.trans hfa1.2⟩
  have hfc := assign_fixes hy9 h2
  have hsub0 : Sub ta b0 := sub_of_mono (mono_trans hp1.1 hp2.1)
  have hsub1 := (assign_keep hT hs.1 hc81 hs.2.2.1 hsub0 hfc h3).2
  exact (assign_keep hT hsb1.1 ha81 hsb1.2.2.1 hsub1 hfa h4).2

/-! ## Evaluations on concrete boards -/

theorem assign_fuel_ok {f g : Nat} (h : f ≤ g) {b b1 : Board} {c v : Nat} {t : Bool}
    (hr : assign f b c v = .ok (t, b1)) : assign g b c v = .ok (t, b1) := by
  have := assign_fuel h b c v
  rw [hr] at this
  rcases this with e | e
  · exact Outcome.noConfusion e
  · exact e

theorem assignSeq_cons {pf : Nat} {c d : Nat} {rest : List (Nat × Nat)} {b r : Board}
    (h : assignSeq pf ((c, d) :: rest) b = some r) :
    Cell.isSet (b.cellAt c) d = true ∧
      ∃ b1, assign pf b c d = .ok (true, b1) ∧ assignSeq pf rest b1 = some r := by
  unfold assignSeq at h
  split at h
  · rename_i hset
    split at h
    · rename_i b1 h1
      exact ⟨hset, b1, h1, h⟩
    · exact Option.noConfusion h
  · exact Option.noConfusion h

theorem assignSeq_two {pf : Nat} {a x c y : Nat} {b r : Board}
    (h : assignSeq pf [(a, x), (c, y)] b = some r) :
    ∃ a1, assign pf b a x = .ok (true, a1) ∧ assign pf a1 c y = .ok (true, r) := by
  obtain ⟨_, a1, h1, h2⟩ := assignSeq_cons h
  obtain ⟨_, r1, h3, h4⟩ := assignSeq_cons h2
  have : r1 = r := by unfold assignSeq at h4; injection h4
  subst this
  exact ⟨a1, h1, h3⟩

/-- On a board that still allows a complete grid no group has lost a digit. -/
theorem not_groupLost_of_cons {S : Nat → Nat} (hvg : ValidGrid S) {b : Board} (h : Cons S b) :
    ¬ GroupLost b := by
  rintro ⟨n, v, hn, hv, hall⟩
  obtain ⟨x, hx, hSx, _⟩ := hvg.2 n hn v hv
  have := h x ((groups_shape n hn).2.2 x hx)
  rw [hSx, hall x hx] at this
  exact Bool.noConfusion this

set_option maxRecDepth 100000 in
theorem eval_boardA : assignSeq 7 seqA fresh = some boardA := by decide!

theorem reach_boardA : Reach 730 boardA :=
  ⟨seqA, assignSeq_fuel (by norm_num) _ _ _ eval_boardA⟩

set_option maxRecDepth 100000 in
theorem eval_lost :
    (match assign 8 boardA 56 4 with
      | .ok (true, b1) => (groups.getD 24 []).all (fun x => !Cell.isSet (b1.cellAt x) 7)
      | _ => false) = true := by
  decide!

/-- On `boardA` the call `assign(56, 4)` returns true and leaves the box of cell 56 without a
cell for digit 7. -/
theorem lost_on_boardA :
    ∃ b1, assign 730 boardA 56 4 = .ok (true, b1) ∧
      ∀ x, x ∈ groups.getD 24 [] → Cell.isSet (b1.cellAt x) 7 = false := by
  have h := eval_lost
  split at h
  · rename_i b1 heq
    refine ⟨b1, assign_fuel_ok (by norm_num) heq, fun x hx => ?_⟩
    rw [List.all_eq_true] at h
    simpa using h x hx
  · exact Bool.noConfusion h

set_option maxRecDepth 100000 in
theorem eval_orders :
    (match assignSeq 8 [(56, 4), (59, 7)] boardA, assignSeq 8 [(59, 7), (56, 4)] boardA with
      | some r1, some r2 => decide (r1.cellAt 1 ≠ r2.cellAt 1)
      | _, _ => false) = true := by
  decide!

/-- On `boardA` the calls `assign(56, 4)` and `assign(59, 7)` return true in both orders, and
the two orders leave cell 1 with different candidates. -/
theorem orders_on_boardA :
    ∃ a1 r1 b1 r2, assign 730 boardA 56 4 = .ok (true, a1) ∧
      assign 730 a1 59 7 = .ok (true, r1) ∧ assign 730 boardA 59 7 = .ok (true, b1) ∧
      assign 730 b1 56 4 = .ok (true, r2) ∧ r1.cellAt 1 ≠ r2.cellAt 1 := by
  have h := eval_orders
  split at h
  · rename_i r1 r2 e1 e2
    obtain ⟨a1, h1, h2⟩ := assignSeq_two e1
    obtain ⟨b1, h3, h4⟩ := assignSeq_two e2
    exact ⟨a1, r1, b1, r2, assign_fuel_ok (by norm_num) h1, assign_fuel_ok (by norm_num) h2,
      assign_fuel_ok (by norm_num) h3, assign_fuel_ok (by norm_num) h4, by simpa using h⟩
  · exact Bool.noConfusion h

set_option maxRecDepth 100000 in
theorem eval_fail :
    (match assign 8 boardA 64 1 with
      | .ok (false, _) => Cell.isSet (boardA.cellAt 64) 1
      | _ => false) = true := by
  decide!

theorem fail_on_boardA :
    Cell.isSet (boardA.cellAt 64) 1 = true ∧ ∃ b1, assign 8 boardA 64 1 = .ok (false, b1) := by
  have h := eval_fail
  split at h
  · rename_i b1 heq
    exact ⟨h, b1, heq⟩
  · exact Bool.noConfusion h

/-- On the fresh board the digits the solution grid of the known puzzle has in cells 0 and 40
can be assigned in both orders, and no group loses a digit. -/
theorem fresh_orders :
    ∃ a1 r1 b1 r2, assign 730 fresh 0 4 = .ok (true, a1) ∧ assign 730 a1 40 4 = .ok (true, r1) ∧
      assign 730 fresh 40 4 = .ok (true, b1) ∧ assign 730 b1 0 4 = .ok (true, r2) ∧
      ¬ GroupLost r1 ∧ ¬ GroupLost r2 := by
  have hvg := isSolution_valid grid81_solution
  have e0 : grid81 0 - 1 = 4 := by decide
  have e40 : grid81 40 - 1 = 4 := by decide
  obtain ⟨a1, h1, hl1, hk1, hc1⟩ := assign_cons hvg (c := 0) length_fresh (by norm_num)
    CountInv_fresh (Cons_fresh hvg) bits_fresh_lt
  obtain ⟨r1, h2, _, _, hc2⟩ := assign_cons hvg (c := 40) hl1 (by norm_num) hk1 hc1
    (bits_lt_of_length hl1)
  obtain ⟨b1, h3, hl3, hk3, hc3⟩ := assign_cons hvg (c := 40) length_fresh (by norm_num)
    CountInv_fresh (Cons_fresh hvg) bits_fresh_lt
  obtain ⟨r2, h4, _, _, hc4⟩ := assign_cons hvg (c := 0) hl3 (by norm_num) hk3 hc3
    (bits_lt_of_length hl3)
  rw [e0] at h1 h4
  rw [e40] at h2 h3
  exact ⟨a1, r1, b1, r2, h1, h2, h3, h4, not_groupLost_of_cons hvg hc2,
    not_groupLost_of_cons hvg hc4⟩

theorem boardA_no_empty : ∀ x, x < boardA.cells.length → Cell.count (boardA.cellAt x) ≠ 0 := by
  decide!

theorem eval_remove_solved :
    Cell.isSet (solved81.cellAt 0) 0 = false ∧ 0 < solved81.cells.length := by
  decide

/-! ## The claims on propagation, search and the tables -/

/-- Claim C11. Monotonicity: whatever `remove(cell, d)`, `assign(cell, d)` or `solve()` returns,
true or false, the board afterwards has the cells it had and every candidate of every cell
afterwards was a candidate of that cell before; so no cell's candidate count has grown. -/
theorem candidates_only_shrink (fuel pf sf : Nat) (b b1 : Board) (c d : Nat) (t : Bool)
    (hd : d < 9)
    (h : remove fuel b c d = .ok (t, b1) ∨ assign fuel b c d = .ok (t, b1) ∨
      solve pf sf b = .ok (t, b1)) :
    b1.cells.length = b.cells.length ∧
      (∀ x i, Cell.isSet (b1.cellAt x) i = true → Cell.isSet (b.cellAt x) i = true) ∧
      ∀ x, Cell.count (b1.cellAt x) ≤ Cell.count (b.cellAt x) := by
  have m : Mono b b1 := by
    rcases h with h | h | h
    · exact mono_of_post (remove_spec fuel b c d hd).1 h
    · exact mono_of_post (assign_spec fuel b c d).1 h
    · exact mono_of_solve h
  exact ⟨m.1, m.2, mono_count_le m⟩

/-- Claim C11 applies to `assign(0, 4)` on the fresh board, which returns true. -/
theorem candidates_only_shrink_witness :
    ∃ b1, assign 3 fresh 0 4 = .ok (true, b1) ∧ b1.cells.length = fresh.cells.length ∧
      (∀ x i, Cell.isSet (b1.cellAt x) i = true → Cell.isSet (fresh.cellAt x) i = true) ∧
      ∀ x, Cell.count (b1.cellAt x) ≤ Cell.count (fresh.cellAt x) := by
  obtain ⟨b1, h⟩ := assign_fresh_ok
  exact ⟨b1, h, candidates_only_shrink 3 0 0 fresh b1 0 4 true (by norm_num) (Or.inr (Or.inl h))⟩

/-- Claim C12. A failed search does not corrupt the board: if `solve()` returns false, the cells and
the group counts are what they were before the call. -/
theorem failed_search_restores (pf sf : Nat) (b b1 : Board)
    (h : solve pf sf b = .ok (false, b1)) :
    b1.cells = b.cells ∧ b1.group_counts = b.group_counts := by
  have hp := solve_post pf sf b
  rw [h] at hp
  have e : b1 = b := hp
  rw [e]
  exact ⟨rfl, rfl⟩

/-- Claim C12 applies to a board with three cells of one row cut down to the same two digits: the
search tries both digits for cell 0 on clones, both assignments fail, and the board is
returned as it was. -/
theorem failed_search_restores_witness :
    ∃ b1, solve 4 1 stuckBoard = .ok (false, b1) ∧ b1.cells = stuckBoard.cells ∧
      b1.group_counts = stuckBoard.group_counts :=
  ⟨stuckBoard, eval_solve_stuck, failed_search_restores 4 1 stuckBoard stuckBoard eval_solve_stuck⟩

/-- Claim C13. Termination of the search: on every board of 81 cells, feasible or not, `solve()`
returns (with fuel for the 729 candidates in propagation) within a nesting depth of one more
than the number of cells whose candidate count is not 1, a number that is at most 81; and
every clone on which `solve()` is called recursively, the board after a successful
`assign(smallest(), j)`, has strictly fewer such cells than its parent. -/
theorem solve_terminates (pf sf : Nat) (b : Board) (hlen : b.cells.length = 81) (hpf : 730 ≤ pf)
    (hsf : unsolved b < sf) :
    (∃ t b1, solve pf sf b = .ok (t, b1)) ∧ unsolved b ≤ 81 ∧
      ∀ j cop, j < 9 → isSolved b = false → assign pf b (smallest b) j = .ok (true, cop) →
        cop.cells.length = 81 ∧ unsolved cop < unsolved b := by
  refine ⟨solve_total pf sf b hlen (lt_of_lt_of_le (bits_lt_of_length hlen) hpf) hsf, ?_, ?_⟩
  · have := unsolved_le b
    rwa [hlen] at this
  · intro j cop hj hs hr
    obtain ⟨hi, hi1⟩ := smallest_lt hs
    have hp := (assign_spec pf b (smallest b) j).1
    rw [hr] at hp
    exact ⟨hp.1.1.trans hlen, unsolved_lt hi hj hi1 hr⟩

/-- Claim C13 applies to the fresh board, none of whose 81 cells is fixed. -/
theorem solve_terminates_witness :
    fresh.cells.length = 81 ∧ unsolved fresh < 82 ∧
      (∃ t b1, solve 730 82 fresh = .ok (t, b1)) ∧ unsolved fresh ≤ 81 :=
  ⟨length_fresh, unsolved_fresh_lt,
    (solve_terminates 730 82 fresh length_fresh (le_refl _) unsolved_fresh_lt).1,
    (solve_terminates 730 82 fresh length_fresh (le_refl _) unsolved_fresh_lt).2.1⟩

/-- Claim C14. Postcondition of `assign`: for a digit `d` that is a candidate of the cell, if
`assign(cell, d)` returns true then the cell's candidate set is exactly `d`: its count is 1,
its value is `d`, and among the nine digits only `d` is set. -/
theorem assign_postcondition (fuel : Nat) (b b1 : Board) (c d : Nat) (hd : d < 9)
    (_hset : Cell.isSet (b.cellAt c) d = true) (h : assign fuel b c d = .ok (true, b1)) :
    Cell.count (b1.cellAt c) = 1 ∧ Cell.val (b1.cellAt c) = d ∧
      ∀ i, i < 9 → (Cell.isSet (b1.cellAt c) i = true ↔ i = d) :=
  ⟨(assign_fixes hd h).1, (assign_fixes hd h).2, exactly_of_fixed (assign_fixes hd h)⟩

/-- Claim C14 applies to `assign(0, 4)` on the fresh board. -/
theorem assign_postcondition_witness :
    Cell.isSet (fresh.cellAt 0) 4 = true ∧
      ∃ b1, assign 3 fresh 0 4 = .ok (true, b1) ∧ Cell.count (b1.cellAt 0) = 1 ∧
        Cell.val (b1.cellAt 0) = 4 ∧ ∀ i, i < 9 → (Cell.isSet (b1.cellAt 0) i = true ↔ i = 4) := by
  obtain ⟨b1, h⟩ := assign_fresh_ok
  exact ⟨by decide, b1, h, assign_postcondition 3 fresh b1 0 4 (by norm_num) (by decide) h⟩

/-- Claim C15, the statement as given fails: the board `boardA` is reached from the fresh board by ten
calls of `assign` that each returned true, digit 4 is a candidate of its cell 56, and
`assign(56, 4)` returns true although afterwards no cell of group 24, the box of cell 56,
holds digit 7. -/
theorem group_loss_unreported :
    ∃ b b1, Reach 730 b ∧ Cell.isSet (b.cellAt 56) 4 = true ∧
      assign 730 b 56 4 = .ok (true, b1) ∧ GroupLost b1 := by
  obtain ⟨b1, h, hl⟩ := lost_on_boardA
  exact ⟨boardA, b1, reach_boardA, (assign_ok_lt h).2, h, 24, 7, by norm_num, by norm_num, hl⟩

/-- Claim C15, amended: on every board reached from the fresh board by calls of `assign` that each
returned true, a further call `assign(cell, d)` with `d` a candidate of the cell returns
false exactly when it leaves some cell without a candidate. An emptied cell is always
reported; a group that lost a digit while no cell was emptied is not. -/
theorem empty_cell_reported (pf0 pf : Nat) (b b1 : Board) (c d : Nat) (t : Bool)
    (hreach : Reach pf0 b) (_hset : Cell.isSet (b.cellAt c) d = true)
    (h : assign pf b c d = .ok (t, b1)) : t = false ↔ HasEmpty b1 :=
  assign_false_iff (reach_sound hreach).1 (reach_sound hreach).2.2.2.1 h

/-- Claim C15 amended applies to `boardA`, on which `assign(64, 1)` returns false and leaves a cell
empty. -/
theorem empty_cell_reported_witness :
    Reach 7 boardA ∧ Cell.isSet (boardA.cellAt 64) 1 = true ∧
      ∃ b1, assign 8 boardA 64 1 = .ok (false, b1) ∧ HasEmpty b1 := by
  obtain ⟨hset, b1, h⟩ := fail_on_boardA
  exact ⟨⟨seqA, eval_boardA⟩, hset, b1, h,
    (empty_cell_reported 7 8 boardA b1 64 1 false ⟨seqA, eval_boardA⟩ hset h).1 rfl⟩

/-- Claim C16. Group-count invariant: on a board of 81 cells whose every counter equals the number of
cells of its group that hold its digit, a call `remove(cell, d)`, or `assign(cell, d)` with
`d` a candidate, that returns true leaves every counter equal to that number again; each
counter has gone down by exactly the number of cells of its group that lost its digit; and
the run is also a run of the checked `remove` and `assign`, so no decrement met a counter
at 0. -/
theorem group_counts_in_step (fuel : Nat) (b b1 : Board) (c d : Nat)
    (hlen : b.cells.length = 81) (hc : c < 81) (hd : d < 9) (hex : CountsExact b)
    (h : remove fuel b c d = .ok (true, b1) ∨
      (Cell.isSet (b.cellAt c) d = true ∧ assign fuel b c d = .ok (true, b1))) :
    CountsExact b1 ∧
      (∀ n v, n < 27 → v < 9 → getCount b1 n v + lost b b1 n v = getCount b n v) ∧
      (remove fuel b c d = .ok (true, b1) → removeChecked fuel b c d = .ok (true, b1)) ∧
      (assign fuel b c d = .ok (true, b1) → assignChecked fuel b c d = .ok (true, b1)) := by
  have hk := countInv_of_exact hex
  have hboth : CountInv (fun _ _ => 0) b1 ∧ Mono b b1 := by
    rcases h with h | ⟨_, h⟩
    · exact ⟨remove_count fuel b c d _ b1 hlen hc hd hk h,
        mono_of_post (remove_spec fuel b c d hd).1 h⟩
    · exact ⟨assign_count hlen hc hk h, mono_of_post (assign_spec fuel b c d).1 h⟩
  have hex1 := exact_of_countInv hboth.1
  refine ⟨hex1, fun n v hn hv => ?_, fun hr => remove_agree fuel b c d _ b1 hlen hc hd hk hr,
    fun hr => assign_agree hlen hc hk hr⟩
  rw [hex1.2 n v hn hv, hex.2 n v hn hv]
  exact actual_add_lost hboth.2 n v

/-- Claim C16 applies to `assign(0, 4)` on the fresh board, whose counters all stand at 9. -/
theorem group_counts_in_step_witness :
    fresh.cells.length = 81 ∧ CountsExact fresh ∧ Cell.isSet (fresh.cellAt 0) 4 = true ∧
      ∃ b1, assign 3 fresh 0 4 = .ok (true, b1) ∧ CountsExact b1 ∧
        assignChecked 3 fresh 0 4 = .ok (true, b1) := by
  obtain ⟨b1, h⟩ := assign_fresh_ok
  have hset : Cell.isSet (fresh.cellAt 0) 4 = true := by decide
  have := group_counts_in_step 3 fresh b1 0 4 length_fresh (by norm_num) (by norm_num)
    (exact_of_countInv CountInv_fresh) (Or.inr ⟨hset, h⟩)
  exact ⟨length_fresh, exact_of_countInv CountInv_fresh, hset, b1, h, this.1, this.2.2.2 h⟩

/-- Claim C17, the statement as given fails: on the fresh board with cell 0 emptied, `smallest()`
returns 0, the empty cell, where the reference definition over the cells with count above 1
gives 1. -/
theorem smallest_picks_empty_cell :
    smallest emptyCellBoard = 0 ∧ smallestRef emptyCellBoard = 1 := by
  decide!

/-- Claim C17, amended: `smallest()` returns the lowest index among the cells that have the minimum
candidate count taken over the cells with count other than 1, empty cells included, and the
size of the cell array when there is no such cell; on a board without an empty cell that is
the reference definition over the cells with count above 1. -/
theorem smallest_reference (b : Board) :
    smallest b = smallestBy (fun n => n != 1) b ∧
      ((∀ x, x < b.cells.length → Cell.count (b.cellAt x) ≠ 0) → smallest b = smallestRef b) := by
  refine ⟨smallest_eq_by b, fun h => ?_⟩
  rw [smallest_eq_by b]
  apply smallestBy_congr
  intro x hx
  have := h x hx
  by_cases h1 : Cell.count (b.cellAt x) = 1
  · simp [h1]
  · have h2 : 1 < Cell.count (b.cellAt x) := by omega
    simp [h1, h2]

/-- Claim C17 amended applies to `boardA`, which has no empty cell. -/
theorem smallest_reference_witness :
    (∀ x, x < boardA.cells.length → Cell.count (boardA.cellAt x) ≠ 0) ∧
      smallest boardA = smallestRef boardA :=
  ⟨boardA_no_empty, (smallest_reference boardA).2 boardA_no_empty⟩

/-- Claim C18. Idempotence of `remove`: for a cell of the board and a digit that is not a candidate
of it, `remove(cell, d)` returns true and leaves the board, cells and group counts, as it
was. -/
theorem remove_idempotent (fuel : Nat) (b : Board) (c d : Nat) (hc : c < b.cells.length)
    (hd : Cell.isSet (b.cellAt c) d = false) : remove (fuel + 1) b c d = .ok (true, b) :=
  remove_absent fuel b c d hc hd

/-- Claim C18 applies to the solved board of the known puzzle, whose cell 0 is fixed to another
digit than the one removed. -/
theorem remove_idempotent_witness :
    Cell.isSet (solved81.cellAt 0) 0 = false ∧ remove 1 solved81 0 0 = .ok (true, solved81) :=
  ⟨eval_remove_solved.1, remove_idempotent 0 solved81 0 0 eval_remove_solved.2 eval_remove_solved.1⟩

/-- Claim C19. The topology tables are correct: `initGroups` leaves 27 groups and 81 membership lists;
groups `2r` and `2r + 1` are row `r` and column `r`, groups 18 to 26 are the nine aligned
boxes; every group lists 9 distinct cells below 81; every membership list has exactly 3
distinct entries, the groups of the cell's row, column and box; and `g` is in
`belong_to[c]` exactly when `c` is in `groups[g]`. -/
theorem topology_tables_correct :
    groups.length = 27 ∧ belong_to.length = 81 ∧
      (∀ r, r < 9 → groups.getD (2 * r) [] = rowCells r ∧ groups.getD (2 * r + 1) [] = colCells r) ∧
      (∀ k, k < 9 → groups.getD (18 + k) [] = boxCells (k / 3) (k % 3)) ∧
      (∀ g, g < 27 → (groups.getD g []).length = 9 ∧ (groups.getD g []).Nodup ∧
        ∀ c ∈ groups.getD g [], c < 81) ∧
      (∀ c, c < 81 → (belong_to.getD c []).length = 3 ∧ (belong_to.getD c []).Nodup ∧
        2 * (c / 9) ∈ belong_to.getD c [] ∧ 2 * (c % 9) + 1 ∈ belong_to.getD c [] ∧
        18 + (3 * (c / 27) + c % 9 / 3) ∈ belong_to.getD c []) ∧
      ∀ c, c < 81 → ∀ g, g < 27 → (g ∈ belong_to.getD c [] ↔ c ∈ groups.getD g []) :=
  topology_tables

/-- Claim C19 applies to cell 40, the centre of the grid: it lies in row 4, column 4 and the middle
box, groups 8, 9 and 22. -/
theorem topology_tables_correct_witness :
    (40 ∈ groups.getD 8 [] ∧ 40 ∈ groups.getD 9 [] ∧ 40 ∈ groups.getD 22 []) :=
  ⟨(topology_tables_correct.2.2.2.2.2.2 40 (by norm_num) 8 (by norm_num)).1
      (topology_tables_correct.2.2.2.2.2.1 40 (by norm_num)).2.2.1,
    (topology_tables_correct.2.2.2.2.2.2 40 (by norm_num) 9 (by norm_num)).1
      (topology_tables_correct.2.2.2.2.2.1 40 (by norm_num)).2.2.2.1,
    (topology_tables_correct.2.2.2.2.2.2 40 (by norm_num) 22 (by norm_num)).1
      (topology_tables_correct.2.2.2.2.2.1 40 (by norm_num)).2.2.2.2⟩

/-- Claim C20, the statement as given fails: on `boardA`, reached from the fresh board by ten calls
of `assign` that each returned true, `assign(56, 4)` then `assign(59, 7)` both return true,
`assign(59, 7)` then `assign(56, 4)` both return true, and the two resulting boards differ
in the candidates of cell 1. -/
theorem two_orders_differ :
    ∃ b a1 r1 b1 r2, Reach 730 b ∧ assign 730 b 56 4 = .ok (true, a1) ∧
      assign 730 a1 59 7 = .ok (true, r1) ∧ assign 730 b 59 7 = .ok (true, b1) ∧
      assign 730 b1 56 4 = .ok (true, r2) ∧ r1 ≠ r2 := by
  obtain ⟨a1, r1, b1, r2, h1, h2, h3, h4, hne⟩ := orders_on_boardA
  exact ⟨boardA, a1, r1, b1, r2, reach_boardA, h1, h2, h3, h4, fun e => hne (by rw [e])⟩

/-- Claim C20, amended: on every board reached from the fresh board by calls of `assign` that each
returned true, if `assign(a, x)` then `assign(c, y)` both return true, `assign(c, y)` then
`assign(a, x)` both return true, and on neither resulting board a group has lost a digit in
all its cells, then the two resulting boards are identical, cells and group counts. -/
theorem assign_order_independent (pf0 pf : Nat) (b a1 ta b1 tb : Board) (a x c y : Nat)
    (hreach : Reach pf0 b)
    (h1 : assign pf b a x = .ok (true, a1)) (h2 : assign pf a1 c y = .ok (true, ta))
    (h3 : assign pf b c y = .ok (true, b1)) (h4 : assign pf b1 a x = .ok (true, tb))
    (hA : ¬ GroupLost ta) (hB : ¬ GroupLost tb) : ta = tb := by
  have hs := reach_sound hreach
  exact sound_ext (sound_assign (sound_assign hs h1) h2) (sound_assign (sound_assign hs h3) h4)
    (order_keeps hs h1 h2 h3 h4 hA) (order_keeps hs h3 h4 h1 h2 hB)

/-- Claim C20 amended applies to the fresh board and the assignments of digit 4 to cell 0 and to
cell 40, which succeed in both orders and lose no digit in any group. -/
theorem assign_order_independent_witness :
    ∃ a1 ta b1 tb, assign 730 fresh 0 4 = .ok (true, a1) ∧ assign 730 a1 40 4 = .ok (true, ta) ∧
      assign 730 fresh 40 4 = .ok (true, b1) ∧ assign 730 b1 0 4 = .ok (true, tb) ∧
      ¬ GroupLost ta ∧ ¬ GroupLost tb ∧ ta = tb := by
  obtain ⟨a1, ta, b1, tb, h1, h2, h3, h4, hA, hB⟩ := fresh_orders
  exact ⟨a1, ta, b1, tb, h1, h2, h3, h4, hA, hB,
    assign_order_independent 0 730 fresh a1 ta b1 tb 0 4 40 4 ⟨[], rfl⟩ h1 h2 h3 h4 hA hB⟩

end Sudoku
